import Mathlib

/-!
Order matching engine (`matcher.go`): embedding and verification

The Go program keeps an order book whose two sides are `OrderContainer`s: a
red-black tree of price levels (`priceTree`), a map from the price's text to the
same level (`priceHash`), and per level an `OrderQueue` holding a
`container/list` of `*Order`.

Conventions of the embedding.

* `decimal.Decimal` is exact arithmetic; only `Cmp`, `Add`, `Sub`, `Sign` and
  `String` are used.  Values are integers here (a quantity counted in its
  smallest unit).
* Go pointers are addresses into explicit stores carried by `OrderBook`:
  `orderAt` for `*Order`, `queueAt` for `*OrderQueue`.  A `*list.Element` is an
  `Element` carrying its own address, `nil` is `none`.
* A `func()` closure is a function `OrderBook → Option OrderBook`; `none` is a
  run-time panic (nil dereference).
* A `*rbtree.Node` is a subtree together with the path up to the root, so that
  `Parent`, `Left`, `Right` can be read as in the source.
-/

namespace Matcher

/-! ## Basic types -/

abbrev Decimal := Int

abbrev OrderID := Nat

inductive OrderType where
  | MarketOrderType
  | LimitOrderType
  deriving DecidableEq, Repr

inductive OrderDirection where
  | BuyOrderDirection
  | SellOrderDirection
  deriving DecidableEq, Repr

/-- The struct `Order`; the field `Type` of the source is `Kind` here. -/
structure Order where
  Amount : Decimal
  Price : Decimal
  ID : OrderID
  Kind : OrderType
  Dir : OrderDirection
  deriving DecidableEq, Repr

/-- Address of an `Order` (`*Order`). -/
abbrev OrderPtr := Nat

/-- Address of an `OrderQueue` (`*OrderQueue`). -/
abbrev QueuePtr := Nat

/-- The key type of `priceHash`. -/
abbrev priceKey := Decimal

/-- The call `price.String()`: the canonical text of a decimal, one text per numeric value. -/
def keyOf (price : Decimal) : priceKey := price

inductive Error where
  | ErrBadPrice
  | ErrBadAmount
  deriving DecidableEq, Repr

/-! ## `container/list` -/

/-- A `list.Element`: its address and the `*Order` stored in `Value`. -/
structure Element where
  addr : Nat
  Value : OrderPtr
  deriving DecidableEq, Repr

/-- A `list.List`: the linked elements front to back, and the next free element address. -/
structure GoList where
  elems : List Element
  fresh : Nat
  deriving DecidableEq, Repr

/-- The call `list.New()`. -/
def GoList.New : GoList := ⟨[], 0⟩

/-- The method `Len`. -/
def GoList.Len (l : GoList) : Nat := l.elems.length

/-- The method `Front`. -/
def GoList.Front (l : GoList) : Option Element := l.elems.head?

/-- The method `PushBack`: a new element is linked at the back. -/
def GoList.PushBack (l : GoList) (v : OrderPtr) : GoList :=
  ⟨l.elems ++ [⟨l.fresh, v⟩], l.fresh + 1⟩

/-- The method `Remove` on a non-nil element: unlinked when it belongs to the list,
nothing otherwise. -/
def GoList.Remove (l : GoList) (e : Element) : GoList :=
  ⟨l.elems.erase e, l.fresh⟩

/-! ## `OrderQueue`, `map`, tree, `OrderContainer`, `OrderBook` -/

structure OrderQueue where
  orders : GoList
  price : Decimal
  volume : Decimal
  deriving DecidableEq, Repr

/-- The call `newOrderQueue(price)` (the value stored at the new address). -/
def newOrderQueue (price : Decimal) : OrderQueue :=
  ⟨GoList.New, price, 0⟩

/-- A Go `map[priceKey]*OrderQueue` as an association list. -/
abbrev GoMap := List (priceKey × QueuePtr)

/-- Read `m[k]` with the `ok` flag. -/
def GoMap.get (m : GoMap) (k : priceKey) : Option QueuePtr :=
  match m with
  | [] => none
  | (k', v) :: rest => if k = k' then some v else GoMap.get rest k

/-- The statement `delete(m, k)`. -/
def GoMap.delete (m : GoMap) (k : priceKey) : GoMap :=
  m.filter (fun e => decide (e.1 ≠ k))

/-- The assignment `m[k] = v`. -/
def GoMap.set (m : GoMap) (k : priceKey) (v : QueuePtr) : GoMap :=
  (k, v) :: GoMap.delete m k

/-- The search tree behind `rbtree.Tree`, keys compared with `Decimal.Cmp`.
Colours and rebalancing are left out: they change the shape, not the order. -/
inductive Tree where
  | nil
  | node (Left : Tree) (Key : Decimal) (Value : QueuePtr) (Right : Tree)
  deriving DecidableEq, Repr

/-- Number of nodes (`Size`). -/
def Tree.size : Tree → Nat
  | .nil => 0
  | .node l _ _ r => l.size + 1 + r.size

/-- Keys and values in ascending key position (`Keys`/`Values` of the tree). -/
def Tree.inorder : Tree → List (Decimal × QueuePtr)
  | .nil => []
  | .node l k v r => l.inorder ++ (k, v) :: r.inorder

/-- The method `Put`: insert, or overwrite the value of an equal key. -/
def Tree.Put : Tree → Decimal → QueuePtr → Tree
  | .nil, key, value => .node .nil key value .nil
  | .node l k v r, key, value =>
    if key < k then .node (l.Put key value) k v r
    else if k < key then .node l k v (r.Put key value)
    else .node l key value r

/-- Unlink the maximum node of a non-empty tree: the rest, and the key and value unlinked. -/
def Tree.removeMax : Tree → Decimal → QueuePtr → Tree → Tree × Decimal × QueuePtr
  | l, k, v, .nil => (l, k, v)
  | l, k, v, .node rl rk rv rr =>
    let res := Tree.removeMax rl rk rv rr
    (.node l k v res.1, res.2)

/-- The method `Remove`: a node with two children takes the key and value of its
predecessor, which is unlinked instead. -/
def Tree.Remove : Tree → Decimal → Tree
  | .nil, _ => .nil
  | .node l k v r, key =>
    if key < k then .node (l.Remove key) k v r
    else if k < key then .node l k v (r.Remove key)
    else
      match l, r with
      | .nil, _ => r
      | .node ll lk lv lr, .nil => .node ll lk lv lr
      | .node ll lk lv lr, .node rl rk rv rr =>
        let res := Tree.removeMax ll lk lv lr
        .node res.1 res.2.1 res.2.2 (.node rl rk rv rr)

/-- One link of the path from a node to the root. -/
inductive Step where
  | leftOf (Key : Decimal) (Value : QueuePtr) (Right : Tree)
  | rightOf (Left : Tree) (Key : Decimal) (Value : QueuePtr)
  deriving DecidableEq, Repr

/-- A non-nil `*rbtree.Node`: its fields and the path to the root (`up`), from
which `Parent` is read. -/
structure Node where
  Left : Tree
  Key : Decimal
  Value : QueuePtr
  Right : Tree
  up : List Step
  deriving DecidableEq, Repr

/-- The subtree rooted at the node. -/
def Node.tree (n : Node) : Tree := .node n.Left n.Key n.Value n.Right

/-- The loop `for { if n.Left == nil { return n }; n = n.Left }` started at the
node with the given fields. -/
def descendLeft : Tree → Decimal → QueuePtr → Tree → List Step → Node
  | .nil, k, v, r, up => ⟨.nil, k, v, r, up⟩
  | .node ll lk lv lr, k, v, r, up => descendLeft ll lk lv lr (.leftOf k v r :: up)

/-- The loop `for { if n.Right == nil { return n }; n = n.Right }`. -/
def descendRight : Tree → Decimal → QueuePtr → Tree → List Step → Node
  | l, k, v, .nil, up => ⟨l, k, v, .nil, up⟩
  | l, k, v, .node rl rk rv rr, up => descendRight rl rk rv rr (.rightOf l k v :: up)

/-- The method `Left` of the tree: its minimum node, `nil` for the empty tree. -/
def Tree.Left : Tree → Option Node
  | .nil => none
  | .node l k v r => some (descendLeft l k v r [])

/-- The method `Right` of the tree: its maximum node, `nil` for the empty tree. -/
def Tree.Right : Tree → Option Node
  | .nil => none
  | .node l k v r => some (descendRight l k v r [])

/-- The climbing loop of `nextMinNode`: `cur` has the given fields and `par` is the
head of the path; returns `par` as soon as `cur.Key < par.Key`. -/
def climbMin : Tree → Decimal → QueuePtr → Tree → List Step → Option Node
  | _, _, _, _, [] => none
  | l, k, v, r, .leftOf pk pv pr :: up =>
    if k < pk then some ⟨.node l k v r, pk, pv, pr, up⟩
    else climbMin (.node l k v r) pk pv pr up
  | l, k, v, r, .rightOf pl pk pv :: up =>
    if k < pk then some ⟨pl, pk, pv, .node l k v r, up⟩
    else climbMin pl pk pv (.node l k v r) up

/-- The climbing loop of `nextMaxNode`: returns `par` as soon as `cur.Key > par.Key`. -/
def climbMax : Tree → Decimal → QueuePtr → Tree → List Step → Option Node
  | _, _, _, _, [] => none
  | l, k, v, r, .leftOf pk pv pr :: up =>
    if k > pk then some ⟨.node l k v r, pk, pv, pr, up⟩
    else climbMax (.node l k v r) pk pv pr up
  | l, k, v, r, .rightOf pl pk pv :: up =>
    if k > pk then some ⟨pl, pk, pv, .node l k v r, up⟩
    else climbMax pl pk pv (.node l k v r) up

/-- The function `nextMinNode`. -/
def nextMinNode (cur : Node) : Option Node :=
  match cur.Right with
  | .node rl rk rv rr =>
    some (descendLeft rl rk rv rr (.rightOf cur.Left cur.Key cur.Value :: cur.up))
  | .nil => climbMin cur.Left cur.Key cur.Value cur.Right cur.up

/-- The function `nextMaxNode`. -/
def nextMaxNode (cur : Node) : Option Node :=
  match cur.Left with
  | .node ll lk lv lr =>
    some (descendRight ll lk lv lr (.leftOf cur.Key cur.Value cur.Right :: cur.up))
  | .nil => climbMax cur.Left cur.Key cur.Value cur.Right cur.up

structure OrderContainer where
  priceTree : Tree
  priceHash : GoMap
  volume : Decimal
  deriving DecidableEq, Repr

/-- The call `newOrderContainer()`. -/
def newOrderContainer : OrderContainer := ⟨.nil, [], 0⟩

/-- Which of the two containers of the book a `*OrderContainer` points to. -/
inductive ContainerPtr where
  | buy
  | sell
  deriving DecidableEq, Repr

/-- The struct `OrderBook` with the memory reachable from it: the orders and
queues behind the pointers, and the next unused queue address. -/
structure OrderBook where
  orderAt : OrderPtr → Order
  queueAt : QueuePtr → OrderQueue
  nextQueue : QueuePtr
  buy : OrderContainer
  sell : OrderContainer

/-- A `finalizerFn`: a closure run at commit; `none` is a panic. -/
abbrev finalizerFn := OrderBook → Option OrderBook

/-- The call `NewOrderBook()`; no order and no queue is allocated yet. -/
def NewOrderBook : OrderBook :=
  { orderAt := fun _ => ⟨0, 0, 0, .MarketOrderType, .BuyOrderDirection⟩
    queueAt := fun _ => newOrderQueue 0
    nextQueue := 0
    buy := newOrderContainer
    sell := newOrderContainer }

/-- Dereference a container pointer. -/
def OrderBook.container (ob : OrderBook) : ContainerPtr → OrderContainer
  | .buy => ob.buy
  | .sell => ob.sell

/-- Store through a container pointer. -/
def OrderBook.setContainer (ob : OrderBook) (oc : ContainerPtr) (c : OrderContainer) : OrderBook :=
  match oc with
  | .buy => { ob with buy := c }
  | .sell => { ob with sell := c }

/-- Store through a queue pointer. -/
def OrderBook.setQueue (ob : OrderBook) (oq : QueuePtr) (q : OrderQueue) : OrderBook :=
  { ob with queueAt := fun p => if p = oq then q else ob.queueAt p }

/-- Store through an order pointer. -/
def OrderBook.setOrder (ob : OrderBook) (p : OrderPtr) (o : Order) : OrderBook :=
  { ob with orderAt := fun p' => if p' = p then o else ob.orderAt p' }

/-- The method `(*OrderContainer).Volume`. -/
def OrderContainer.Volume (ob : OrderBook) (oc : ContainerPtr) : Decimal :=
  (ob.container oc).volume

/-! ## `OrderQueue` methods -/

/-- The method `(*OrderQueue).Price`. -/
def OrderQueue.Price (ob : OrderBook) (oq : QueuePtr) : Decimal := (ob.queueAt oq).price

/-- The method `(*OrderQueue).Volume`. -/
def OrderQueue.Volume (ob : OrderBook) (oq : QueuePtr) : Decimal := (ob.queueAt oq).volume

/-- The method `(*OrderQueue).Add`. -/
def OrderQueue.Add (ob : OrderBook) (oq : QueuePtr) (order : OrderPtr) : OrderBook :=
  let q := ob.queueAt oq
  ob.setQueue oq
    { q with orders := q.orders.PushBack order, volume := q.volume + (ob.orderAt order).Amount }

/-- The method `(*OrderQueue).Remove`.  With `el == nil` the call `oq.orders.Remove(el)`
dereferences nil and panics.  Otherwise the element is unlinked if it is in the
list, and in either case the volume drops by the amount of the order in `el.Value`. -/
def OrderQueue.Remove (ob : OrderBook) (oq : QueuePtr) (el : Option Element) : Option OrderBook :=
  match el with
  | none => none
  | some e =>
    let q := ob.queueAt oq
    let order := e.Value
    some (ob.setQueue oq
      { q with orders := q.orders.Remove e, volume := q.volume - (ob.orderAt order).Amount })

/-- The method `(*OrderQueue).update`. -/
def OrderQueue.update (ob : OrderBook) (oq : QueuePtr) (order : OrderPtr) (amount : Decimal) :
    OrderBook :=
  let ob1 := ob.setOrder order { ob.orderAt order with Amount := amount }
  let q := ob1.queueAt oq
  ob1.setQueue oq { q with volume := q.volume - amount }

/-- The loop `for _, fn := range finalizers { fn() }`. -/
def runFinalizers : List finalizerFn → finalizerFn
  | [], ob => some ob
  | fn :: rest, ob =>
    match fn ob with
    | none => none
    | some ob1 => runFinalizers rest ob1

/-- The loop of `Process` over `el, el.Next(), ...`.  Result: `devastated`,
`amountLeft`, the appended closures, and the value of the variable `el` when the
loop is left.  The variable `el` is declared once, before the loop, and the
closures `func() { oq.Remove(el) }` refer to that variable, so each of them is a
function of the value `el` holds when it runs; `currOrder` and `amount` are
declared inside the body and are fixed per closure. -/
def processLoop (ob : OrderBook) (oq : QueuePtr) :
    List Element → Decimal →
      List OrderPtr × Decimal × List (Option Element → finalizerFn) × Option Element
  | [], amountLeft => ([], amountLeft, [], none)
  | el :: rest, amountLeft =>
    let currOrder := el.Value
    if amountLeft < (ob.orderAt currOrder).Amount then
      let amount := (ob.orderAt currOrder).Amount - amountLeft
      ([], 0, [fun _ s => some (OrderQueue.update s oq currOrder amount)], some el)
    else
      let res := processLoop ob oq rest (amountLeft - (ob.orderAt currOrder).Amount)
      (currOrder :: res.1, res.2.1, (fun e s => OrderQueue.Remove s oq e) :: res.2.2.1, res.2.2.2)

/-- The method `(*OrderQueue).Process`.  After the loop nothing assigns `el`, so the
closures see its final value. -/
def OrderQueue.Process (ob : OrderBook) (oq : QueuePtr) (_order : OrderPtr) (amount : Decimal) :
    List OrderPtr × Decimal × finalizerFn :=
  if (ob.queueAt oq).orders.Len = 0 then ([], 0, fun s => some s)
  else
    let res := processLoop ob oq (ob.queueAt oq).orders.elems amount
    (res.1, res.2.1, runFinalizers (res.2.2.1.map (fun fn => fn res.2.2.2)))

/-! ## `OrderContainer` methods -/

/-- The method `(*OrderContainer).Add`.  The last statement of the source,
`oc.volume.Add(order.Amount)`, computes a sum and drops it: `volume` is not assigned. -/
def OrderContainer.Add (ob : OrderBook) (oc : ContainerPtr) (order : OrderPtr) : OrderBook :=
  let price := (ob.orderAt order).Price
  let key := keyOf price
  match (ob.container oc).priceHash.get key with
  | some queue => OrderQueue.Add ob queue order
  | none =>
    let queue := ob.nextQueue
    let ob1 := { ob.setQueue queue (newOrderQueue price) with nextQueue := queue + 1 }
    let c := ob1.container oc
    let ob2 := ob1.setContainer oc
      { c with priceHash := c.priceHash.set key queue, priceTree := c.priceTree.Put price queue }
    OrderQueue.Add ob2 queue order

/-- The method `(*OrderContainer).Remove`. -/
def OrderContainer.Remove (ob : OrderBook) (oc : ContainerPtr) (price : Decimal) : OrderBook :=
  let key := keyOf price
  let c := ob.container oc
  match c.priceHash.get key with
  | none => ob
  | some queue =>
    ob.setContainer oc
      { priceHash := c.priceHash.delete key
        priceTree := c.priceTree.Remove price
        volume := c.volume - OrderQueue.Volume ob queue }

/-- The closure `func() { oc.Remove(queue.Price()) }`. -/
def removeLevel (oc : ContainerPtr) (queue : QueuePtr) : finalizerFn :=
  fun s => some (OrderContainer.Remove s oc (OrderQueue.Price s queue))

/-- The closure staged for one level by `matchMinPrice` / `matchMaxPrice`: the test
`order.Amount.GreaterThanOrEqual(queue.Volume())` is made while staging. -/
def levelFinalizer (ob : OrderBook) (oc : ContainerPtr) (order : OrderPtr) (queue : QueuePtr)
    (finalizer : finalizerFn) : finalizerFn :=
  if (ob.orderAt order).Amount ≥ OrderQueue.Volume ob queue then removeLevel oc queue
  else fun s => finalizer s

/-- The loop of `matchMinPrice` from `node` on; the first argument bounds the number
of iterations, `none` means the bound was reached with the loop still running. -/
def matchMinLoop (ob : OrderBook) (oc : ContainerPtr) (order : OrderPtr)
    (stopPrice : Option Decimal) :
    Nat → Option Node → Decimal → Option (List OrderPtr × Decimal × List finalizerFn)
  | _, none, amountLeft => some ([], amountLeft, [])
  | 0, some _, _ => none
  | fuel + 1, some node, amountLeft =>
    let queue := node.Value
    if stopPrice.any (fun stop => decide (OrderQueue.Price ob queue > stop)) then
      some ([], amountLeft, [])
    else
      let res := OrderQueue.Process ob queue order amountLeft
      let fin := levelFinalizer ob oc order queue res.2.2
      if res.2.1 = 0 then some (res.1, res.2.1, [fin])
      else
        match matchMinLoop ob oc order stopPrice fuel (nextMinNode node) res.2.1 with
        | none => none
        | some more => some (res.1 ++ more.1, more.2.1, fin :: more.2.2)

/-- The loop of `matchMaxPrice`. -/
def matchMaxLoop (ob : OrderBook) (oc : ContainerPtr) (order : OrderPtr)
    (stopPrice : Option Decimal) :
    Nat → Option Node → Decimal → Option (List OrderPtr × Decimal × List finalizerFn)
  | _, none, amountLeft => some ([], amountLeft, [])
  | 0, some _, _ => none
  | fuel + 1, some node, amountLeft =>
    let queue := node.Value
    if stopPrice.any (fun stop => decide (OrderQueue.Price ob queue < stop)) then
      some ([], amountLeft, [])
    else
      let res := OrderQueue.Process ob queue order amountLeft
      let fin := levelFinalizer ob oc order queue res.2.2
      if res.2.1 = 0 then some (res.1, res.2.1, [fin])
      else
        match matchMaxLoop ob oc order stopPrice fuel (nextMaxNode node) res.2.1 with
        | none => none
        | some more => some (res.1 ++ more.1, more.2.1, fin :: more.2.2)

/-- The method `matchMinPrice`; the loop may run once per node of the tree. -/
def OrderContainer.matchMinPrice (ob : OrderBook) (oc : ContainerPtr) (order : OrderPtr)
    (stopPrice : Option Decimal) : Option (List OrderPtr × Decimal × finalizerFn) :=
  let tree := (ob.container oc).priceTree
  match matchMinLoop ob oc order stopPrice tree.size tree.Left (ob.orderAt order).Amount with
  | none => none
  | some res => some (res.1, res.2.1, runFinalizers res.2.2)

/-- The method `matchMaxPrice`. -/
def OrderContainer.matchMaxPrice (ob : OrderBook) (oc : ContainerPtr) (order : OrderPtr)
    (stopPrice : Option Decimal) : Option (List OrderPtr × Decimal × finalizerFn) :=
  let tree := (ob.container oc).priceTree
  match matchMaxLoop ob oc order stopPrice tree.size tree.Right (ob.orderAt order).Amount with
  | none => none
  | some res => some (res.1, res.2.1, runFinalizers res.2.2)

/-! ## `Transaction` and `OrderBook` methods -/

/-- The struct `Transaction`; a nil `finalize` is `none`. -/
structure Transaction where
  orders : List OrderPtr
  finalize : Option finalizerFn

/-- The call `newTransaction(orders, finalize)`. -/
def newTransaction (orders : List OrderPtr) (finalize : finalizerFn) : Transaction :=
  ⟨orders, some finalize⟩

/-- The method `Commit`: the returned orders, the transaction afterwards and the
book afterwards; `none` when the staged closure panics. -/
def Transaction.Commit (tr : Transaction) (ob : OrderBook) :
    Option (List OrderPtr × Transaction × OrderBook) :=
  match tr.finalize with
  | some fn =>
    match fn ob with
    | none => none
    | some ob1 => some (tr.orders, { tr with finalize := none }, ob1)
  | none => some (tr.orders, tr, ob)

/-- The method `Rollback`: the transaction and the book afterwards. -/
def Transaction.Rollback (tr : Transaction) (ob : OrderBook) : Transaction × OrderBook :=
  ({ tr with orders := [], finalize := none }, ob)

/-- How a call of `SubmitOrder` ends. -/
inductive Submitted where
  | returned (tr : Transaction)
  | failed (err : Error)
  | panicked
  | running

/-- The closure that `matchLimitOrder` stages for a taker with a rest. -/
def restFinalizer (finalizer : finalizerFn) (order : OrderPtr) (amountLeft : Decimal)
    (own : ContainerPtr) : finalizerFn :=
  fun s =>
    match finalizer s with
    | none => none
    | some s1 =>
      let s2 := s1.setOrder order { s1.orderAt order with Amount := amountLeft }
      some (OrderContainer.Add s2 own order)

/-- The method `matchMarketOrder`. -/
def OrderBook.matchMarketOrder (ob : OrderBook) (order : OrderPtr) : Submitted :=
  if (ob.orderAt order).Dir = .BuyOrderDirection then
    if (ob.orderAt order).Amount < OrderContainer.Volume ob .sell then
      .returned (newTransaction [] (fun s => some s))
    else
      match OrderContainer.matchMinPrice ob .sell order (some (ob.orderAt order).Price) with
      | none => .running
      | some res =>
        if res.2.1 > 0 then .panicked
        else .returned (newTransaction (res.1 ++ [order]) res.2.2)
  else
    if (ob.orderAt order).Amount < OrderContainer.Volume ob .buy then
      .returned (newTransaction [] (fun s => some s))
    else
      match OrderContainer.matchMaxPrice ob .buy order (some (ob.orderAt order).Price) with
      | none => .running
      | some res =>
        if res.2.1 > 0 then .panicked
        else .returned (newTransaction (res.1 ++ [order]) res.2.2)

/-- The method `matchLimitOrder`. -/
def OrderBook.matchLimitOrder (ob : OrderBook) (order : OrderPtr) : Submitted :=
  if (ob.orderAt order).Dir = .BuyOrderDirection then
    match OrderContainer.matchMinPrice ob .sell order (some (ob.orderAt order).Price) with
    | none => .running
    | some res =>
      if res.2.1 > 0 then
        .returned (newTransaction res.1 (restFinalizer res.2.2 order res.2.1 .buy))
      else .returned (newTransaction (res.1 ++ [order]) res.2.2)
  else
    match OrderContainer.matchMaxPrice ob .buy order (some (ob.orderAt order).Price) with
    | none => .running
    | some res =>
      if res.2.1 > 0 then
        .returned (newTransaction res.1 (restFinalizer res.2.2 order res.2.1 .sell))
      else .returned (newTransaction (res.1 ++ [order]) res.2.2)

/-- The method `SubmitOrder`: how the call ends, and the book afterwards (no
statement of the call assigns to the book). -/
def OrderBook.SubmitOrder (ob : OrderBook) (order : OrderPtr) : Submitted × OrderBook :=
  if (ob.orderAt order).Price ≤ 0 then (.failed .ErrBadPrice, ob)
  else if (ob.orderAt order).Amount ≤ 0 then (.failed .ErrBadAmount, ob)
  else if (ob.orderAt order).Kind = .MarketOrderType then (ob.matchMarketOrder order, ob)
  else (ob.matchLimitOrder order, ob)

/-! ## The test helper and views of the book -/

/-- The helper `submitOrder` of `matcher_test.go`: the order is passed by value, so
`&o` is a new address (`p` here); the order is submitted and the transaction
committed.  `none` when the submission does not return a transaction without
error, or the commit panics. -/
def submitOrder (ob : OrderBook) (p : OrderPtr) (o : Order) : Option (List OrderPtr × OrderBook) :=
  match (ob.setOrder p o).SubmitOrder p with
  | (.returned tr, ob1) =>
    match tr.Commit ob1 with
    | none => none
    | some res => some (res.1, res.2.2)
  | _ => none

/-- Submit and commit a sequence of orders, the first at address `p`, the next at
`p + 1`, and so on; the book after the last commit. -/
def submitAll : OrderBook → OrderPtr → List Order → Option OrderBook
  | ob, _, [] => some ob
  | ob, p, o :: rest =>
    match submitOrder ob p o with
    | none => none
    | some res => submitAll res.2 (p + 1) rest

/-- The orders of a level, front to back, as addresses. -/
def OrderBook.fifo (ob : OrderBook) (oq : QueuePtr) : List OrderPtr :=
  (ob.queueAt oq).orders.elems.map (fun e => e.Value)

/-- The sum of the amounts of the orders of a level. -/
def OrderBook.fifoAmount (ob : OrderBook) (oq : QueuePtr) : Decimal :=
  ((ob.fifo oq).map (fun p => (ob.orderAt p).Amount)).sum

/-- The levels of a side in ascending price position: key and queue address. -/
def OrderBook.levels (ob : OrderBook) (oc : ContainerPtr) : List (Decimal × QueuePtr) :=
  (ob.container oc).priceTree.inorder

/-- What a test reads from a side: per level, ascending, the price, the orders
(id and amount) front to back, and the volume. -/
def OrderBook.view (ob : OrderBook) (oc : ContainerPtr) :
    List (Decimal × List (OrderID × Decimal) × Decimal) :=
  (ob.levels oc).map (fun e =>
    (e.1, (ob.fifo e.2).map (fun p => ((ob.orderAt p).ID, (ob.orderAt p).Amount)),
      (ob.queueAt e.2).volume))

/-! ## Specification vocabulary -/

/-- The tree that a path leads up to, from the subtree it starts at. -/
def zipUp : Tree → List Step → Tree
  | t, [] => t
  | t, .leftOf k v r :: up => zipUp (.node t k v r) up
  | t, .rightOf l k v :: up => zipUp (.node l k v t) up

/-- The entries of the whole tree that come before the subtree a path starts at. -/
def upBefore : List Step → List (Decimal × QueuePtr)
  | [] => []
  | .leftOf _ _ _ :: up => upBefore up
  | .rightOf l k v :: up => upBefore up ++ (l.inorder ++ [(k, v)])

/-- The entries of the whole tree that come after the subtree a path starts at. -/
def upAfter : List Step → List (Decimal × QueuePtr)
  | [] => []
  | .leftOf k v r :: up => (k, v) :: (r.inorder ++ upAfter up)
  | .rightOf _ _ _ :: up => upAfter up

/-- The tree a node belongs to. -/
def Node.root (n : Node) : Tree := zipUp n.tree n.up

/-- The entries after a node, ascending. -/
def Node.after (n : Node) : List (Decimal × QueuePtr) := n.Right.inorder ++ upAfter n.up

/-- The entries before a node, ascending. -/
def Node.before (n : Node) : List (Decimal × QueuePtr) := upBefore n.up ++ n.Left.inorder

/-- The keys of the tree are strictly ascending: it is a search tree. -/
def Tree.ordered (t : Tree) : Prop := (t.inorder.map Prod.fst).Pairwise (fun a b => a < b)

instance (t : Tree) : Decidable t.ordered := by
  unfold Tree.ordered; infer_instance

/-- The stop test of `matchMinPrice` on a level price. -/
def stopMin (stopPrice : Option Decimal) (price : Decimal) : Bool :=
  stopPrice.any (fun stop => decide (price > stop))

/-- The stop test of `matchMaxPrice` on a level price. -/
def stopMax (stopPrice : Option Decimal) (price : Decimal) : Bool :=
  stopPrice.any (fun stop => decide (price < stop))

/-- The walk of `matchMinPrice` / `matchMaxPrice` written over the list of the levels
still to visit, best first. -/
def matchLevels (ob : OrderBook) (oc : ContainerPtr) (order : OrderPtr) (stop : Decimal → Bool) :
    List QueuePtr → Decimal → List OrderPtr × Decimal × List finalizerFn
  | [], amountLeft => ([], amountLeft, [])
  | queue :: rest, amountLeft =>
    if stop (OrderQueue.Price ob queue) then ([], amountLeft, [])
    else
      let res := OrderQueue.Process ob queue order amountLeft
      let fin := levelFinalizer ob oc order queue res.2.2
      if res.2.1 = 0 then (res.1, res.2.1, [fin])
      else
        let more := matchLevels ob oc order stop rest res.2.1
        (res.1 ++ more.1, more.2.1, fin :: more.2.2)

/-- A level of the data model: the queue carries the price it is filed under, it is
not empty, and its orders carry that price and a positive amount. -/
def OrderBook.levelOK (ob : OrderBook) (e : Decimal × QueuePtr) : Prop :=
  (ob.queueAt e.2).price = e.1 ∧ (ob.queueAt e.2).orders.elems ≠ [] ∧
    ∀ el ∈ (ob.queueAt e.2).orders.elems,
      (ob.orderAt el.Value).Price = e.1 ∧ 0 < (ob.orderAt el.Value).Amount

instance (ob : OrderBook) (e : Decimal × QueuePtr) : Decidable (ob.levelOK e) := by
  unfold OrderBook.levelOK; infer_instance

/-- A side of the data model: a search tree whose entries are exactly those of the
map, every level well formed. -/
def OrderBook.sideOK (ob : OrderBook) (oc : ContainerPtr) : Prop :=
  (ob.container oc).priceTree.ordered ∧
  (∀ e ∈ ob.levels oc, (ob.container oc).priceHash.get (keyOf e.1) = some e.2) ∧
  (∀ e ∈ (ob.container oc).priceHash, e ∈ ob.levels oc) ∧
  (∀ e ∈ ob.levels oc, ob.levelOK e)

instance (ob : OrderBook) (oc : ContainerPtr) : Decidable (ob.sideOK oc) := by
  unfold OrderBook.sideOK; infer_instance

/-- A book of the data model: both sides well formed, no queue filed twice, every
queue address allocated. -/
def OrderBook.WF (ob : OrderBook) : Prop :=
  ob.sideOK .buy ∧ ob.sideOK .sell ∧
  ((ob.levels .buy ++ ob.levels .sell).map Prod.snd).Nodup ∧
  ∀ e ∈ ob.levels .buy ++ ob.levels .sell, e.2 < ob.nextQueue

instance (ob : OrderBook) : Decidable ob.WF := by
  unfold OrderBook.WF; infer_instance

/-- Every level's volume is the sum of the amounts of its orders. -/
def OrderBook.volumeOK (ob : OrderBook) : Prop :=
  (∀ e ∈ ob.levels .buy, (ob.queueAt e.2).volume = ob.fifoAmount e.2) ∧
  (∀ e ∈ ob.levels .sell, (ob.queueAt e.2).volume = ob.fifoAmount e.2)

instance (ob : OrderBook) : Decidable ob.volumeOK := by
  unfold OrderBook.volumeOK; infer_instance

/-- The side a taker is matched against. -/
def opposite : OrderDirection → ContainerPtr
  | .BuyOrderDirection => .sell
  | .SellOrderDirection => .buy

/-- The side a taker rests on. -/
def ownSide : OrderDirection → ContainerPtr
  | .BuyOrderDirection => .buy
  | .SellOrderDirection => .sell

/-- The levels a taker of the given direction is matched against, best price first:
ascending for a buy, descending for a sell. -/
def OrderBook.bestFirst (ob : OrderBook) (dir : OrderDirection) : List (Decimal × QueuePtr) :=
  match dir with
  | .BuyOrderDirection => ob.levels .sell
  | .SellOrderDirection => (ob.levels .buy).reverse

/-- The resting orders of some levels, level by level, front to back in each. -/
def OrderBook.ordersOf (ob : OrderBook) (ls : List (Decimal × QueuePtr)) : List OrderPtr :=
  ls.flatMap (fun e => ob.fifo e.2)

/-- The total amount resting in some levels. -/
def OrderBook.amountOf (ob : OrderBook) (ls : List (Decimal × QueuePtr)) : Decimal :=
  (ls.map (fun e => ob.fifoAmount e.2)).sum

/-- A level met by the walk that is not beyond the stop price, well formed, whose
volume is the sum of its amounts and does not exceed the taker's amount. -/
def drained (ob : OrderBook) (order : OrderPtr) (stop : Decimal → Bool)
    (e : Decimal × QueuePtr) : Prop :=
  stop (OrderQueue.Price ob e.2) = false ∧ ob.levelOK e ∧
    (ob.queueAt e.2).volume = ob.fifoAmount e.2 ∧
    (ob.queueAt e.2).volume ≤ (ob.orderAt order).Amount

/-- The side is indexed: a search tree whose entries the map knows. -/
def OrderBook.indexed (ob : OrderBook) (oc : ContainerPtr) : Prop :=
  (ob.container oc).priceTree.ordered ∧
  ∀ e ∈ ob.levels oc, (ob.container oc).priceHash.get (keyOf e.1) = some e.2

/-- A level price is marketable for a taker: not above a buy's price, not below a sell's. -/
def marketable (dir : OrderDirection) (price : Decimal) (level : Decimal) : Bool :=
  match dir with
  | .BuyOrderDirection => decide (level ≤ price)
  | .SellOrderDirection => decide (price ≤ level)

/-- The stop test a taker of the given direction and price applies to a level price. -/
def stopOf (dir : OrderDirection) (price : Decimal) : Decimal → Bool :=
  match dir with
  | .BuyOrderDirection => stopMin (some price)
  | .SellOrderDirection => stopMax (some price)

/-- The order at an address is valid for submission: positive price and amount. -/
def OrderBook.validOrder (ob : OrderBook) (p : OrderPtr) : Prop :=
  0 < (ob.orderAt p).Price ∧ 0 < (ob.orderAt p).Amount

instance (ob : OrderBook) (p : OrderPtr) : Decidable (ob.validOrder p) := by
  unfold OrderBook.validOrder; infer_instance


/-! ## Concrete books -/

/-- The transaction of a submission that returned one (the empty one otherwise). -/
def returnedBy (s : Submitted) : Transaction :=
  match s with
  | .returned tr => tr
  | _ => ⟨[], none⟩

/-- A limit buy order. -/
def limitBuy (id : OrderID) (price amount : Decimal) : Order :=
  ⟨amount, price, id, .LimitOrderType, .BuyOrderDirection⟩

/-- A limit sell order. -/
def limitSell (id : OrderID) (price amount : Decimal) : Order :=
  ⟨amount, price, id, .LimitOrderType, .SellOrderDirection⟩

/-- The book of the tests "first buy, ...": the sells (id, price, amount) (1,10,100),
(2,10,150), (3,15,100) rest at the addresses 1, 2, 3 in two levels; every other
address, 4 in particular, holds the given taker. -/
def restingSells (taker : Order) : OrderBook :=
  { orderAt := fun p =>
      if p = 1 then limitSell 1 10 100
      else if p = 2 then limitSell 2 10 150
      else if p = 3 then limitSell 3 15 100
      else taker
    queueAt := fun q =>
      if q = 0 then ⟨⟨[⟨0, 1⟩, ⟨1, 2⟩], 2⟩, 10, 250⟩ else ⟨⟨[⟨0, 3⟩], 1⟩, 15, 100⟩
    nextQueue := 2
    buy := newOrderContainer
    sell := ⟨.node .nil 10 0 (.node .nil 15 1 .nil), [(15, 1), (10, 0)], 0⟩ }

/-! ## Vocabulary for transactions, market orders and sequences of calls -/

/-- A market buy order. -/
def marketBuy (id : OrderID) (price amount : Decimal) : Order :=
  ⟨amount, price, id, .MarketOrderType, .BuyOrderDirection⟩

/-- A market sell order. -/
def marketSell (id : OrderID) (price amount : Decimal) : Order :=
  ⟨amount, price, id, .MarketOrderType, .SellOrderDirection⟩

/-- The call ended in a panic. -/
def Submitted.panics : Submitted → Bool
  | .panicked => true
  | _ => false

/-- The walk a submission makes over the opposite side: the orders it consumes
whole, the quantity it leaves, and the closures it stages, level by level. -/
def OrderBook.walk (ob : OrderBook) (order : OrderPtr) :
    List OrderPtr × Decimal × List finalizerFn :=
  matchLevels ob (opposite (ob.orderAt order).Dir) order
    (stopOf (ob.orderAt order).Dir (ob.orderAt order).Price)
    ((ob.bestFirst (ob.orderAt order).Dir).map Prod.snd) (ob.orderAt order).Amount

/-- The taker's remaining quantity after the walk. -/
def OrderBook.remaining (ob : OrderBook) (order : OrderPtr) : Decimal :=
  (ob.walk order).2.1

/-- The liquidity guard of `matchMarketOrder` declines the order. -/
def OrderBook.declined (ob : OrderBook) (order : OrderPtr) : Prop :=
  (ob.orderAt order).Amount < OrderContainer.Volume ob (opposite (ob.orderAt order).Dir)

instance (ob : OrderBook) (order : OrderPtr) : Decidable (ob.declined order) := by
  unfold OrderBook.declined; infer_instance

/-- Shape (i) of a returned transaction: the list of orders is not empty, ends with
the taker, and the taker's remaining quantity is zero. -/
def shapeFilled (ob : OrderBook) (order : OrderPtr) (tr : Transaction) : Prop :=
  tr.orders ≠ [] ∧ tr.orders.getLast? = some order ∧ ob.remaining order = 0

/-- The taker has come to rest between the book `ob` of the submission and the book
`s` after the commit: the level `q` of the taker's price on the taker's own side
holds the taker at its tail, behind the orders that level held before when the
level was there, alone when no level had that price; and the taker's amount is
the quantity the walk left. -/
def OrderBook.rested (ob s : OrderBook) (order : OrderPtr) : Prop :=
  ∃ q, ((ob.orderAt order).Price, q) ∈ s.levels (ownSide (ob.orderAt order).Dir) ∧
    (s.orderAt order).Amount = ob.remaining order ∧
    ((((ob.orderAt order).Price, q) ∈ ob.levels (ownSide (ob.orderAt order).Dir) ∧
        s.fifo q = ob.fifo q ++ [order]) ∨
      ((∀ e ∈ ob.levels (ownSide (ob.orderAt order).Dir), e.1 ≠ (ob.orderAt order).Price) ∧
        s.fifo q = [order]))

/-- The commit rests the taker: `Commit` completes and the taker has come to rest. -/
def commitRests (ob : OrderBook) (order : OrderPtr) (tr : Transaction) : Prop :=
  ∃ os tr' s, tr.Commit ob = some (os, tr', s) ∧ ob.rested s order

/-- A commit that completes rests the taker. -/
def restsTaker (ob : OrderBook) (order : OrderPtr) (tr : Transaction) : Prop :=
  ∀ os tr' s, tr.Commit ob = some (os, tr', s) → ob.rested s order

/-- The volume is insufficient for the order, in either reading: the side's
`Volume()` or the total amount resting on the opposite side is below the order's
amount. -/
def OrderBook.insufficientVolume (ob : OrderBook) (order : OrderPtr) : Prop :=
  OrderContainer.Volume ob (opposite (ob.orderAt order).Dir) < (ob.orderAt order).Amount ∨
  ob.amountOf (ob.bestFirst (ob.orderAt order).Dir) < (ob.orderAt order).Amount

instance (ob : OrderBook) (order : OrderPtr) : Decidable (ob.insufficientVolume order) := by
  unfold OrderBook.insufficientVolume; infer_instance

/-- Shape (ii) of a returned transaction as the specification states it: the list
of orders is not empty, does not end with the taker, and the commit rests the
taker. -/
def shapeRestsStated (ob : OrderBook) (order : OrderPtr) (tr : Transaction) : Prop :=
  tr.orders ≠ [] ∧ tr.orders.getLast? ≠ some order ∧ commitRests ob order tr

/-- Shape (iii) of a returned transaction as the specification states it: the list
of orders is empty and the order is a market order declined for insufficient
volume. -/
def shapeDeclinedStated (ob : OrderBook) (order : OrderPtr) (tr : Transaction) : Prop :=
  tr.orders = [] ∧ (ob.orderAt order).Kind = .MarketOrderType ∧ ob.insufficientVolume order

/-- Shape (ii) of a returned transaction: the list of orders, empty or not, does not
end with the taker, and a commit that completes rests the taker. -/
def shapeRests (ob : OrderBook) (order : OrderPtr) (tr : Transaction) : Prop :=
  tr.orders.getLast? ≠ some order ∧ restsTaker ob order tr

/-- Shape (iii) of a returned transaction: the list of orders is empty and the
order is a market order that was declined: the transaction stages nothing, its
commit completes and leaves the book as it is. -/
def shapeDeclined (ob : OrderBook) (order : OrderPtr) (tr : Transaction) : Prop :=
  tr.orders = [] ∧ (ob.orderAt order).Kind = .MarketOrderType ∧
    ∃ tr', tr.Commit ob = some ([], tr', ob)

/-- A call made on a side. -/
inductive ContainerCall where
  | Add (order : OrderPtr)
  | Remove (price : Decimal)

/-- A sequence of `Add(order)` and `Remove(price)` calls made on one side. -/
def applyCalls (oc : ContainerPtr) : OrderBook → List ContainerCall → OrderBook
  | ob, [] => ob
  | ob, .Add order :: rest => applyCalls oc (OrderContainer.Add ob oc order) rest
  | ob, .Remove price :: rest => applyCalls oc (OrderContainer.Remove ob oc price) rest

/-- The two indexes of a side agree: the tree is a search tree, every entry of the
tree is what the map returns for its key, and every entry of the map is in the
tree. -/
def OrderBook.consistent (ob : OrderBook) (oc : ContainerPtr) : Prop :=
  (ob.container oc).priceTree.ordered ∧
  (∀ e ∈ ob.levels oc, (ob.container oc).priceHash.get (keyOf e.1) = some e.2) ∧
  (∀ e ∈ (ob.container oc).priceHash, e ∈ ob.levels oc)

/-- The book after one call `oq.Remove(el)` with a non-nil `el`. -/
def removeElem (s : OrderBook) (oq : QueuePtr) (e : Element) : OrderBook :=
  s.setQueue oq
    { s.queueAt oq with
      orders := (s.queueAt oq).orders.Remove e
      volume := (s.queueAt oq).volume - (s.orderAt e.Value).Amount }

/-- The book after `k` calls `oq.Remove(el)` with the same non-nil `el`. -/
def removeTimes (oq : QueuePtr) (e : Element) : Nat → OrderBook → OrderBook
  | 0, s => s
  | k + 1, s => removeTimes oq e k (removeElem s oq e)

/-- What the closures staged by `Process` do when the loop stopped at the element
`e` after `k` orders consumed whole: `k` calls `oq.Remove(e)`, then
`oq.update(e.Value, amount)`. -/
def partialEffect (s : OrderBook) (oq : QueuePtr) (e : Element) (k : Nat) (amount : Decimal) :
    OrderBook :=
  OrderQueue.update (removeTimes oq e k s) oq e.Value amount

/-- The levels of both sides. -/
def OrderBook.allLevels (ob : OrderBook) : List (Decimal × QueuePtr) :=
  ob.levels .buy ++ ob.levels .sell

/-- The addresses of all resting orders. -/
def OrderBook.resting (ob : OrderBook) : List OrderPtr :=
  ob.ordersOf ob.allLevels

/-- The invariant of the books reached by the test helper: well formed, and every
resting order lives below the address `n` of the next order. -/
def OrderBook.reached (ob : OrderBook) (n : OrderPtr) : Prop :=
  ob.WF ∧ ∀ p ∈ ob.resting, p < n

/-- The book after the given orders were submitted and committed one after the
other, starting from the empty book with the first order at address 1 (the empty
book if a submission or a commit does not complete). -/
def bookAfter (orders : List Order) : OrderBook :=
  (submitAll NewOrderBook 1 orders).getD NewOrderBook

/-! ## Vocabulary for the cut-off, the level match and the crossing of the sides -/

/-- The sum of the amounts of some orders. -/
def OrderBook.amounts (ob : OrderBook) (ps : List OrderPtr) : Decimal :=
  (ps.map (fun p => (ob.orderAt p).Amount)).sum

/-- The orders a taker can be matched against: those of the marketable levels of
the opposite side, best level first and front to back in each. -/
def OrderBook.marketableOrders (ob : OrderBook) (order : OrderPtr) : List OrderPtr :=
  ob.ordersOf ((ob.bestFirst (ob.orderAt order).Dir).filter
    (fun e => marketable (ob.orderAt order).Dir (ob.orderAt order).Price e.1))

/-- The call `oq.Process(order, amount)` as a step on the memory: what it returns
and the book afterwards.  The body appends to local slices and reads the list;
every assignment to the queue or to an order stands inside a staged closure. -/
def OrderQueue.ProcessCall (ob : OrderBook) (oq : QueuePtr) (order : OrderPtr)
    (amount : Decimal) : (List OrderPtr × Decimal × finalizerFn) × OrderBook :=
  (OrderQueue.Process ob oq order amount, ob)

/-- The same book with the field `Type` of the order at an address set to the given
kind. -/
def OrderBook.withKind (ob : OrderBook) (p : OrderPtr) (k : OrderType) : OrderBook :=
  ob.setOrder p { ob.orderAt p with Kind := k }

/-- The sides do not cross: every buy level is priced strictly below every sell
level. -/
def OrderBook.uncrossed (ob : OrderBook) : Prop :=
  ∀ b ∈ ob.levels .buy, ∀ a ∈ ob.levels .sell, b.1 < a.1

instance (ob : OrderBook) : Decidable ob.uncrossed := by
  unfold OrderBook.uncrossed; infer_instance

/-- A side reads the same in a second book: the same tree, map and volume, the
same queue behind every level, and the same record behind every resting order. -/
def OrderBook.sameSide (ob ob' : OrderBook) (oc : ContainerPtr) : Prop :=
  ob'.container oc = ob.container oc ∧
  (∀ e ∈ ob.levels oc, ob'.queueAt e.2 = ob.queueAt e.2) ∧
  (∀ p ∈ ob.ordersOf (ob.levels oc), ob'.orderAt p = ob.orderAt p)

/-- A closure is blind to the kind of the order at `p`: run on the book with that
kind set to `k`, it ends as on the book itself, with the kind set to `k` in the
result. -/
def kindBlind (p : OrderPtr) (k : OrderType) (f : finalizerFn) : Prop :=
  ∀ s, f (s.withKind p k) = (f s).map (fun s' => s'.withKind p k)

/-! ## The tree walk visits the levels in price position -/

theorem inorder_zipUp (t : Tree) (up : List Step) :
    (zipUp t up).inorder = upBefore up ++ (t.inorder ++ upAfter up) := by
  induction up generalizing t with
  | nil => simp [zipUp, upBefore, upAfter]
  | cons s up ih => cases s <;> simp [zipUp, upBefore, upAfter, ih, Tree.inorder]

theorem inorder_length (t : Tree) : t.inorder.length = t.size := by
  induction t with
  | nil => rfl
  | node l k v r ihl ihr => simp [Tree.inorder, Tree.size, ihl, ihr]; omega

theorem descendLeft_spec (l : Tree) (k : Decimal) (v : QueuePtr) (r : Tree) (up : List Step) :
    (descendLeft l k v r up).root = zipUp (.node l k v r) up ∧
    ((descendLeft l k v r up).Key, (descendLeft l k v r up).Value) :: (descendLeft l k v r up).after
      = l.inorder ++ (k, v) :: (r.inorder ++ upAfter up) := by
  induction l generalizing k v r up with
  | nil => simp [descendLeft, Node.root, Node.tree, Node.after, Tree.inorder]
  | node ll lk lv lr ihl _ =>
    have h := ihl lk lv lr (.leftOf k v r :: up)
    simp only [descendLeft]
    refine ⟨by rw [h.1]; rfl, ?_⟩
    rw [h.2]; simp [Tree.inorder, upAfter]

theorem descendRight_spec (l : Tree) (k : Decimal) (v : QueuePtr) (r : Tree) (up : List Step) :
    (descendRight l k v r up).root = zipUp (.node l k v r) up ∧
    (descendRight l k v r up).before ++
        [((descendRight l k v r up).Key, (descendRight l k v r up).Value)]
      = upBefore up ++ (l.inorder ++ (k, v) :: r.inorder) := by
  induction r generalizing l k v up with
  | nil => simp [descendRight, Node.root, Node.tree, Node.before, Tree.inorder]
  | node rl rk rv rr _ ihr =>
    have h := ihr rl rk rv (.rightOf l k v :: up)
    simp only [descendRight]
    refine ⟨by rw [h.1]; rfl, ?_⟩
    rw [h.2]; simp [Tree.inorder, upBefore]

theorem keys_lt_of_pairwise {xs A B C : List (Decimal × QueuePtr)} {a b : Decimal × QueuePtr}
    (h : (xs.map Prod.fst).Pairwise (fun x y => x < y)) (hx : xs = A ++ a :: (B ++ b :: C)) :
    a.1 < b.1 := by
  subst hx
  simp only [List.map_append, List.map_cons, List.pairwise_append, List.pairwise_cons] at h
  exact h.2.1.1 b.1 (by simp)

theorem climbMin_spec (up : List Step) (l : Tree) (k : Decimal) (v : QueuePtr) (r : Tree)
    (h : (zipUp (.node l k v r) up).ordered) :
    match climbMin l k v r up with
    | none => upAfter up = []
    | some m => m.root = zipUp (.node l k v r) up ∧ upAfter up = (m.Key, m.Value) :: m.after := by
  induction up generalizing l k v r with
  | nil => simp [climbMin, upAfter]
  | cons s up ih =>
    cases s with
    | leftOf pk pv pr =>
      have hlt : k < pk := by
        have h1 := h
        unfold Tree.ordered at h1
        rw [zipUp, inorder_zipUp] at h1
        exact keys_lt_of_pairwise (a := (k, v)) (b := (pk, pv)) h1
          (A := upBefore up ++ l.inorder) (B := r.inorder) (C := pr.inorder ++ upAfter up)
          (by simp [Tree.inorder])
      simp [climbMin, hlt, Node.root, Node.tree, zipUp, upAfter, Node.after]
    | rightOf pl pk pv =>
      have hlt : pk < k := by
        have h1 := h
        unfold Tree.ordered at h1
        rw [zipUp, inorder_zipUp] at h1
        exact keys_lt_of_pairwise (a := (pk, pv)) (b := (k, v)) h1
          (A := upBefore up ++ pl.inorder) (B := l.inorder) (C := r.inorder ++ upAfter up)
          (by simp [Tree.inorder])
      have hn : ¬ k < pk := lt_asymm hlt
      simp only [climbMin, hn, if_false, upAfter]
      exact ih pl pk pv (.node l k v r) h

theorem climbMax_spec (up : List Step) (l : Tree) (k : Decimal) (v : QueuePtr) (r : Tree)
    (h : (zipUp (.node l k v r) up).ordered) :
    match climbMax l k v r up with
    | none => upBefore up = []
    | some m => m.root = zipUp (.node l k v r) up ∧
        upBefore up = m.before ++ [(m.Key, m.Value)] := by
  induction up generalizing l k v r with
  | nil => simp [climbMax, upBefore]
  | cons s up ih =>
    cases s with
    | leftOf pk pv pr =>
      have hlt : k < pk := by
        have h1 := h
        unfold Tree.ordered at h1
        rw [zipUp, inorder_zipUp] at h1
        exact keys_lt_of_pairwise (a := (k, v)) (b := (pk, pv)) h1
          (A := upBefore up ++ l.inorder) (B := r.inorder) (C := pr.inorder ++ upAfter up)
          (by simp [Tree.inorder])
      have hn : ¬ k > pk := lt_asymm hlt
      simp only [climbMax, hn, if_false, upBefore]
      exact ih (.node l k v r) pk pv pr h
    | rightOf pl pk pv =>
      have hlt : pk < k := by
        have h1 := h
        unfold Tree.ordered at h1
        rw [zipUp, inorder_zipUp] at h1
        exact keys_lt_of_pairwise (a := (pk, pv)) (b := (k, v)) h1
          (A := upBefore up ++ pl.inorder) (B := l.inorder) (C := r.inorder ++ upAfter up)
          (by simp [Tree.inorder])
      have hg : k > pk := hlt
      simp [climbMax, hg, Node.root, Node.tree, zipUp, upBefore, Node.before]

theorem nextMinNode_spec (n : Node) (h : n.root.ordered) :
    match nextMinNode n with
    | none => n.after = []
    | some m => m.root = n.root ∧ n.after = (m.Key, m.Value) :: m.after := by
  unfold nextMinNode
  cases hr : n.Right with
  | nil =>
    have h1 := climbMin_spec n.up n.Left n.Key n.Value n.Right
      (by simpa [Node.root, Node.tree] using h)
    simp only [hr] at h1 ⊢
    cases hc : climbMin n.Left n.Key n.Value Tree.nil n.up with
    | none => rw [hc] at h1; simp [Node.after, hr, Tree.inorder, h1]
    | some m =>
      rw [hc] at h1
      simp only [Node.after, hr, Tree.inorder, List.nil_append]
      exact ⟨by rw [h1.1]; simp [Node.root, Node.tree, hr], h1.2⟩
  | node rl rk rv rr =>
    have h1 := descendLeft_spec rl rk rv rr (.rightOf n.Left n.Key n.Value :: n.up)
    simp only
    refine ⟨by rw [h1.1]; simp [Node.root, Node.tree, hr, zipUp], ?_⟩
    rw [h1.2]; simp [Node.after, hr, Tree.inorder, upAfter]

theorem nextMaxNode_spec (n : Node) (h : n.root.ordered) :
    match nextMaxNode n with
    | none => n.before = []
    | some m => m.root = n.root ∧ n.before = m.before ++ [(m.Key, m.Value)] := by
  unfold nextMaxNode
  cases hl : n.Left with
  | nil =>
    have h1 := climbMax_spec n.up n.Left n.Key n.Value n.Right
      (by simpa [Node.root, Node.tree] using h)
    simp only [hl] at h1 ⊢
    cases hc : climbMax Tree.nil n.Key n.Value n.Right n.up with
    | none => rw [hc] at h1; simp [Node.before, hl, Tree.inorder, h1]
    | some m =>
      rw [hc] at h1
      simp only [Node.before, hl, Tree.inorder, List.append_nil]
      exact ⟨by rw [h1.1]; simp [Node.root, Node.tree, hl], h1.2⟩
  | node ll lk lv lr =>
    have h1 := descendRight_spec ll lk lv lr (.leftOf n.Key n.Value n.Right :: n.up)
    simp only
    refine ⟨by rw [h1.1]; simp [Node.root, Node.tree, hl, zipUp], ?_⟩
    rw [h1.2]; simp [Node.before, hl, Tree.inorder, upBefore]

theorem matchMinLoop_eq (ob : OrderBook) (oc : ContainerPtr) (order : OrderPtr)
    (sp : Option Decimal) (fuel : Nat) (n : Node) (left : Decimal)
    (h : n.root.ordered) (hf : n.after.length < fuel) :
    matchMinLoop ob oc order sp fuel (some n) left =
      some (matchLevels ob oc order (stopMin sp)
        (((n.Key, n.Value) :: n.after).map Prod.snd) left) := by
  induction fuel generalizing n left with
  | zero => omega
  | succ fuel ih =>
    simp only [matchMinLoop, List.map_cons, matchLevels]
    by_cases hs : stopMin sp (OrderQueue.Price ob n.Value) = true
    · have hs' := hs
      unfold stopMin at hs'
      rw [if_pos hs', if_pos hs]
    · have hs' := hs
      unfold stopMin at hs'
      rw [if_neg hs', if_neg hs]
      by_cases hz : (OrderQueue.Process ob n.Value order left).2.1 = 0
      · simp only [hz, if_true]
      · simp only [hz, if_false]
        have hn := nextMinNode_spec n h
        cases hm : nextMinNode n with
        | none =>
          rw [hm] at hn
          simp [hn, matchMinLoop, matchLevels]
        | some m =>
          rw [hm] at hn
          have := ih m (OrderQueue.Process ob n.Value order left).2.1 (by rw [hn.1]; exact h)
            (by rw [hn.2] at hf; simp at hf; omega)
          rw [this, hn.2]

theorem matchMaxLoop_eq (ob : OrderBook) (oc : ContainerPtr) (order : OrderPtr)
    (sp : Option Decimal) (fuel : Nat) (n : Node) (left : Decimal)
    (h : n.root.ordered) (hf : n.before.length < fuel) :
    matchMaxLoop ob oc order sp fuel (some n) left =
      some (matchLevels ob oc order (stopMax sp)
        (((n.Key, n.Value) :: n.before.reverse).map Prod.snd) left) := by
  induction fuel generalizing n left with
  | zero => omega
  | succ fuel ih =>
    simp only [matchMaxLoop, List.map_cons, matchLevels]
    by_cases hs : stopMax sp (OrderQueue.Price ob n.Value) = true
    · have hs' := hs
      unfold stopMax at hs'
      rw [if_pos hs', if_pos hs]
    · have hs' := hs
      unfold stopMax at hs'
      rw [if_neg hs', if_neg hs]
      by_cases hz : (OrderQueue.Process ob n.Value order left).2.1 = 0
      · simp only [hz, if_true]
      · simp only [hz, if_false]
        have hn := nextMaxNode_spec n h
        cases hm : nextMaxNode n with
        | none =>
          rw [hm] at hn
          simp [hn, matchMaxLoop, matchLevels]
        | some m =>
          rw [hm] at hn
          have := ih m (OrderQueue.Process ob n.Value order left).2.1 (by rw [hn.1]; exact h)
            (by rw [hn.2] at hf; simp at hf; omega)
          rw [this, hn.2]
          simp

/-- The result of `matchMinPrice` on a search tree, in terms of the walk over the
ascending list of levels. -/
theorem matchMinPrice_eq (ob : OrderBook) (oc : ContainerPtr) (order : OrderPtr)
    (sp : Option Decimal) (h : (ob.container oc).priceTree.ordered) :
    OrderContainer.matchMinPrice ob oc order sp =
      some ((matchLevels ob oc order (stopMin sp) ((ob.levels oc).map Prod.snd)
              (ob.orderAt order).Amount).1,
            (matchLevels ob oc order (stopMin sp) ((ob.levels oc).map Prod.snd)
              (ob.orderAt order).Amount).2.1,
            runFinalizers (matchLevels ob oc order (stopMin sp) ((ob.levels oc).map Prod.snd)
              (ob.orderAt order).Amount).2.2) := by
  unfold OrderContainer.matchMinPrice OrderBook.levels
  cases ht : (ob.container oc).priceTree with
  | nil => simp [Tree.Left, matchMinLoop, Tree.inorder, matchLevels]
  | node l k v r =>
    have hd := descendLeft_spec l k v r []
    have hlen := inorder_length (.node l k v r)
    simp only [Tree.Left]
    rw [matchMinLoop_eq]
    · simp only [hd.2, upAfter, List.append_nil]
      simp [Tree.inorder]
    · rw [hd.1]; simpa [zipUp, ht] using h
    · have := congrArg List.length hd.2
      simp only [upAfter, List.append_nil, List.length_cons] at this
      rw [← hlen]; simp only [Tree.inorder]; omega

theorem matchMaxPrice_eq (ob : OrderBook) (oc : ContainerPtr) (order : OrderPtr)
    (sp : Option Decimal) (h : (ob.container oc).priceTree.ordered) :
    OrderContainer.matchMaxPrice ob oc order sp =
      some ((matchLevels ob oc order (stopMax sp) ((ob.levels oc).reverse.map Prod.snd)
              (ob.orderAt order).Amount).1,
            (matchLevels ob oc order (stopMax sp) ((ob.levels oc).reverse.map Prod.snd)
              (ob.orderAt order).Amount).2.1,
            runFinalizers (matchLevels ob oc order (stopMax sp)
              ((ob.levels oc).reverse.map Prod.snd) (ob.orderAt order).Amount).2.2) := by
  unfold OrderContainer.matchMaxPrice OrderBook.levels
  cases ht : (ob.container oc).priceTree with
  | nil => simp [Tree.Right, matchMaxLoop, Tree.inorder, matchLevels]
  | node l k v r =>
    have hd := descendRight_spec l k v r []
    have hlen := inorder_length (.node l k v r)
    simp only [Tree.Right]
    rw [matchMaxLoop_eq]
    · have e : (Tree.node l k v r).inorder.reverse =
          ((descendRight l k v r []).Key, (descendRight l k v r []).Value) ::
            (descendRight l k v r []).before.reverse := by
        have := congrArg List.reverse hd.2
        simp only [upBefore, List.nil_append, List.reverse_append, List.reverse_cons,
          List.reverse_nil] at this
        simp only [Tree.inorder, List.reverse_append, List.reverse_cons]
        rw [← this]; simp
      rw [e]
    · rw [hd.1]; simpa [zipUp, ht] using h
    · have := congrArg List.length hd.2
      simp only [upBefore, List.nil_append, List.length_append, List.length_cons,
        List.length_nil] at this
      rw [← hlen]; simp only [Tree.inorder, List.length_append, List.length_cons]; omega


/-! ## Staging only reads -/

theorem matchMarketOrder_ne_failed (ob : OrderBook) (order : OrderPtr) (err : Error) :
    ob.matchMarketOrder order ≠ .failed err := by
  unfold OrderBook.matchMarketOrder
  intro h
  split at h
  · split at h
    · cases h
    · split at h
      · cases h
      · split at h <;> cases h
  · split at h
    · cases h
    · split at h
      · cases h
      · split at h <;> cases h

theorem matchLimitOrder_ne_failed (ob : OrderBook) (order : OrderPtr) (err : Error) :
    ob.matchLimitOrder order ≠ .failed err := by
  unfold OrderBook.matchLimitOrder
  intro h
  split at h
  · split at h
    · cases h
    · split at h <;> cases h
  · split at h
    · cases h
    · split at h <;> cases h

/-- C2 (staging): `SubmitOrder` hands back the book it was given, whatever the
outcome (transaction, validation error, or otherwise); and for a returned
transaction, `Rollback` leaves that book as it is and clears the transaction, so
that a later `Commit` of it returns no order and applies nothing. -/
theorem C2_submit_and_rollback_leave_book (ob : OrderBook) (order : OrderPtr) :
    (ob.SubmitOrder order).2 = ob ∧
    ∀ tr, (ob.SubmitOrder order).1 = .returned tr →
      (tr.Rollback (ob.SubmitOrder order).2).2 = ob ∧
      (tr.Rollback (ob.SubmitOrder order).2).1.Commit ob
        = some ([], (tr.Rollback (ob.SubmitOrder order).2).1, ob) := by
  have h : (ob.SubmitOrder order).2 = ob := by
    unfold OrderBook.SubmitOrder
    split
    · rfl
    · split
      · rfl
      · split <;> rfl
  refine ⟨h, fun tr _ => ?_⟩
  rw [h]
  exact ⟨rfl, rfl⟩

/-- C3 (validation): `SubmitOrder` fails with `ErrBadPrice` exactly when the price
is zero or negative (whatever the amount), with `ErrBadAmount` exactly when the
price is positive and the amount zero or negative, and with no error at all when
both are positive. -/
theorem C3_validation (ob : OrderBook) (order : OrderPtr) :
    ((ob.SubmitOrder order).1 = .failed .ErrBadPrice ↔ (ob.orderAt order).Price ≤ 0) ∧
    ((ob.SubmitOrder order).1 = .failed .ErrBadAmount ↔
      (0 < (ob.orderAt order).Price ∧ (ob.orderAt order).Amount ≤ 0)) ∧
    ((∃ err, (ob.SubmitOrder order).1 = .failed err) ↔
      ¬ (0 < (ob.orderAt order).Price ∧ 0 < (ob.orderAt order).Amount)) := by
  unfold OrderBook.SubmitOrder
  by_cases hp : (ob.orderAt order).Price ≤ 0
  · simp only [hp, if_true]
    refine ⟨by simp, ?_, ?_⟩
    · constructor
      · intro h; cases h
      · intro h; exact absurd h.1 (not_lt.mpr hp)
    · constructor
      · intro _ h; exact absurd h.1 (not_lt.mpr hp)
      · intro _; exact ⟨_, rfl⟩
  · simp only [hp, if_false]
    have hp' : 0 < (ob.orderAt order).Price := not_le.mp hp
    by_cases ha : (ob.orderAt order).Amount ≤ 0
    · simp only [ha, if_true]
      refine ⟨?_, ?_, ?_⟩
      · constructor
        · intro h; cases h
        · intro h; exact h.elim
      · simp [hp']
      · constructor
        · intro _ h; exact absurd h.2 (not_lt.mpr ha)
        · intro _; exact ⟨_, rfl⟩
    · simp only [ha, if_false]
      have ha' : 0 < (ob.orderAt order).Amount := not_le.mp ha
      have key : ∀ err, (if (ob.orderAt order).Kind = OrderType.MarketOrderType
          then (ob.matchMarketOrder order, ob) else (ob.matchLimitOrder order, ob)).1
            ≠ .failed err := by
        intro err
        split
        · exact matchMarketOrder_ne_failed ob order err
        · exact matchLimitOrder_ne_failed ob order err
      refine ⟨?_, ?_, ?_⟩
      · constructor
        · intro h; exact absurd h (key _)
        · intro h; exact h.elim
      · constructor
        · intro h; exact absurd h (key _)
        · intro h; exact h.2.elim
      · constructor
        · rintro ⟨err, h⟩; exact absurd h (key _)
        · intro h; exact absurd ⟨hp', ha'⟩ h

/-! ## Fills are taken from the front -/

theorem processLoop_fills (ob : OrderBook) (oq : QueuePtr) (els : List Element)
    (left : Decimal) :
    (processLoop ob oq els left).1 <+: els.map (fun e => e.Value) ∧
    ((processLoop ob oq els left).2.1 ≠ 0 →
      (processLoop ob oq els left).1 = els.map (fun e => e.Value)) := by
  induction els generalizing left with
  | nil => simp [processLoop]
  | cons el rest ih =>
    simp only [processLoop]
    split
    · simp
    · have h := ih (left - (ob.orderAt el.Value).Amount)
      refine ⟨?_, fun hz => ?_⟩
      · simpa [List.cons_prefix_cons] using h.1
      · simp only [List.map_cons]
        rw [h.2 hz]

theorem process_fills (ob : OrderBook) (oq : QueuePtr) (order : OrderPtr) (left : Decimal) :
    (OrderQueue.Process ob oq order left).1 <+: ob.fifo oq ∧
    ((OrderQueue.Process ob oq order left).2.1 ≠ 0 →
      (OrderQueue.Process ob oq order left).1 = ob.fifo oq) := by
  unfold OrderQueue.Process OrderBook.fifo
  split
  · simp
  · exact processLoop_fills ob oq _ left

theorem matchLevels_fills (ob : OrderBook) (oc : ContainerPtr) (order : OrderPtr)
    (stop : Decimal → Bool) (qs : List QueuePtr) (left : Decimal) :
    (matchLevels ob oc order stop qs left).1 <+: qs.flatMap (fun q => ob.fifo q) := by
  induction qs generalizing left with
  | nil => simp [matchLevels]
  | cons q rest ih =>
    simp only [matchLevels, List.flatMap_cons]
    split
    · simp
    · have hp := process_fills ob q order left
      split
      · exact hp.1.trans (List.prefix_append _ _)
      · rename_i hz
        simp only
        rw [hp.2 hz]
        exact (List.prefix_append_right_inj _).mpr (ih _)

theorem ordersOf_eq (ob : OrderBook) (ls : List (Decimal × QueuePtr)) :
    ob.ordersOf ls = (ls.map Prod.snd).flatMap (fun q => ob.fifo q) := by
  induction ls with
  | nil => rfl
  | cons e rest ih =>
    simp only [OrderBook.ordersOf, List.flatMap_cons, List.map_cons] at ih ⊢
    rw [ih]

theorem price_of_mem_fifo (ob : OrderBook) (e : Decimal × QueuePtr) (p : OrderPtr)
    (he : ob.levelOK e) (hp : p ∈ ob.fifo e.2) : (ob.orderAt p).Price = e.1 := by
  unfold OrderBook.fifo at hp
  obtain ⟨el, hel, rfl⟩ := List.mem_map.mp hp
  exact (he.2.2 el hel).1

/-- Orders listed level by level carry prices in the order of the level keys. -/
theorem ordersOf_prices (ob : OrderBook) (lt le : Decimal → Decimal → Prop)
    (h1 : ∀ a b, lt a b → le a b) (h2 : ∀ a, le a a)
    (ls : List (Decimal × QueuePtr))
    (hk : (ls.map Prod.fst).Pairwise lt)
    (hl : ∀ e ∈ ls, ob.levelOK e) :
    ((ob.ordersOf ls).map (fun p => (ob.orderAt p).Price)).Pairwise le := by
  induction ls with
  | nil => simp [OrderBook.ordersOf]
  | cons e rest ih =>
    simp only [List.map_cons, List.pairwise_cons] at hk
    have hrest := ih hk.2 (fun e' he' => hl e' (List.mem_cons_of_mem _ he'))
    have he := hl e (List.mem_cons_self _ _)
    simp only [OrderBook.ordersOf, List.flatMap_cons, List.map_append, List.pairwise_append]
    refine ⟨?_, hrest, ?_⟩
    · apply List.pairwise_of_forall_mem_list
      intro a ha b hb
      obtain ⟨p, hp, rfl⟩ := List.mem_map.mp ha
      obtain ⟨q, hq, rfl⟩ := List.mem_map.mp hb
      rw [price_of_mem_fifo ob e p he hp, price_of_mem_fifo ob e q he hq]
      exact h2 _
    · intro a ha b hb
      obtain ⟨p, hp, rfl⟩ := List.mem_map.mp ha
      obtain ⟨q, hq, rfl⟩ := List.mem_map.mp hb
      obtain ⟨e', he', hq'⟩ := List.mem_flatMap.mp hq
      rw [price_of_mem_fifo ob e p he hp,
        price_of_mem_fifo ob e' q (hl e' (List.mem_cons_of_mem _ he')) hq']
      exact h1 _ _ (hk.1 e'.1 (List.mem_map.mpr ⟨e', he', rfl⟩))

/-- The orders a submission returns besides the taker: those staged by the walk over
the opposite side. -/
theorem submit_orders (ob : OrderBook) (order : OrderPtr) (tr : Transaction)
    (hwf : ob.WF) (hs : (ob.SubmitOrder order).1 = .returned tr) :
    ∃ resting : List OrderPtr,
      (tr.orders = resting ∨ tr.orders = resting ++ [order]) ∧
      resting <+: ob.ordersOf (ob.bestFirst (ob.orderAt order).Dir) := by
  have hob : (ob.container .buy).priceTree.ordered := hwf.1.1
  have hos : (ob.container .sell).priceTree.ordered := hwf.2.1.1
  unfold OrderBook.SubmitOrder at hs
  split at hs
  · cases hs
  · split at hs
    · cases hs
    · split at hs
      · -- market order
        simp only at hs
        unfold OrderBook.matchMarketOrder at hs
        split at hs
        · rename_i hd
          split at hs
          · cases hs
            exact ⟨[], Or.inl rfl, List.nil_prefix⟩
          · rw [matchMinPrice_eq ob .sell order _ hos] at hs
            simp only at hs
            split at hs
            · cases hs
            · cases hs
              refine ⟨_, Or.inr rfl, ?_⟩
              rw [hd, ordersOf_eq]
              exact matchLevels_fills _ _ _ _ _ _
        · rename_i hd
          have hd' : (ob.orderAt order).Dir = .SellOrderDirection := by
            cases h : (ob.orderAt order).Dir
            · exact absurd h hd
            · rfl
          split at hs
          · cases hs
            exact ⟨[], Or.inl rfl, List.nil_prefix⟩
          · rw [matchMaxPrice_eq ob .buy order _ hob] at hs
            simp only at hs
            split at hs
            · cases hs
            · cases hs
              refine ⟨_, Or.inr rfl, ?_⟩
              rw [hd', ordersOf_eq]
              exact matchLevels_fills _ _ _ _ _ _
      · -- limit order
        simp only at hs
        unfold OrderBook.matchLimitOrder at hs
        split at hs
        · rename_i hd
          rw [matchMinPrice_eq ob .sell order _ hos] at hs
          simp only at hs
          split at hs
          · cases hs
            refine ⟨_, Or.inl rfl, ?_⟩
            rw [hd, ordersOf_eq]
            exact matchLevels_fills _ _ _ _ _ _
          · cases hs
            refine ⟨_, Or.inr rfl, ?_⟩
            rw [hd, ordersOf_eq]
            exact matchLevels_fills _ _ _ _ _ _
        · rename_i hd
          have hd' : (ob.orderAt order).Dir = .SellOrderDirection := by
            cases h : (ob.orderAt order).Dir
            · exact absurd h hd
            · rfl
          rw [matchMaxPrice_eq ob .buy order _ hob] at hs
          simp only at hs
          split at hs
          · cases hs
            refine ⟨_, Or.inl rfl, ?_⟩
            rw [hd', ordersOf_eq]
            exact matchLevels_fills _ _ _ _ _ _
          · cases hs
            refine ⟨_, Or.inr rfl, ?_⟩
            rw [hd', ordersOf_eq]
            exact matchLevels_fills _ _ _ _ _ _

theorem bestFirst_levelOK (ob : OrderBook) (hwf : ob.WF) (dir : OrderDirection) :
    ∀ e ∈ ob.bestFirst dir, ob.levelOK e := by
  intro e he
  cases dir with
  | BuyOrderDirection => exact hwf.2.1.2.2.2 e he
  | SellOrderDirection => exact hwf.1.2.2.2 e (List.mem_reverse.mp he)

/-- C1 (price-time priority): for a well-formed book and a submission that returns
a transaction, the returned orders are some resting orders, possibly followed by
the taker; the resting ones are a front part of the opposite side's orders listed
best level first (ascending keys for a buy taker, descending for a sell taker) and
front to back within a level; hence their prices never decrease for a buy taker and
never increase for a sell taker. -/
theorem C1_price_time_priority (ob : OrderBook) (order : OrderPtr) (tr : Transaction)
    (hwf : ob.WF) (hs : (ob.SubmitOrder order).1 = .returned tr) :
    ∃ resting : List OrderPtr,
      (tr.orders = resting ∨ tr.orders = resting ++ [order]) ∧
      resting <+: ob.ordersOf (ob.bestFirst (ob.orderAt order).Dir) ∧
      (match (ob.orderAt order).Dir with
        | .BuyOrderDirection =>
          ((ob.bestFirst .BuyOrderDirection).map Prod.fst).Pairwise (fun a b => a < b) ∧
          (resting.map (fun p => (ob.orderAt p).Price)).Pairwise (fun a b => a ≤ b)
        | .SellOrderDirection =>
          ((ob.bestFirst .SellOrderDirection).map Prod.fst).Pairwise (fun a b => a > b) ∧
          (resting.map (fun p => (ob.orderAt p).Price)).Pairwise (fun a b => a ≥ b)) := by
  obtain ⟨resting, h1, h2⟩ := submit_orders ob order tr hwf hs
  refine ⟨resting, h1, h2, ?_⟩
  have hsub := (h2.sublist.map (fun p => (ob.orderAt p).Price))
  cases hd : (ob.orderAt order).Dir with
  | BuyOrderDirection =>
    rw [hd] at hsub
    have hk : ((ob.bestFirst .BuyOrderDirection).map Prod.fst).Pairwise (fun a b => a < b) :=
      hwf.2.1.1
    exact ⟨hk, (ordersOf_prices ob (fun a b => a < b) (fun a b => a ≤ b)
      (fun _ _ h => le_of_lt h) (fun _ => le_refl _) _ hk
      (bestFirst_levelOK ob hwf _)).sublist hsub⟩
  | SellOrderDirection =>
    rw [hd] at hsub
    have hk : ((ob.bestFirst .SellOrderDirection).map Prod.fst).Pairwise (fun a b => a > b) := by
      have := hwf.1.1
      unfold Tree.ordered at this
      simp only [OrderBook.bestFirst, OrderBook.levels, List.map_reverse]
      rw [List.pairwise_reverse]
      exact this
    exact ⟨hk, (ordersOf_prices ob (fun a b => a > b) (fun a b => a ≥ b)
      (fun _ _ h => le_of_lt h) (fun _ => le_refl _) _ hk
      (bestFirst_levelOK ob hwf _)).sublist hsub⟩

/-- Witness of C1: the test "first buy, full queue", a buy of 250 at 15. -/
theorem C1_price_time_priority_witness :
    (restingSells (limitBuy 4 15 250)).WF ∧
    ∃ resting : List OrderPtr,
      ((returnedBy ((restingSells (limitBuy 4 15 250)).SubmitOrder 4).1).orders = resting ∨
        (returnedBy ((restingSells (limitBuy 4 15 250)).SubmitOrder 4).1).orders
          = resting ++ [4]) ∧
      resting <+: (restingSells (limitBuy 4 15 250)).ordersOf
        ((restingSells (limitBuy 4 15 250)).bestFirst .BuyOrderDirection) ∧
      (((restingSells (limitBuy 4 15 250)).bestFirst .BuyOrderDirection).map Prod.fst).Pairwise
        (fun a b => a < b) ∧
      (resting.map (fun p => ((restingSells (limitBuy 4 15 250)).orderAt p).Price)).Pairwise
        (fun a b => a ≤ b) :=
  ⟨by decide,
    C1_price_time_priority (restingSells (limitBuy 4 15 250)) 4
      (returnedBy ((restingSells (limitBuy 4 15 250)).SubmitOrder 4).1) (by decide) rfl⟩

/-! ## Limit orders in terms of the walk over the levels -/

theorem submit_book (ob : OrderBook) (order : OrderPtr) : (ob.SubmitOrder order).2 = ob := by
  unfold OrderBook.SubmitOrder
  split
  · rfl
  · split
    · rfl
    · split <;> rfl

theorem stopOf_eq (dir : OrderDirection) (price level : Decimal) :
    stopOf dir price level = !marketable dir price level := by
  cases dir
  · show decide (level > price) = !decide (level ≤ price)
    by_cases h : level ≤ price
    · simp [h, not_lt.mpr h]
    · simp [h, not_le.mp h]
  · show decide (level < price) = !decide (price ≤ level)
    by_cases h : price ≤ level
    · simp [h, not_lt.mpr h]
    · simp [h, not_le.mp h]

theorem dir_sell_of_ne {d : OrderDirection} (h : ¬ d = .BuyOrderDirection) :
    d = .SellOrderDirection := by
  cases d
  · exact absurd rfl h
  · rfl

/-- How `SubmitOrder` ends for a valid limit order on a well-formed book. -/
theorem submit_limit (ob : OrderBook) (order : OrderPtr) (hwf : ob.WF)
    (hv : ob.validOrder order) (hk : (ob.orderAt order).Kind = .LimitOrderType) :
    (ob.SubmitOrder order).1 =
      if (matchLevels ob (opposite (ob.orderAt order).Dir) order
            (stopOf (ob.orderAt order).Dir (ob.orderAt order).Price)
            ((ob.bestFirst (ob.orderAt order).Dir).map Prod.snd)
            (ob.orderAt order).Amount).2.1 > 0 then
        .returned (newTransaction
          (matchLevels ob (opposite (ob.orderAt order).Dir) order
            (stopOf (ob.orderAt order).Dir (ob.orderAt order).Price)
            ((ob.bestFirst (ob.orderAt order).Dir).map Prod.snd)
            (ob.orderAt order).Amount).1
          (restFinalizer (runFinalizers
            (matchLevels ob (opposite (ob.orderAt order).Dir) order
              (stopOf (ob.orderAt order).Dir (ob.orderAt order).Price)
              ((ob.bestFirst (ob.orderAt order).Dir).map Prod.snd)
              (ob.orderAt order).Amount).2.2) order
            (matchLevels ob (opposite (ob.orderAt order).Dir) order
              (stopOf (ob.orderAt order).Dir (ob.orderAt order).Price)
              ((ob.bestFirst (ob.orderAt order).Dir).map Prod.snd)
              (ob.orderAt order).Amount).2.1
            (ownSide (ob.orderAt order).Dir)))
      else
        .returned (newTransaction
          ((matchLevels ob (opposite (ob.orderAt order).Dir) order
            (stopOf (ob.orderAt order).Dir (ob.orderAt order).Price)
            ((ob.bestFirst (ob.orderAt order).Dir).map Prod.snd)
            (ob.orderAt order).Amount).1 ++ [order])
          (runFinalizers
            (matchLevels ob (opposite (ob.orderAt order).Dir) order
              (stopOf (ob.orderAt order).Dir (ob.orderAt order).Price)
              ((ob.bestFirst (ob.orderAt order).Dir).map Prod.snd)
              (ob.orderAt order).Amount).2.2)) := by
  have hob : (ob.container .buy).priceTree.ordered := hwf.1.1
  have hos : (ob.container .sell).priceTree.ordered := hwf.2.1.1
  have hp : ¬ (ob.orderAt order).Price ≤ 0 := not_le.mpr hv.1
  have ha : ¬ (ob.orderAt order).Amount ≤ 0 := not_le.mpr hv.2
  have hm : ¬ (ob.orderAt order).Kind = .MarketOrderType := by rw [hk]; decide
  unfold OrderBook.SubmitOrder
  rw [if_neg hp, if_neg ha, if_neg hm]
  simp only
  unfold OrderBook.matchLimitOrder
  by_cases hd : (ob.orderAt order).Dir = .BuyOrderDirection
  · rw [if_pos hd, matchMinPrice_eq ob .sell order _ hos]
    simp only [hd, opposite, stopOf, OrderBook.bestFirst, ownSide]
  · rw [if_neg hd, matchMaxPrice_eq ob .buy order _ hob]
    simp only [dir_sell_of_ne hd, opposite, stopOf, OrderBook.bestFirst, ownSide]

theorem opposite_volumeOK (ob : OrderBook) (hvol : ob.volumeOK) (dir : OrderDirection) :
    ∀ e ∈ ob.bestFirst dir, (ob.queueAt e.2).volume = ob.fifoAmount e.2 := by
  intro e he
  cases dir with
  | BuyOrderDirection => exact hvol.2 e he
  | SellOrderDirection => exact hvol.1 e (List.mem_reverse.mp he)

/-! ## Partial fill of the head order -/

theorem matchLevels_partial_head (ob : OrderBook) (oc : ContainerPtr) (order : OrderPtr)
    (stop : Decimal → Bool) (q : QueuePtr) (rest : List QueuePtr) (el : Element)
    (els : List Element) (left : Decimal)
    (hstop : stop (OrderQueue.Price ob q) = false)
    (helems : (ob.queueAt q).orders.elems = el :: els)
    (hlt : left < (ob.orderAt el.Value).Amount)
    (hvol : (ob.orderAt order).Amount < (ob.queueAt q).volume) :
    (matchLevels ob oc order stop (q :: rest) left).1 = [] ∧
    (matchLevels ob oc order stop (q :: rest) left).2.1 = 0 ∧
    ∀ s, runFinalizers (matchLevels ob oc order stop (q :: rest) left).2.2 s =
      some (OrderQueue.update s q el.Value ((ob.orderAt el.Value).Amount - left)) := by
  have hlen : ¬ (ob.queueAt q).orders.Len = 0 := by simp [GoList.Len, helems]
  have hP : OrderQueue.Process ob q order left =
      ([], 0, runFinalizers [fun s => some (OrderQueue.update s q el.Value
        ((ob.orderAt el.Value).Amount - left))]) := by
    unfold OrderQueue.Process
    rw [if_neg hlen, helems]
    simp [processLoop, hlt]
  have hnv : ¬ (ob.orderAt order).Amount ≥ OrderQueue.Volume ob q := by
    unfold OrderQueue.Volume; exact not_le.mpr hvol
  simp only [matchLevels, hstop, hP, levelFinalizer, if_neg hnv]
  simp [runFinalizers]

theorem head_le_fifoAmount (ob : OrderBook) (e : Decimal × QueuePtr) (el : Element)
    (els : List Element) (he : ob.levelOK e)
    (helems : (ob.queueAt e.2).orders.elems = el :: els) :
    (ob.orderAt el.Value).Amount ≤ ob.fifoAmount e.2 := by
  unfold OrderBook.fifoAmount OrderBook.fifo
  rw [helems]
  simp only [List.map_cons, List.sum_cons]
  have : 0 ≤ (List.map (fun p => (ob.orderAt p).Amount)
      (List.map (fun e => e.Value) els)).sum := by
    apply List.sum_nonneg
    intro x hx
    obtain ⟨p, hp, rfl⟩ := List.mem_map.mp hx
    obtain ⟨el', hel', rfl⟩ := List.mem_map.mp hp
    exact le_of_lt (he.2.2 el' (by rw [helems]; exact List.mem_cons_of_mem _ hel')).2
  linarith

/-- C4 (partial fill of the head): on a well-formed book whose level volumes equal
the sums of their orders' amounts, a valid limit taker whose best opposite level
`e` is marketable and whose amount is below the amount of that level's head order
`el` gets a transaction whose commit returns exactly the taker; afterwards the
head order has its amount reduced by the taker's amount and is otherwise the
same, every other order is unchanged, every queue holds the same elements in the
same position (so the head stays the head), and both sides hold the same levels. -/
theorem C4_partial_fill_of_head (ob : OrderBook) (order : OrderPtr)
    (e : Decimal × QueuePtr) (rest : List (Decimal × QueuePtr)) (el : Element)
    (els : List Element)
    (hwf : ob.WF) (hvol : ob.volumeOK) (hv : ob.validOrder order)
    (hk : (ob.orderAt order).Kind = .LimitOrderType)
    (hbest : ob.bestFirst (ob.orderAt order).Dir = e :: rest)
    (hm : marketable (ob.orderAt order).Dir (ob.orderAt order).Price e.1 = true)
    (hhead : (ob.queueAt e.2).orders.elems = el :: els)
    (hlt : (ob.orderAt order).Amount < (ob.orderAt el.Value).Amount) :
    ∃ tr tr' ob',
      (ob.SubmitOrder order).1 = .returned tr ∧
      tr.Commit (ob.SubmitOrder order).2 = some ([order], tr', ob') ∧
      ob'.orderAt el.Value = { ob.orderAt el.Value with
        Amount := (ob.orderAt el.Value).Amount - (ob.orderAt order).Amount } ∧
      (∀ p, p ≠ el.Value → ob'.orderAt p = ob.orderAt p) ∧
      (∀ q, (ob'.queueAt q).orders = (ob.queueAt q).orders ∧
        (ob'.queueAt q).price = (ob.queueAt q).price) ∧
      ob'.buy = ob.buy ∧ ob'.sell = ob.sell := by
  have hlev := bestFirst_levelOK ob hwf _ e (by rw [hbest]; exact List.mem_cons_self _ _)
  have hve := opposite_volumeOK ob hvol _ e (by rw [hbest]; exact List.mem_cons_self _ _)
  have hstop : stopOf (ob.orderAt order).Dir (ob.orderAt order).Price
      (OrderQueue.Price ob e.2) = false := by
    rw [stopOf_eq]; unfold OrderQueue.Price; rw [hlev.1, hm]; rfl
  have hvl : (ob.orderAt order).Amount < (ob.queueAt e.2).volume := by
    rw [hve]; exact lt_of_lt_of_le hlt (head_le_fifoAmount ob e el els hlev hhead)
  have hml := matchLevels_partial_head ob (opposite (ob.orderAt order).Dir) order
    (stopOf (ob.orderAt order).Dir (ob.orderAt order).Price) e.2 (rest.map Prod.snd) el els
    (ob.orderAt order).Amount hstop hhead hlt hvl
  have hsub := submit_limit ob order hwf hv hk
  rw [hbest, List.map_cons] at hsub
  rw [hml.2.1, if_neg (lt_irrefl _), hml.1] at hsub
  refine ⟨_, ⟨[order], none⟩, OrderQueue.update ob e.2 el.Value
    ((ob.orderAt el.Value).Amount - (ob.orderAt order).Amount), hsub, ?_, ?_, ?_, ?_, ?_, ?_⟩
  · rw [submit_book]
    simp only [Transaction.Commit, newTransaction, hml.2.2, List.nil_append]
  · simp [OrderQueue.update, OrderBook.setQueue, OrderBook.setOrder]
  · intro p hp
    simp [OrderQueue.update, OrderBook.setQueue, OrderBook.setOrder, hp]
  · intro q
    simp only [OrderQueue.update, OrderBook.setQueue, OrderBook.setOrder]
    split <;> simp_all
  · rfl
  · rfl

/-- Witness of C4: the test "first buy, part of queue", a buy of 50 at 15 against
the head order of 100 at 10. -/
theorem C4_partial_fill_of_head_witness :
    (restingSells (limitBuy 4 15 50)).WF ∧ (restingSells (limitBuy 4 15 50)).volumeOK ∧
    ∃ tr tr' ob',
      ((restingSells (limitBuy 4 15 50)).SubmitOrder 4).1 = .returned tr ∧
      tr.Commit ((restingSells (limitBuy 4 15 50)).SubmitOrder 4).2 = some ([4], tr', ob') ∧
      ob'.orderAt 1 = limitSell 1 10 50 ∧
      (∀ p, p ≠ 1 → ob'.orderAt p = (restingSells (limitBuy 4 15 50)).orderAt p) ∧
      (∀ q, (ob'.queueAt q).orders = ((restingSells (limitBuy 4 15 50)).queueAt q).orders ∧
        (ob'.queueAt q).price = ((restingSells (limitBuy 4 15 50)).queueAt q).price) ∧
      ob'.buy = (restingSells (limitBuy 4 15 50)).buy ∧
      ob'.sell = (restingSells (limitBuy 4 15 50)).sell :=
  ⟨by decide, by decide,
    C4_partial_fill_of_head (restingSells (limitBuy 4 15 50)) 4 (10, 0) [(15, 1)] ⟨0, 1⟩
      [⟨1, 2⟩] (by decide) (by decide) (by decide) rfl rfl rfl rfl (by decide)⟩


/-! ## The map and the tree as finite maps -/

theorem get_delete (m : GoMap) (k k' : priceKey) :
    (GoMap.delete m k).get k' = if k' = k then none else m.get k' := by
  induction m with
  | nil => simp [GoMap.delete, GoMap.get]
  | cons e rest ih =>
    obtain ⟨ek, ev⟩ := e
    unfold GoMap.delete at ih ⊢
    by_cases hek : ek = k
    · subst hek
      simp only [List.filter_cons, ne_eq, not_true_eq_false, decide_False, Bool.false_eq_true,
        if_false, ih, GoMap.get]
      by_cases h : k' = ek
      · simp [h]
      · simp [h]
    · simp only [List.filter_cons, ne_eq, hek, not_false_eq_true, decide_True, if_true,
        GoMap.get, ih]
      by_cases h : k' = ek
      · have : ¬ k' = k := by rw [h]; exact hek
        simp [h, this, hek]
      · simp [h]

theorem get_set (m : GoMap) (k : priceKey) (v : QueuePtr) (k' : priceKey) :
    (GoMap.set m k v).get k' = if k' = k then some v else m.get k' := by
  unfold GoMap.set
  simp only [GoMap.get, get_delete]
  by_cases h : k' = k <;> simp [h]

theorem mem_of_get (m : GoMap) (k : priceKey) (v : QueuePtr) (h : m.get k = some v) :
    (k, v) ∈ m := by
  induction m with
  | nil => simp [GoMap.get] at h
  | cons e rest ih =>
    obtain ⟨ek, ev⟩ := e
    simp only [GoMap.get] at h
    by_cases hk : k = ek
    · simp only [hk, if_true, Option.some.injEq] at h
      subst hk; subst h; exact List.mem_cons_self _ _
    · simp only [hk, if_false] at h
      exact List.mem_cons_of_mem _ (ih h)

theorem put_inorder (t : Tree) (k : Decimal) (v : QueuePtr)
    (h : ∀ e ∈ t.inorder, e.1 ≠ k) :
    ∃ l1 l2, t.inorder = l1 ++ l2 ∧ (t.Put k v).inorder = l1 ++ (k, v) :: l2 := by
  induction t with
  | nil => exact ⟨[], [], rfl, rfl⟩
  | node l k' v' r ihl ihr =>
    have hk' : k' ≠ k := h (k', v') (by simp [Tree.inorder])
    simp only [Tree.Put]
    by_cases h1 : k < k'
    · obtain ⟨l1, l2, e1, e2⟩ := ihl (fun e he => h e (by simp [Tree.inorder, he]))
      refine ⟨l1, l2 ++ (k', v') :: r.inorder, ?_, ?_⟩
      · simp [Tree.inorder, e1]
      · simp [h1, Tree.inorder, e2]
    · by_cases h2 : k' < k
      · obtain ⟨l1, l2, e1, e2⟩ := ihr (fun e he => h e (by simp [Tree.inorder, he]))
        refine ⟨l.inorder ++ (k', v') :: l1, l2, ?_, ?_⟩
        · simp [Tree.inorder, e1]
        · simp [h1, h2, Tree.inorder, e2]
      · exact absurd (le_antisymm (not_lt.mp h1) (not_lt.mp h2)) hk'

theorem removeMax_inorder (l : Tree) (k : Decimal) (v : QueuePtr) (r : Tree) :
    (Tree.removeMax l k v r).1.inorder ++
        [((Tree.removeMax l k v r).2.1, (Tree.removeMax l k v r).2.2)]
      = l.inorder ++ (k, v) :: r.inorder := by
  induction r generalizing l k v with
  | nil => simp [Tree.removeMax, Tree.inorder]
  | node rl rk rv rr _ ihr =>
    have := ihr rl rk rv
    simp only [Tree.removeMax, Tree.inorder] at this ⊢
    simp only [List.append_assoc, List.cons_append]
    rw [this]

theorem filter_ne_self (xs : List (Decimal × QueuePtr)) (k : Decimal)
    (h : ∀ e ∈ xs, e.1 ≠ k) : xs.filter (fun e => decide (e.1 ≠ k)) = xs := by
  rw [List.filter_eq_self]
  intro e he
  simpa using h e he

theorem remove_inorder (t : Tree) (k : Decimal) (h : t.ordered) :
    (t.Remove k).inorder = t.inorder.filter (fun e => decide (e.1 ≠ k)) := by
  induction t with
  | nil => rfl
  | node l k' v' r ihl ihr =>
    unfold Tree.ordered at h ihl ihr
    simp only [Tree.inorder, List.map_append, List.map_cons, List.pairwise_append,
      List.pairwise_cons] at h
    obtain ⟨hl, ⟨hkr, hr⟩, hlr⟩ := h
    have hlk : ∀ e ∈ l.inorder, e.1 < k' := fun e he =>
      hlr e.1 (List.mem_map.mpr ⟨e, he, rfl⟩) k' (List.mem_cons_self _ _)
    have hrk : ∀ e ∈ r.inorder, k' < e.1 := fun e he =>
      hkr e.1 (List.mem_map.mpr ⟨e, he, rfl⟩)
    simp only [Tree.Remove]
    by_cases h1 : k < k'
    · have hne : k' ≠ k := ne_of_gt h1
      simp only [h1, if_true, Tree.inorder, ihl hl, List.filter_append, List.filter_cons]
      rw [filter_ne_self r.inorder k (fun e he => ne_of_gt (lt_trans h1 (hrk e he)))]
      simp [hne]
    · by_cases h2 : k' < k
      · have hne : k' ≠ k := ne_of_lt h2
        simp only [h1, h2, if_true, if_false, Tree.inorder, ihr hr, List.filter_append,
          List.filter_cons]
        rw [filter_ne_self l.inorder k (fun e he => ne_of_lt (lt_trans (hlk e he) h2))]
        simp [hne]
      · have hkk : k' = k := le_antisymm (not_lt.mp h1) (not_lt.mp h2)
        subst hkk
        simp only [lt_irrefl, if_false, Tree.inorder, List.filter_append, List.filter_cons]
        rw [filter_ne_self l.inorder k' (fun e he => ne_of_lt (hlk e he)),
          filter_ne_self r.inorder k' (fun e he => ne_of_gt (hrk e he))]
        simp only [ne_eq, not_true_eq_false, decide_False, Bool.false_eq_true, if_false]
        cases l with
        | nil => simp [Tree.inorder]
        | node ll lk lv lr =>
          cases r with
          | nil => simp [Tree.inorder]
          | node rl rk rv rr =>
            have := removeMax_inorder ll lk lv lr
            simp only [Tree.inorder] at this ⊢
            rw [← this]
            simp

theorem remove_ordered (t : Tree) (k : Decimal) (h : t.ordered) : (t.Remove k).ordered := by
  unfold Tree.ordered
  rw [remove_inorder t k h]
  exact h.sublist ((List.filter_sublist _).map _)


/-! ## Levels that are consumed whole -/

theorem processLoop_all (ob : OrderBook) (oq : QueuePtr) (els : List Element) (left : Decimal)
    (hpos : ∀ el ∈ els, 0 < (ob.orderAt el.Value).Amount)
    (hsum : (els.map (fun e => (ob.orderAt e.Value).Amount)).sum ≤ left) :
    (processLoop ob oq els left).1 = els.map (fun e => e.Value) ∧
    (processLoop ob oq els left).2.1
      = left - (els.map (fun e => (ob.orderAt e.Value).Amount)).sum := by
  induction els generalizing left with
  | nil => simp [processLoop]
  | cons el rest ih =>
    simp only [List.map_cons, List.sum_cons] at hsum
    have hrest : 0 ≤ (rest.map (fun e => (ob.orderAt e.Value).Amount)).sum := by
      apply List.sum_nonneg
      intro x hx
      obtain ⟨e, he, rfl⟩ := List.mem_map.mp hx
      exact le_of_lt (hpos e (List.mem_cons_of_mem _ he))
    have hnl : ¬ left < (ob.orderAt el.Value).Amount := by linarith
    have h := ih (left - (ob.orderAt el.Value).Amount)
      (fun e he => hpos e (List.mem_cons_of_mem _ he)) (by linarith)
    simp only [processLoop, if_neg hnl, List.map_cons, List.sum_cons, h.1, h.2]
    exact ⟨trivial, by ring⟩

theorem fifoAmount_eq (ob : OrderBook) (q : QueuePtr) :
    ob.fifoAmount q = ((ob.queueAt q).orders.elems.map
      (fun e => (ob.orderAt e.Value).Amount)).sum := by
  simp [OrderBook.fifoAmount, OrderBook.fifo, List.map_map, Function.comp_def]

theorem fifoAmount_pos (ob : OrderBook) (e : Decimal × QueuePtr) (he : ob.levelOK e) :
    0 < ob.fifoAmount e.2 := by
  rw [fifoAmount_eq]
  obtain ⟨_, hne, hall⟩ := he
  cases hels : (ob.queueAt e.2).orders.elems with
  | nil => exact absurd hels hne
  | cons el rest =>
    rw [hels] at hall
    simp only [List.map_cons, List.sum_cons]
    have hrest : 0 ≤ (rest.map (fun e => (ob.orderAt e.Value).Amount)).sum := by
      apply List.sum_nonneg
      intro x hx
      obtain ⟨e', he', rfl⟩ := List.mem_map.mp hx
      exact le_of_lt (hall e' (List.mem_cons_of_mem _ he')).2
    have := (hall el (List.mem_cons_self _ _)).2
    linarith

theorem amountOf_nonneg (ob : OrderBook) (ls : List (Decimal × QueuePtr))
    (h : ∀ e ∈ ls, ob.levelOK e) : 0 ≤ ob.amountOf ls := by
  unfold OrderBook.amountOf
  apply List.sum_nonneg
  intro x hx
  obtain ⟨e, he, rfl⟩ := List.mem_map.mp hx
  exact le_of_lt (fifoAmount_pos ob e (h e he))

theorem process_all (ob : OrderBook) (e : Decimal × QueuePtr) (order : OrderPtr)
    (left : Decimal) (he : ob.levelOK e) (hsum : ob.fifoAmount e.2 ≤ left) :
    (OrderQueue.Process ob e.2 order left).1 = ob.fifo e.2 ∧
    (OrderQueue.Process ob e.2 order left).2.1 = left - ob.fifoAmount e.2 := by
  have hlen : ¬ (ob.queueAt e.2).orders.Len = 0 := by
    unfold GoList.Len
    intro h
    exact he.2.1 (List.length_eq_zero.mp h)
  rw [fifoAmount_eq] at hsum ⊢
  have h := processLoop_all ob e.2 (ob.queueAt e.2).orders.elems left
    (fun el hel => (he.2.2 el hel).2) hsum
  unfold OrderQueue.Process
  rw [if_neg hlen]
  exact ⟨h.1, h.2⟩

theorem levelFinalizer_drained (ob : OrderBook) (oc : ContainerPtr) (order : OrderPtr)
    (stop : Decimal → Bool) (e : Decimal × QueuePtr) (fin : finalizerFn)
    (h : drained ob order stop e) :
    levelFinalizer ob oc order e.2 fin = removeLevel oc e.2 := by
  unfold levelFinalizer
  rw [if_pos]
  exact h.2.2.2

theorem matchLevels_drain_more (ob : OrderBook) (oc : ContainerPtr) (order : OrderPtr)
    (stop : Decimal → Bool) (ms rest : List (Decimal × QueuePtr)) (left : Decimal)
    (hd : ∀ e ∈ ms, drained ob order stop e)
    (hsum : ob.amountOf ms < left) :
    matchLevels ob oc order stop ((ms ++ rest).map Prod.snd) left =
      (ob.ordersOf ms ++
          (matchLevels ob oc order stop (rest.map Prod.snd) (left - ob.amountOf ms)).1,
        (matchLevels ob oc order stop (rest.map Prod.snd) (left - ob.amountOf ms)).2.1,
        ms.map (fun e => removeLevel oc e.2) ++
          (matchLevels ob oc order stop (rest.map Prod.snd) (left - ob.amountOf ms)).2.2) := by
  induction ms generalizing left with
  | nil => simp [OrderBook.ordersOf, OrderBook.amountOf]
  | cons e ms ih =>
    have he := hd e (List.mem_cons_self _ _)
    have hms : ∀ e' ∈ ms, drained ob order stop e' :=
      fun e' he' => hd e' (List.mem_cons_of_mem _ he')
    have hnn := amountOf_nonneg ob ms (fun e' he' => (hms e' he').2.1)
    have hsplit : ob.amountOf (e :: ms) = ob.fifoAmount e.2 + ob.amountOf ms := by
      simp [OrderBook.amountOf]
    rw [hsplit] at hsum ⊢
    have hp := process_all ob e order left he.2.1 (by linarith)
    have hnz : ¬ left - ob.fifoAmount e.2 = 0 := by
      intro h0; linarith
    simp only [List.cons_append, List.map_cons, matchLevels, he.1, Bool.false_eq_true, if_false,
      hp.1, hp.2, if_neg hnz, levelFinalizer_drained ob oc order stop e _ he, List.append_eq]
    rw [ih (left - ob.fifoAmount e.2) hms (by linarith)]
    simp only [OrderBook.ordersOf, List.flatMap_cons, List.append_assoc, List.cons_append]
    rw [show left - ob.fifoAmount e.2 - ob.amountOf ms
      = left - (ob.fifoAmount e.2 + ob.amountOf ms) by ring]

theorem matchLevels_drain_exact (ob : OrderBook) (oc : ContainerPtr) (order : OrderPtr)
    (stop : Decimal → Bool) (ms rest : List (Decimal × QueuePtr)) (left : Decimal)
    (hd : ∀ e ∈ ms, drained ob order stop e) (hne : ms ≠ [])
    (hsum : ob.amountOf ms = left) :
    matchLevels ob oc order stop ((ms ++ rest).map Prod.snd) left =
      (ob.ordersOf ms, 0, ms.map (fun e => removeLevel oc e.2)) := by
  induction ms generalizing left with
  | nil => exact absurd rfl hne
  | cons e ms ih =>
    have he := hd e (List.mem_cons_self _ _)
    have hms : ∀ e' ∈ ms, drained ob order stop e' :=
      fun e' he' => hd e' (List.mem_cons_of_mem _ he')
    have hsplit : ob.amountOf (e :: ms) = ob.fifoAmount e.2 + ob.amountOf ms := by
      simp [OrderBook.amountOf]
    rw [hsplit] at hsum
    have hnn := amountOf_nonneg ob ms (fun e' he' => (hms e' he').2.1)
    have hp := process_all ob e order left he.2.1 (by linarith)
    simp only [List.cons_append, List.map_cons, matchLevels, he.1, Bool.false_eq_true, if_false,
      hp.1, hp.2, levelFinalizer_drained ob oc order stop e _ he, List.append_eq]
    cases ms with
    | nil =>
      have hz : left - ob.fifoAmount e.2 = 0 := by
        simp [OrderBook.amountOf] at hsum; linarith
      simp [hz, OrderBook.ordersOf]
    | cons e2 ms2 =>
      have hpos2 : 0 < ob.amountOf (e2 :: ms2) := by
        have h2 := fifoAmount_pos ob e2 (hms e2 (List.mem_cons_self _ _)).2.1
        have h3 := amountOf_nonneg ob ms2
          (fun e' he' => (hms e' (List.mem_cons_of_mem _ he')).2.1)
        have : ob.amountOf (e2 :: ms2) = ob.fifoAmount e2.2 + ob.amountOf ms2 := by
          simp [OrderBook.amountOf]
        linarith
      have hnz : ¬ left - ob.fifoAmount e.2 = 0 := by
        intro h0; linarith
      rw [if_neg hnz]
      rw [ih (left - ob.fifoAmount e.2) hms (by simp) (by linarith)]
      simp [OrderBook.ordersOf]


/-! ## Removing levels at commit -/

@[simp] theorem container_setContainer_same (s : OrderBook) (oc : ContainerPtr)
    (c : OrderContainer) : (s.setContainer oc c).container oc = c := by
  cases oc <;> rfl

theorem container_setContainer_other (s : OrderBook) (oc oc' : ContainerPtr)
    (c : OrderContainer) (h : oc' ≠ oc) :
    (s.setContainer oc c).container oc' = s.container oc' := by
  cases oc <;> cases oc' <;> first | rfl | exact absurd rfl h

@[simp] theorem orderAt_setContainer (s : OrderBook) (oc : ContainerPtr) (c : OrderContainer) :
    (s.setContainer oc c).orderAt = s.orderAt := by
  cases oc <;> rfl

@[simp] theorem queueAt_setContainer (s : OrderBook) (oc : ContainerPtr) (c : OrderContainer) :
    (s.setContainer oc c).queueAt = s.queueAt := by
  cases oc <;> rfl

@[simp] theorem nextQueue_setContainer (s : OrderBook) (oc : ContainerPtr)
    (c : OrderContainer) : (s.setContainer oc c).nextQueue = s.nextQueue := by
  cases oc <;> rfl

/-- The effect of one `oc.Remove(queue.Price())` on an indexed side. -/
theorem removeLevel_spec (s : OrderBook) (oc : ContainerPtr) (e : Decimal × QueuePtr)
    (hi : s.indexed oc) (he : e ∈ s.levels oc) (hp : (s.queueAt e.2).price = e.1) :
    ∃ s1, removeLevel oc e.2 s = some s1 ∧
      s1.orderAt = s.orderAt ∧ s1.queueAt = s.queueAt ∧ s1.nextQueue = s.nextQueue ∧
      (∀ oc', oc' ≠ oc → s1.container oc' = s.container oc') ∧
      s1.levels oc = (s.levels oc).filter (fun e' => decide (e'.1 ≠ e.1)) ∧
      (s1.container oc).priceHash = GoMap.delete (s.container oc).priceHash (keyOf e.1) ∧
      s1.indexed oc := by
  have hg := hi.2 e he
  have hlev : ((s.container oc).priceTree.Remove e.1).inorder
      = (s.levels oc).filter (fun e' => decide (e'.1 ≠ e.1)) :=
    remove_inorder _ _ hi.1
  refine ⟨s.setContainer oc
    { priceHash := GoMap.delete (s.container oc).priceHash (keyOf e.1)
      priceTree := (s.container oc).priceTree.Remove e.1
      volume := (s.container oc).volume - OrderQueue.Volume s e.2 }, ?_, ?_, ?_, ?_, ?_, ?_, ?_, ?_⟩
  · simp only [removeLevel, OrderContainer.Remove, OrderQueue.Price, hp, hg]
  · simp
  · simp
  · simp
  · intro oc' h; exact container_setContainer_other _ _ _ _ h
  · simp only [OrderBook.levels, container_setContainer_same]
    exact hlev
  · simp
  · refine ⟨?_, ?_⟩
    · simp only [container_setContainer_same]
      exact remove_ordered _ _ hi.1
    · intro e' he'
      simp only [OrderBook.levels, container_setContainer_same] at he' ⊢
      rw [hlev] at he'
      have hm := List.mem_filter.mp he'
      have hne : e'.1 ≠ e.1 := by simpa using hm.2
      rw [get_delete]
      simp only [keyOf, hne, if_false]
      exact hi.2 e' hm.1

theorem runFinalizers_cons_some (fn : finalizerFn) (rest : List finalizerFn)
    (s s1 : OrderBook) (h : fn s = some s1) :
    runFinalizers (fn :: rest) s = runFinalizers rest s1 := by
  simp [runFinalizers, h]

/-- The effect of the staged removals of some levels of an indexed side. -/
theorem removeLevels_spec (oc : ContainerPtr) (ms : List (Decimal × QueuePtr)) (s : OrderBook)
    (hi : s.indexed oc)
    (hms : ∀ e ∈ ms, e ∈ s.levels oc ∧ (s.queueAt e.2).price = e.1)
    (hnd : (ms.map Prod.fst).Nodup) :
    ∃ s', runFinalizers (ms.map (fun e => removeLevel oc e.2)) s = some s' ∧
      s'.orderAt = s.orderAt ∧ s'.queueAt = s.queueAt ∧ s'.nextQueue = s.nextQueue ∧
      (∀ oc', oc' ≠ oc → s'.container oc' = s.container oc') ∧
      s'.levels oc = (s.levels oc).filter (fun e' => decide (e'.1 ∉ ms.map Prod.fst)) ∧
      s'.indexed oc ∧
      (∀ e' ∈ (s'.container oc).priceHash, e' ∈ (s.container oc).priceHash ∧
        e'.1 ∉ ms.map Prod.fst) := by
  induction ms generalizing s with
  | nil =>
    refine ⟨s, rfl, rfl, rfl, rfl, fun _ _ => rfl, ?_, hi, fun e' he' => ⟨he', by simp⟩⟩
    simp
  | cons e ms ih =>
    have he := hms e (List.mem_cons_self _ _)
    obtain ⟨s1, h1, ho1, hq1, hn1, hc1, hl1, hh1, hi1⟩ := removeLevel_spec s oc e hi he.1 he.2
    simp only [List.map_cons, List.nodup_cons] at hnd
    have hms1 : ∀ e' ∈ ms, e' ∈ s1.levels oc ∧ (s1.queueAt e'.2).price = e'.1 := by
      intro e' he'
      have h := hms e' (List.mem_cons_of_mem _ he')
      refine ⟨?_, by rw [hq1]; exact h.2⟩
      rw [hl1]
      refine List.mem_filter.mpr ⟨h.1, ?_⟩
      have : e'.1 ≠ e.1 := by
        intro heq
        exact hnd.1 (heq ▸ List.mem_map.mpr ⟨e', he', rfl⟩)
      simpa using this
    obtain ⟨s', h', ho', hq', hn', hc', hl', hi', hh'⟩ := ih s1 hi1 hms1 hnd.2
    refine ⟨s', ?_, ho'.trans ho1, hq'.trans hq1, hn'.trans hn1,
      fun oc' h => (hc' oc' h).trans (hc1 oc' h), ?_, hi', ?_⟩
    · simp only [List.map_cons]
      rw [runFinalizers_cons_some _ _ s s1 h1]
      exact h'
    · rw [hl', hl1, List.filter_filter]
      congr 1
      funext e'
      simp only [List.map_cons, List.mem_cons, not_or, Bool.decide_and, Bool.and_comm]
    · intro e' he'
      have h := hh' e' he'
      rw [hh1] at h
      have hm := List.mem_filter.mp h.1
      refine ⟨hm.1, ?_⟩
      simp only [List.map_cons, List.mem_cons, not_or]
      exact ⟨by simpa [keyOf] using hm.2, h.2⟩

theorem filter_keys_append (ms rest : List (Decimal × QueuePtr))
    (hnd : ((ms ++ rest).map Prod.fst).Nodup) :
    (ms ++ rest).filter (fun e' => decide (e'.1 ∉ ms.map Prod.fst)) = rest := by
  rw [List.map_append, List.nodup_append] at hnd
  rw [List.filter_append]
  have h1 : ms.filter (fun e' => decide (e'.1 ∉ ms.map Prod.fst)) = [] := by
    rw [List.filter_eq_nil_iff]
    intro e he
    simp only [decide_not, Bool.not_eq_true', decide_eq_false_iff_not, not_not]
    exact List.mem_map.mpr ⟨e, he, rfl⟩
  have h2 : rest.filter (fun e' => decide (e'.1 ∉ ms.map Prod.fst)) = rest := by
    rw [List.filter_eq_self]
    intro e he
    simp only [decide_not, Bool.not_eq_true', decide_eq_false_iff_not]
    intro hm
    exact hnd.2.2 hm (List.mem_map.mpr ⟨e, he, rfl⟩)
  rw [h1, h2, List.nil_append]

theorem ordered_keys_nodup (t : Tree) (h : t.ordered) : (t.inorder.map Prod.fst).Nodup := by
  unfold Tree.ordered at h
  exact h.imp (fun hab => ne_of_lt hab)

theorem bestFirst_keys_nodup (ob : OrderBook) (hwf : ob.WF) (dir : OrderDirection) :
    ((ob.bestFirst dir).map Prod.fst).Nodup := by
  cases dir with
  | BuyOrderDirection => exact ordered_keys_nodup _ hwf.2.1.1
  | SellOrderDirection =>
    simp only [OrderBook.bestFirst, List.map_reverse, List.nodup_reverse]
    exact ordered_keys_nodup _ hwf.1.1

theorem mem_levels_of_bestFirst (ob : OrderBook) (dir : OrderDirection)
    (e : Decimal × QueuePtr) (h : e ∈ ob.bestFirst dir) : e ∈ ob.levels (opposite dir) := by
  cases dir with
  | BuyOrderDirection => exact h
  | SellOrderDirection => exact List.mem_reverse.mp h

theorem bestFirst_filter (ob ob' : OrderBook) (dir : OrderDirection)
    (p : Decimal × QueuePtr → Bool)
    (h : ob'.levels (opposite dir) = (ob.levels (opposite dir)).filter p) :
    ob'.bestFirst dir = (ob.bestFirst dir).filter p := by
  cases dir with
  | BuyOrderDirection => exact h
  | SellOrderDirection =>
    simp only [OrderBook.bestFirst, opposite] at h ⊢
    rw [h, List.filter_reverse]

theorem indexed_of_WF (ob : OrderBook) (hwf : ob.WF) (oc : ContainerPtr) : ob.indexed oc := by
  cases oc with
  | buy => exact ⟨hwf.1.1, hwf.1.2.1⟩
  | sell => exact ⟨hwf.2.1.1, hwf.2.1.2.1⟩

theorem own_ne_opposite (dir : OrderDirection) : ownSide dir ≠ opposite dir := by
  cases dir <;> decide

/-- Commit of the staged removal of the first levels `ms` of the opposite side. -/
theorem removeBest_spec (ob : OrderBook) (dir : OrderDirection)
    (ms rest : List (Decimal × QueuePtr)) (hwf : ob.WF)
    (hbest : ob.bestFirst dir = ms ++ rest) :
    ∃ s', runFinalizers (ms.map (fun e => removeLevel (opposite dir) e.2)) ob = some s' ∧
      s'.orderAt = ob.orderAt ∧ s'.queueAt = ob.queueAt ∧ s'.nextQueue = ob.nextQueue ∧
      s'.container (ownSide dir) = ob.container (ownSide dir) ∧
      s'.bestFirst dir = rest := by
  have hlevok := bestFirst_levelOK ob hwf dir
  have hnd := bestFirst_keys_nodup ob hwf dir
  rw [hbest] at hnd hlevok
  obtain ⟨s', h', ho, hq, hn, hc, hl, _, _⟩ := removeLevels_spec (opposite dir) ms ob
    (indexed_of_WF ob hwf _)
    (fun e he => ⟨mem_levels_of_bestFirst ob dir e (by rw [hbest]; exact List.mem_append_left _ he),
      (hlevok e (List.mem_append_left _ he)).1⟩)
    (by rw [List.map_append] at hnd; exact (List.nodup_append.mp hnd).1)
  refine ⟨s', h', ho, hq, hn, hc _ (own_ne_opposite dir), ?_⟩
  rw [bestFirst_filter ob s' dir _ hl, hbest]
  exact filter_keys_append ms rest hnd


/-! ## Whole levels consumed by a limit taker -/

theorem fifoAmount_le_amountOf (ob : OrderBook) (ms : List (Decimal × QueuePtr))
    (h : ∀ e ∈ ms, ob.levelOK e) (e : Decimal × QueuePtr) (he : e ∈ ms) :
    ob.fifoAmount e.2 ≤ ob.amountOf ms := by
  unfold OrderBook.amountOf
  apply List.single_le_sum
  · intro x hx
    obtain ⟨e', he', rfl⟩ := List.mem_map.mp hx
    exact le_of_lt (fifoAmount_pos ob e' (h e' he'))
  · exact List.mem_map.mpr ⟨e, he, rfl⟩

theorem volumes_eq_amountOf (ob : OrderBook) (ms : List (Decimal × QueuePtr))
    (h : ∀ e ∈ ms, (ob.queueAt e.2).volume = ob.fifoAmount e.2) :
    (ms.map (fun e => (ob.queueAt e.2).volume)).sum = ob.amountOf ms := by
  unfold OrderBook.amountOf
  congr 1
  exact List.map_congr_left h

theorem stop_false_of_marketable (ob : OrderBook) (dir : OrderDirection) (price : Decimal)
    (e : Decimal × QueuePtr) (he : ob.levelOK e) (hm : marketable dir price e.1 = true) :
    stopOf dir price (OrderQueue.Price ob e.2) = false := by
  rw [stopOf_eq]; unfold OrderQueue.Price; rw [he.1, hm]; rfl

/-- C5 (whole-level drain): on a well-formed book whose level volumes equal the
sums of their orders' amounts, a valid limit taker whose amount equals the total
volume of the `k ≥ 1` best opposite levels, all marketable, gets a transaction
whose commit returns the orders of those levels, best level first and front to
back, followed by the taker; afterwards the opposite side holds exactly the
remaining levels, and the taker's own side, every order and every queue are as
before. -/
theorem C5_whole_level_drain (ob : OrderBook) (order : OrderPtr) (k : Nat)
    (hwf : ob.WF) (hvol : ob.volumeOK) (hv : ob.validOrder order)
    (hk : (ob.orderAt order).Kind = .LimitOrderType)
    (hk1 : 1 ≤ k) (hk2 : k ≤ (ob.bestFirst (ob.orderAt order).Dir).length)
    (hm : ∀ e ∈ (ob.bestFirst (ob.orderAt order).Dir).take k,
      marketable (ob.orderAt order).Dir (ob.orderAt order).Price e.1 = true)
    (hamt : (ob.orderAt order).Amount =
      (((ob.bestFirst (ob.orderAt order).Dir).take k).map
        (fun e => (ob.queueAt e.2).volume)).sum) :
    ∃ tr tr' ob',
      (ob.SubmitOrder order).1 = .returned tr ∧
      tr.Commit (ob.SubmitOrder order).2
        = some (ob.ordersOf ((ob.bestFirst (ob.orderAt order).Dir).take k) ++ [order],
            tr', ob') ∧
      ob'.bestFirst (ob.orderAt order).Dir = (ob.bestFirst (ob.orderAt order).Dir).drop k ∧
      ob'.container (ownSide (ob.orderAt order).Dir)
        = ob.container (ownSide (ob.orderAt order).Dir) ∧
      ob'.orderAt = ob.orderAt ∧ ob'.queueAt = ob.queueAt := by
  have hbest : ob.bestFirst (ob.orderAt order).Dir
      = (ob.bestFirst (ob.orderAt order).Dir).take k
        ++ (ob.bestFirst (ob.orderAt order).Dir).drop k := (List.take_append_drop _ _).symm
  generalize hms : (ob.bestFirst (ob.orderAt order).Dir).take k = ms at hbest hm hamt ⊢
  generalize (ob.bestFirst (ob.orderAt order).Dir).drop k = rest at hbest ⊢
  have hne : ms ≠ [] := by
    intro h0
    have := congrArg List.length hms
    rw [h0, List.length_take] at this
    simp only [List.length_nil] at this
    omega
  have hin : ∀ e ∈ ms, e ∈ ob.bestFirst (ob.orderAt order).Dir := fun e he => by
    rw [hbest]; exact List.mem_append_left _ he
  have hlev : ∀ e ∈ ms, ob.levelOK e := fun e he => bestFirst_levelOK ob hwf _ e (hin e he)
  have hve : ∀ e ∈ ms, (ob.queueAt e.2).volume = ob.fifoAmount e.2 :=
    fun e he => opposite_volumeOK ob hvol _ e (hin e he)
  rw [volumes_eq_amountOf ob ms hve] at hamt
  have hd : ∀ e ∈ ms, drained ob order
      (stopOf (ob.orderAt order).Dir (ob.orderAt order).Price) e := by
    intro e he
    refine ⟨stop_false_of_marketable ob _ _ e (hlev e he) (hm e he), hlev e he, hve e he, ?_⟩
    rw [hve e he, hamt]
    exact fifoAmount_le_amountOf ob ms hlev e he
  have hml := matchLevels_drain_exact ob (opposite (ob.orderAt order).Dir) order
    (stopOf (ob.orderAt order).Dir (ob.orderAt order).Price) ms rest
    (ob.orderAt order).Amount hd hne hamt.symm
  have hsub := submit_limit ob order hwf hv hk
  rw [hbest, hml] at hsub
  simp only [gt_iff_lt, lt_irrefl, if_false] at hsub
  obtain ⟨s', h', ho, hq, _, hc, hl⟩ := removeBest_spec ob (ob.orderAt order).Dir ms rest hwf hbest
  refine ⟨_, ⟨ob.ordersOf ms ++ [order], none⟩, s', hsub, ?_, hl, hc, ho, hq⟩
  rw [submit_book]
  simp only [Transaction.Commit, newTransaction, h']


/-! ## The taker's rest is filed on its own side -/

theorem matchLevels_stop (ob : OrderBook) (oc : ContainerPtr) (order : OrderPtr)
    (stop : Decimal → Bool) (rest : List (Decimal × QueuePtr)) (left : Decimal)
    (h : ∀ e, rest.head? = some e → stop (OrderQueue.Price ob e.2) = true) :
    matchLevels ob oc order stop (rest.map Prod.snd) left = ([], left, []) := by
  cases rest with
  | nil => rfl
  | cons e rest =>
    have := h e rfl
    simp [matchLevels, this]

theorem split_by_monotone {α : Type} (R : α → α → Prop) (p : α → Bool) (l : List α)
    (hl : l.Pairwise R) (hmono : ∀ a b, R a b → p b = true → p a = true) :
    l = l.filter p ++ l.filter (fun a => !p a) := by
  induction l with
  | nil => rfl
  | cons x xs ih =>
    rw [List.pairwise_cons] at hl
    by_cases hx : p x = true
    · simp only [List.filter_cons, hx, if_true, Bool.not_true, Bool.false_eq_true, if_false,
        List.cons_append]
      rw [← ih hl.2]
    · have hnone : xs.filter p = [] := by
        rw [List.filter_eq_nil_iff]
        intro y hy hpy
        exact hx (hmono x y (hl.1 y hy) hpy)
      have hall : xs.filter (fun a => !p a) = xs := by
        rw [List.filter_eq_self]
        intro y hy
        have : ¬ p y = true := fun hpy => hx (hmono x y (hl.1 y hy) hpy)
        simpa using this
      simp only [List.filter_cons, hx, if_false, hnone, List.nil_append]
      simp [hall]

theorem bestFirst_split (ob : OrderBook) (hwf : ob.WF) (dir : OrderDirection)
    (price : Decimal) :
    ob.bestFirst dir = (ob.bestFirst dir).filter (fun e => marketable dir price e.1) ++
      (ob.bestFirst dir).filter (fun e => !marketable dir price e.1) := by
  cases dir with
  | BuyOrderDirection =>
    have hs : (ob.levels .sell).Pairwise (fun a b => a.1 < b.1) := by
      have := hwf.2.1.1
      unfold Tree.ordered at this
      exact List.pairwise_map.mp this
    exact split_by_monotone (fun (a b : Decimal × QueuePtr) => a.1 < b.1)
      (fun (e : Decimal × QueuePtr) => marketable .BuyOrderDirection price e.1) _ hs
      (fun a b hab hb => by
        simp only [marketable, decide_eq_true_eq] at hb ⊢
        exact le_of_lt (lt_of_lt_of_le hab hb))
  | SellOrderDirection =>
    have hs : (ob.levels .buy).reverse.Pairwise (fun a b => b.1 < a.1) := by
      have := hwf.1.1
      unfold Tree.ordered at this
      rw [List.pairwise_reverse]
      exact List.pairwise_map.mp this
    exact split_by_monotone (fun (a b : Decimal × QueuePtr) => b.1 < a.1)
      (fun (e : Decimal × QueuePtr) => marketable .SellOrderDirection price e.1) _ hs
      (fun a b hab hb => by
        simp only [marketable, decide_eq_true_eq] at hb ⊢
        exact le_of_lt (lt_of_le_of_lt hb hab))

theorem bestFirst_congr (s s' : OrderBook) (dir : OrderDirection)
    (h : s'.container (opposite dir) = s.container (opposite dir)) :
    s'.bestFirst dir = s.bestFirst dir := by
  cases dir <;> simp only [OrderBook.bestFirst, OrderBook.levels, opposite] at h ⊢ <;> rw [h]

theorem container_setQueue (s : OrderBook) (q : QueuePtr) (v : OrderQueue)
    (oc : ContainerPtr) : (s.setQueue q v).container oc = s.container oc := by
  cases oc <;> rfl

theorem container_setOrder (s : OrderBook) (p : OrderPtr) (o : Order)
    (oc : ContainerPtr) : (s.setOrder p o).container oc = s.container oc := by
  cases oc <;> rfl

/-- The effect of `order.Amount = amountLeft; own.Add(order)` on a book whose own
side is indexed both ways and whose queues carry their keys. -/
theorem rest_spec (s : OrderBook) (oc : ContainerPtr) (p : OrderPtr) (a : Decimal)
    (hi : s.indexed oc)
    (hh : ∀ e ∈ (s.container oc).priceHash, e ∈ s.levels oc)
    (hp : ∀ e ∈ s.levels oc, (s.queueAt e.2).price = e.1) :
    ∃ q,
      (OrderContainer.Add (s.setOrder p { s.orderAt p with Amount := a }) oc p).orderAt
        = (s.setOrder p { s.orderAt p with Amount := a }).orderAt ∧
      (∀ oc', oc' ≠ oc →
        (OrderContainer.Add (s.setOrder p { s.orderAt p with Amount := a }) oc p).container oc'
          = s.container oc') ∧
      (∀ q', q' ≠ q →
        (OrderContainer.Add (s.setOrder p { s.orderAt p with Amount := a }) oc p).queueAt q'
          = s.queueAt q') ∧
      ((OrderContainer.Add (s.setOrder p { s.orderAt p with Amount := a }) oc p).queueAt q).price
        = (s.orderAt p).Price ∧
      ((((s.orderAt p).Price, q) ∈ s.levels oc ∧
          (OrderContainer.Add (s.setOrder p { s.orderAt p with Amount := a }) oc p).levels oc
            = s.levels oc ∧
          (OrderContainer.Add (s.setOrder p { s.orderAt p with Amount := a }) oc p).fifo q
            = s.fifo q ++ [p]) ∨
        (q = s.nextQueue ∧ (∀ e ∈ s.levels oc, e.1 ≠ (s.orderAt p).Price) ∧
          (∃ l1 l2, s.levels oc = l1 ++ l2 ∧
            (OrderContainer.Add (s.setOrder p { s.orderAt p with Amount := a }) oc p).levels oc
              = l1 ++ ((s.orderAt p).Price, q) :: l2) ∧
          (OrderContainer.Add (s.setOrder p { s.orderAt p with Amount := a }) oc p).fifo q
            = [p])) := by
  have hprice : ((s.setOrder p { s.orderAt p with Amount := a }).orderAt p).Price
      = (s.orderAt p).Price := by simp [OrderBook.setOrder]
  cases hg : (s.container oc).priceHash.get (keyOf (s.orderAt p).Price) with
  | some q =>
    have hmem : ((s.orderAt p).Price, q) ∈ s.levels oc := hh _ (mem_of_get _ _ _ hg)
    have hAdd : OrderContainer.Add (s.setOrder p { s.orderAt p with Amount := a }) oc p
        = OrderQueue.Add (s.setOrder p { s.orderAt p with Amount := a }) q p := by
      unfold OrderContainer.Add
      simp only [hprice, container_setOrder, hg]
    rw [hAdd]
    refine ⟨q, rfl, ?_, ?_, ?_, Or.inl ⟨hmem, ?_, ?_⟩⟩
    · intro oc' _
      simp only [OrderQueue.Add, container_setQueue, container_setOrder]
    · intro q' hq'
      simp [OrderQueue.Add, OrderBook.setQueue, OrderBook.setOrder, hq']
    · simp only [OrderQueue.Add, OrderBook.setQueue, OrderBook.setOrder, if_true]
      exact hp _ hmem
    · simp only [OrderBook.levels, OrderQueue.Add, container_setQueue, container_setOrder]
    · simp [OrderBook.fifo, OrderQueue.Add, OrderBook.setQueue, OrderBook.setOrder,
        GoList.PushBack]
  | none =>
    have hnokey : ∀ e ∈ s.levels oc, e.1 ≠ (s.orderAt p).Price := by
      intro e he heq
      have := hi.2 e he
      rw [heq, hg] at this
      cases this
    obtain ⟨l1, l2, e1, e2⟩ := put_inorder (s.container oc).priceTree (s.orderAt p).Price
      s.nextQueue hnokey
    refine ⟨s.nextQueue, ?_, ?_, ?_, ?_, Or.inr ⟨rfl, hnokey, ⟨l1, l2, e1, ?_⟩, ?_⟩⟩
    · unfold OrderContainer.Add
      simp only [hprice, container_setOrder, hg]
      simp only [OrderQueue.Add, OrderBook.setQueue, orderAt_setContainer]
    · intro oc' hoc'
      unfold OrderContainer.Add
      simp only [hprice, container_setOrder, hg]
      simp only [OrderQueue.Add, container_setQueue]
      rw [container_setContainer_other _ _ _ _ hoc']
      cases oc' <;> rfl
    · intro q' hq'
      unfold OrderContainer.Add
      simp only [hprice, container_setOrder, hg]
      simp [OrderQueue.Add, OrderBook.setQueue, OrderBook.setOrder, hq']
    · unfold OrderContainer.Add
      simp only [hprice, container_setOrder, hg]
      simp [OrderQueue.Add, OrderBook.setQueue, OrderBook.setOrder, newOrderQueue]
    · unfold OrderContainer.Add
      simp only [hprice, container_setOrder, hg]
      simp only [OrderBook.levels, OrderQueue.Add, container_setQueue,
        container_setContainer_same]
      rw [← e2]
      cases oc <;> rfl
    · unfold OrderContainer.Add
      simp only [hprice, container_setOrder, hg]
      simp [OrderBook.fifo, OrderQueue.Add, OrderBook.setQueue, OrderBook.setOrder,
        newOrderQueue, GoList.PushBack, GoList.New]


theorem sideOK_of_WF (ob : OrderBook) (hwf : ob.WF) (oc : ContainerPtr) : ob.sideOK oc := by
  cases oc with
  | buy => exact hwf.1
  | sell => exact hwf.2.1

theorem setOrder_same_amount (s : OrderBook) (p : OrderPtr) :
    (s.setOrder p { s.orderAt p with Amount := (s.orderAt p).Amount }).orderAt = s.orderAt := by
  funext p'
  simp only [OrderBook.setOrder]
  split
  · rename_i h; rw [h]
  · rfl

theorem head_mem {α : Type} (l : List α) (e : α) (h : l.head? = some e) : e ∈ l := by
  cases l with
  | nil => cases h
  | cons x xs =>
    simp only [List.head?_cons, Option.some.injEq] at h
    rw [h]; exact List.mem_cons_self _ _

/-- C7 (resting insert): on a well-formed book, a valid limit order that meets no
marketable level (the opposite side is empty or its best level is not marketable)
gets a transaction whose commit returns no order; afterwards every order, the
taker included, is as before, the opposite side is as before, all queues but one
(`q`) are as before, and `q` is the level of the taker's price on its own side:
either it was there already, the side holds the same levels and `q` holds its
earlier orders in the same position followed by the taker; or no level had that
price, `q` is a new queue inserted among the unchanged levels and holds the taker
alone. -/
theorem C7_resting_insert (ob : OrderBook) (order : OrderPtr)
    (hwf : ob.WF) (hv : ob.validOrder order)
    (hk : (ob.orderAt order).Kind = .LimitOrderType)
    (hno : ∀ e, (ob.bestFirst (ob.orderAt order).Dir).head? = some e →
      marketable (ob.orderAt order).Dir (ob.orderAt order).Price e.1 = false) :
    ∃ tr tr' ob' q,
      (ob.SubmitOrder order).1 = .returned tr ∧
      tr.Commit (ob.SubmitOrder order).2 = some ([], tr', ob') ∧
      ob'.orderAt = ob.orderAt ∧
      ob'.container (opposite (ob.orderAt order).Dir)
        = ob.container (opposite (ob.orderAt order).Dir) ∧
      (∀ q', q' ≠ q → ob'.queueAt q' = ob.queueAt q') ∧
      (ob'.queueAt q).price = (ob.orderAt order).Price ∧
      ((((ob.orderAt order).Price, q) ∈ ob.levels (ownSide (ob.orderAt order).Dir) ∧
          ob'.levels (ownSide (ob.orderAt order).Dir)
            = ob.levels (ownSide (ob.orderAt order).Dir) ∧
          ob'.fifo q = ob.fifo q ++ [order]) ∨
        ((∀ e ∈ ob.levels .buy ++ ob.levels .sell, e.2 ≠ q) ∧
          (∀ e ∈ ob.levels (ownSide (ob.orderAt order).Dir), e.1 ≠ (ob.orderAt order).Price) ∧
          (∃ l1 l2, ob.levels (ownSide (ob.orderAt order).Dir) = l1 ++ l2 ∧
            ob'.levels (ownSide (ob.orderAt order).Dir)
              = l1 ++ ((ob.orderAt order).Price, q) :: l2) ∧
          ob'.fifo q = [order])) := by
  have hstop := matchLevels_stop ob (opposite (ob.orderAt order).Dir) order
    (stopOf (ob.orderAt order).Dir (ob.orderAt order).Price)
    (ob.bestFirst (ob.orderAt order).Dir) (ob.orderAt order).Amount
    (fun e he => by
      have hl := bestFirst_levelOK ob hwf _ e (head_mem _ _ he)
      rw [stopOf_eq]; unfold OrderQueue.Price; rw [hl.1, hno e he]; rfl)
  have hsub := submit_limit ob order hwf hv hk
  rw [hstop] at hsub
  simp only [gt_iff_lt, hv.2, if_true] at hsub
  have hside := sideOK_of_WF ob hwf (ownSide (ob.orderAt order).Dir)
  obtain ⟨q, ho, hc, hq, hpr, hcase⟩ := rest_spec ob (ownSide (ob.orderAt order).Dir) order
    (ob.orderAt order).Amount ⟨hside.1, hside.2.1⟩ hside.2.2.1
    (fun e he => (hside.2.2.2 e he).1)
  refine ⟨_, ⟨[], none⟩, _, q, hsub, ?_, ?_, ?_, hq, hpr, ?_⟩
  · rw [submit_book]
    simp only [Transaction.Commit, newTransaction, restFinalizer, runFinalizers]
  · rw [ho]; exact setOrder_same_amount ob order
  · exact hc _ (Ne.symm (own_ne_opposite _))
  · rcases hcase with h | h
    · exact Or.inl h
    · refine Or.inr ⟨?_, h.2.1, h.2.2.1, h.2.2.2⟩
      intro e he
      have := hwf.2.2.2 e he
      rw [h.1]
      exact ne_of_lt this

/-- C6 (residual rest): on a well-formed book whose level volumes equal the sums of
their orders' amounts, a valid limit taker whose amount `A` exceeds the total
amount `S` resting on the marketable opposite levels gets a transaction whose
commit returns exactly the orders of those levels, best level first and front to
back, without the taker; afterwards the opposite side holds exactly its
non-marketable levels, the taker's amount is `A - S` (nothing else of any order
changed), and the taker is the last order of the level `q` of its price on its own
side, behind the orders that level held before (none if the level is new). -/
theorem C6_residual_rest (ob : OrderBook) (order : OrderPtr)
    (hwf : ob.WF) (hvol : ob.volumeOK) (hv : ob.validOrder order)
    (hk : (ob.orderAt order).Kind = .LimitOrderType)
    (hgt : ob.amountOf ((ob.bestFirst (ob.orderAt order).Dir).filter
        (fun e => marketable (ob.orderAt order).Dir (ob.orderAt order).Price e.1))
      < (ob.orderAt order).Amount) :
    ∃ tr tr' ob' q front,
      (ob.SubmitOrder order).1 = .returned tr ∧
      tr.Commit (ob.SubmitOrder order).2
        = some (ob.ordersOf ((ob.bestFirst (ob.orderAt order).Dir).filter
            (fun e => marketable (ob.orderAt order).Dir (ob.orderAt order).Price e.1)),
          tr', ob') ∧
      ob'.bestFirst (ob.orderAt order).Dir = (ob.bestFirst (ob.orderAt order).Dir).filter
        (fun e => !marketable (ob.orderAt order).Dir (ob.orderAt order).Price e.1) ∧
      ob'.orderAt order = { ob.orderAt order with
        Amount := (ob.orderAt order).Amount -
          ob.amountOf ((ob.bestFirst (ob.orderAt order).Dir).filter
            (fun e => marketable (ob.orderAt order).Dir (ob.orderAt order).Price e.1)) } ∧
      (∀ p, p ≠ order → ob'.orderAt p = ob.orderAt p) ∧
      ((ob.orderAt order).Price, q) ∈ ob'.levels (ownSide (ob.orderAt order).Dir) ∧
      (ob'.queueAt q).price = (ob.orderAt order).Price ∧
      ob'.fifo q = front ++ [order] ∧
      ((front = ob.fifo q ∧
          ((ob.orderAt order).Price, q) ∈ ob.levels (ownSide (ob.orderAt order).Dir)) ∨
        (front = [] ∧
          ∀ e ∈ ob.levels (ownSide (ob.orderAt order).Dir), e.1 ≠ (ob.orderAt order).Price)) := by
  have hbest := bestFirst_split ob hwf (ob.orderAt order).Dir (ob.orderAt order).Price
  generalize hms : (ob.bestFirst (ob.orderAt order).Dir).filter
    (fun e => marketable (ob.orderAt order).Dir (ob.orderAt order).Price e.1) = ms
    at hbest hgt ⊢
  generalize hrs : (ob.bestFirst (ob.orderAt order).Dir).filter
    (fun e => !marketable (ob.orderAt order).Dir (ob.orderAt order).Price e.1) = rest
    at hbest ⊢
  have hin : ∀ e ∈ ms, e ∈ ob.bestFirst (ob.orderAt order).Dir := fun e he => by
    rw [hbest]; exact List.mem_append_left _ he
  have hlev : ∀ e ∈ ms, ob.levelOK e := fun e he => bestFirst_levelOK ob hwf _ e (hin e he)
  have hve : ∀ e ∈ ms, (ob.queueAt e.2).volume = ob.fifoAmount e.2 :=
    fun e he => opposite_volumeOK ob hvol _ e (hin e he)
  have hd : ∀ e ∈ ms, drained ob order
      (stopOf (ob.orderAt order).Dir (ob.orderAt order).Price) e := by
    intro e he
    have hmk : marketable (ob.orderAt order).Dir (ob.orderAt order).Price e.1 = true := by
      rw [← hms] at he
      exact (List.mem_filter.mp he).2
    refine ⟨stop_false_of_marketable ob _ _ e (hlev e he) hmk, hlev e he, hve e he, ?_⟩
    rw [hve e he]
    exact le_of_lt (lt_of_le_of_lt (fifoAmount_le_amountOf ob ms hlev e he) hgt)
  have hstop := matchLevels_stop ob (opposite (ob.orderAt order).Dir) order
    (stopOf (ob.orderAt order).Dir (ob.orderAt order).Price) rest
    ((ob.orderAt order).Amount - ob.amountOf ms)
    (fun e he => by
      have hmem : e ∈ rest := head_mem _ _ he
      have hl := bestFirst_levelOK ob hwf _ e (by rw [hbest]; exact List.mem_append_right _ hmem)
      rw [← hrs] at hmem
      have hnm := (List.mem_filter.mp hmem).2
      rw [stopOf_eq]; unfold OrderQueue.Price; rw [hl.1]; exact hnm)
  have hml := matchLevels_drain_more ob (opposite (ob.orderAt order).Dir) order
    (stopOf (ob.orderAt order).Dir (ob.orderAt order).Price) ms rest
    (ob.orderAt order).Amount hd hgt
  rw [hstop] at hml
  simp only [List.append_nil] at hml
  have hsub := submit_limit ob order hwf hv hk
  rw [hbest, hml] at hsub
  have hpos : (ob.orderAt order).Amount - ob.amountOf ms > 0 := by linarith
  simp only [hpos, if_true] at hsub
  obtain ⟨s1, h1, ho1, hq1, hn1, hc1, hl1⟩ :=
    removeBest_spec ob (ob.orderAt order).Dir ms rest hwf hbest
  have hside := sideOK_of_WF ob hwf (ownSide (ob.orderAt order).Dir)
  have hlevels1 : s1.levels (ownSide (ob.orderAt order).Dir)
      = ob.levels (ownSide (ob.orderAt order).Dir) := by
    simp only [OrderBook.levels, hc1]
  obtain ⟨q, ho, hc, hq, hpr, hcase⟩ := rest_spec s1 (ownSide (ob.orderAt order).Dir) order
    ((ob.orderAt order).Amount - ob.amountOf ms)
    ⟨by rw [hc1]; exact hside.1, by rw [hlevels1, hc1]; exact hside.2.1⟩
    (by rw [hlevels1, hc1]; exact hside.2.2.1)
    (by rw [hlevels1, hq1]; exact fun e he => (hside.2.2.2 e he).1)
  rw [ho1] at ho hc hq hpr hcase
  rw [hlevels1] at hcase
  have hfifo : ∀ q', s1.fifo q' = ob.fifo q' := fun q' => by
    simp only [OrderBook.fifo, hq1]
  have hcommit : (newTransaction (ob.ordersOf ms)
        (restFinalizer
          (runFinalizers (ms.map (fun e => removeLevel (opposite (ob.orderAt order).Dir) e.2)))
          order ((ob.orderAt order).Amount - ob.amountOf ms)
          (ownSide (ob.orderAt order).Dir))).Commit (ob.SubmitOrder order).2
      = some (ob.ordersOf ms, ⟨ob.ordersOf ms, none⟩,
          OrderContainer.Add (s1.setOrder order { ob.orderAt order with
            Amount := (ob.orderAt order).Amount - ob.amountOf ms })
            (ownSide (ob.orderAt order).Dir) order) := by
    rw [submit_book]
    simp only [Transaction.Commit, newTransaction, restFinalizer, h1, ho1]
  rcases hcase with h | h
  · refine ⟨_, _, _, q, ob.fifo q, hsub, hcommit, ?_, ?_, ?_, ?_, hpr, ?_, Or.inl ⟨rfl, h.1⟩⟩
    · rw [bestFirst_congr s1 _ _ (hc _ (Ne.symm (own_ne_opposite _)))]
      exact hl1
    · rw [ho]; simp [OrderBook.setOrder, ho1]
    · intro p hp
      rw [ho]; simp [OrderBook.setOrder, ho1, hp]
    · rw [h.2.1]; exact h.1
    · rw [h.2.2, hfifo]
  · obtain ⟨l1, l2, e1, e2⟩ := h.2.2.1
    refine ⟨_, _, _, q, [], hsub, hcommit, ?_, ?_, ?_, ?_, hpr, ?_, Or.inr ⟨rfl, h.2.1⟩⟩
    · rw [bestFirst_congr s1 _ _ (hc _ (Ne.symm (own_ne_opposite _)))]
      exact hl1
    · rw [ho]; simp [OrderBook.setOrder, ho1]
    · intro p hp
      rw [ho]; simp [OrderBook.setOrder, ho1, hp]
    · rw [e2]; simp
    · rw [h.2.2.2]; rfl


/-- Witness of C5: the test "first buy, full queue", a buy of 250 at 15 drains the
level at 10 (`k = 1`). -/
theorem C5_whole_level_drain_witness :
    (restingSells (limitBuy 4 15 250)).WF ∧ (restingSells (limitBuy 4 15 250)).volumeOK ∧
    ∃ tr tr' ob',
      ((restingSells (limitBuy 4 15 250)).SubmitOrder 4).1 = .returned tr ∧
      tr.Commit ((restingSells (limitBuy 4 15 250)).SubmitOrder 4).2
        = some ([1, 2, 4], tr', ob') ∧
      ob'.bestFirst .BuyOrderDirection = [(15, 1)] ∧
      ob'.container .buy = (restingSells (limitBuy 4 15 250)).container .buy ∧
      ob'.orderAt = (restingSells (limitBuy 4 15 250)).orderAt ∧
      ob'.queueAt = (restingSells (limitBuy 4 15 250)).queueAt :=
  ⟨by decide, by decide,
    C5_whole_level_drain (restingSells (limitBuy 4 15 250)) 4 1 (by decide) (by decide)
      (by decide) rfl (by decide) (by decide) (by decide) (by decide)⟩

/-- Witness of C6: a buy of 400 at 15 exceeds the 350 resting at 10 and 15 and rests
with 50 in a new level at 15 on the buy side. -/
theorem C6_residual_rest_witness :
    (restingSells (limitBuy 4 15 400)).WF ∧ (restingSells (limitBuy 4 15 400)).volumeOK ∧
    ∃ tr tr' ob' q front,
      ((restingSells (limitBuy 4 15 400)).SubmitOrder 4).1 = .returned tr ∧
      tr.Commit ((restingSells (limitBuy 4 15 400)).SubmitOrder 4).2
        = some ([1, 2, 3], tr', ob') ∧
      ob'.bestFirst .BuyOrderDirection = [] ∧
      ob'.orderAt 4 = limitBuy 4 15 50 ∧
      (∀ p, p ≠ 4 → ob'.orderAt p = (restingSells (limitBuy 4 15 400)).orderAt p) ∧
      (15, q) ∈ ob'.levels .buy ∧
      (ob'.queueAt q).price = 15 ∧
      ob'.fifo q = front ++ [4] ∧
      ((front = (restingSells (limitBuy 4 15 400)).fifo q ∧
          (15, q) ∈ (restingSells (limitBuy 4 15 400)).levels .buy) ∨
        (front = [] ∧ ∀ e ∈ (restingSells (limitBuy 4 15 400)).levels .buy, e.1 ≠ 15)) :=
  ⟨by decide, by decide,
    C6_residual_rest (restingSells (limitBuy 4 15 400)) 4 (by decide) (by decide)
      (by decide) rfl (by decide)⟩

/-- Witness of C7: a buy of 70 at 5 meets no marketable sell (the best is at 10) and
is filed in a new level on the buy side. -/
theorem C7_resting_insert_witness :
    (restingSells (limitBuy 4 5 70)).WF ∧
    ∃ tr tr' ob' q,
      ((restingSells (limitBuy 4 5 70)).SubmitOrder 4).1 = .returned tr ∧
      tr.Commit ((restingSells (limitBuy 4 5 70)).SubmitOrder 4).2 = some ([], tr', ob') ∧
      ob'.orderAt = (restingSells (limitBuy 4 5 70)).orderAt ∧
      ob'.container .sell = (restingSells (limitBuy 4 5 70)).container .sell ∧
      (∀ q', q' ≠ q → ob'.queueAt q' = (restingSells (limitBuy 4 5 70)).queueAt q') ∧
      (ob'.queueAt q).price = 5 ∧
      (((5, q) ∈ (restingSells (limitBuy 4 5 70)).levels .buy ∧
          ob'.levels .buy = (restingSells (limitBuy 4 5 70)).levels .buy ∧
          ob'.fifo q = (restingSells (limitBuy 4 5 70)).fifo q ++ [4]) ∨
        ((∀ e ∈ (restingSells (limitBuy 4 5 70)).levels .buy
              ++ (restingSells (limitBuy 4 5 70)).levels .sell, e.2 ≠ q) ∧
          (∀ e ∈ (restingSells (limitBuy 4 5 70)).levels .buy, e.1 ≠ 5) ∧
          (∃ l1 l2, (restingSells (limitBuy 4 5 70)).levels .buy = l1 ++ l2 ∧
            ob'.levels .buy = l1 ++ (5, q) :: l2) ∧
          ob'.fifo q = [4])) :=
  ⟨by decide,
    C7_resting_insert (restingSells (limitBuy 4 5 70)) 4 (by decide) (by decide) rfl
      (by decide)⟩

/-! ## Where the code departs from the specification -/

/-- C8 at a failing input: a sell of 100 at 10 rests, then a buy of 30 at 10 is
committed.  The head order is left with 70, but `update` subtracts the new amount
(70) from the volume instead of the amount taken (30): the level reads volume 30
with 70 resting, and the volume invariant is lost. -/
theorem C8_volume_lost_after_partial_fill :
    (submitAll NewOrderBook 1 [limitSell 1 10 100, limitBuy 2 10 30]).map
        (fun ob => (ob.view .sell, decide ob.volumeOK))
      = some ([(10, [(1, 70)], 30)], false) := by
  rfl

/-- C9 at a failing input: sells of 100 at 10 and 200 at 15 rest, then a buy of 250
at 15 is committed.  The level at 15 gives only 150 of its 200, yet the drain test
compares the taker's original amount 250 with the level volume 200 and removes the
level: the order with id 2 leaves the book with 50 unfilled and is not among the
returned orders (ids 1 and 3), and nothing rests afterwards. -/
theorem C9_unfilled_order_dropped :
    (submitAll NewOrderBook 1 [limitSell 1 10 100, limitSell 2 15 200]).map
        (fun ob => ob.view .sell)
      = some [(10, [(1, 100)], 100), (15, [(2, 200)], 200)] ∧
    ((submitAll NewOrderBook 1 [limitSell 1 10 100, limitSell 2 15 200]).bind
        (fun ob => (submitOrder ob 3 (limitBuy 3 15 250)).map
          (fun r => (r.1.map (fun p => (r.2.orderAt p).ID), r.2.view .sell, r.2.view .buy))))
      = some ([1, 3], [], []) :=
  ⟨rfl, rfl⟩

/-- C10 at a failing input: sells of 100 and 150 rest at 10, then a buy of 150 at 10
is committed.  The returned orders are the ids 1 and 3, so order 1 is filled whole
and order 2 is left with 100.  The staged closure removes the element the shared
variable `el` points to when it runs, that of order 2: after the commit the filled
order 1 is still in the queue with its 100 and the partly filled order 2 is gone;
the level volume reads 0. -/
theorem C10_filled_order_stays_partial_one_removed :
    ((submitAll NewOrderBook 1 [limitSell 1 10 100, limitSell 2 10 150]).bind
        (fun ob => (submitOrder ob 3 (limitBuy 3 10 150)).map
          (fun r => (r.1.map (fun p => (r.2.orderAt p).ID), r.2.view .sell,
            (r.2.orderAt 2).Amount))))
      = some ([1, 3], [(10, [(1, 100)], 0)], 100) := by
  rfl

/-! ## Commit and rollback of a transaction -/

/-- C11 (commit is idempotent): for a transaction returned by `SubmitOrder` whose
first `Commit` completes, the transaction is left without a staged closure, and
a second `Commit` returns the same orders, leaves the transaction as it is and
leaves the book exactly as the first `Commit` left it. -/
theorem C11_commit_idempotent (ob : OrderBook) (order : OrderPtr) (tr tr' : Transaction)
    (fills : List OrderPtr) (ob1 : OrderBook)
    (_hs : (ob.SubmitOrder order).1 = .returned tr)
    (hc : tr.Commit (ob.SubmitOrder order).2 = some (fills, tr', ob1)) :
    tr'.finalize = none ∧ tr'.Commit ob1 = some (fills, tr', ob1) := by
  unfold Transaction.Commit at hc
  cases hf : tr.finalize with
  | none =>
    rw [hf] at hc
    simp only [Option.some.injEq, Prod.mk.injEq] at hc
    obtain ⟨h1, h2, h3⟩ := hc
    subst h1; subst h2; subst h3
    exact ⟨hf, by simp [Transaction.Commit, hf]⟩
  | some fn =>
    rw [hf] at hc
    simp only at hc
    cases hfn : fn (ob.SubmitOrder order).2 with
    | none => rw [hfn] at hc; cases hc
    | some s =>
      rw [hfn] at hc
      simp only [Option.some.injEq, Prod.mk.injEq] at hc
      obtain ⟨h1, h2, h3⟩ := hc
      subst h1; subst h2; subst h3
      exact ⟨rfl, rfl⟩

/-- Witness of C11: the test "first buy, part of queue", committed twice. -/
theorem C11_commit_idempotent_witness :
    ((restingSells (limitBuy 4 15 50)).SubmitOrder 4).1
      = .returned (returnedBy ((restingSells (limitBuy 4 15 50)).SubmitOrder 4).1) ∧
    (returnedBy ((restingSells (limitBuy 4 15 50)).SubmitOrder 4).1).Commit
        ((restingSells (limitBuy 4 15 50)).SubmitOrder 4).2
      = some ([4],
          ⟨[4], none⟩,
          OrderQueue.update (restingSells (limitBuy 4 15 50)) 0 1 50) ∧
    (⟨[4], none⟩ : Transaction).finalize = none ∧
    (⟨[4], none⟩ : Transaction).Commit
        (OrderQueue.update (restingSells (limitBuy 4 15 50)) 0 1 50)
      = some ([4], ⟨[4], none⟩, OrderQueue.update (restingSells (limitBuy 4 15 50)) 0 1 50) :=
  ⟨rfl, rfl,
    C11_commit_idempotent (restingSells (limitBuy 4 15 50)) 4
      (returnedBy ((restingSells (limitBuy 4 15 50)).SubmitOrder 4).1) ⟨[4], none⟩ [4]
      (OrderQueue.update (restingSells (limitBuy 4 15 50)) 0 1 50) rfl rfl⟩

/-- C12 as stated fails at a concrete input: a buy of 70 at 5 is submitted to the
book of the tests.  `Commit` alone files the order on the buy side; `Rollback`
followed by `Commit` leaves the buy side empty. -/
theorem C12_rollback_then_commit_differs :
    ((restingSells (limitBuy 4 5 70)).SubmitOrder 4).1
      = .returned (returnedBy ((restingSells (limitBuy 4 5 70)).SubmitOrder 4).1) ∧
    ((returnedBy ((restingSells (limitBuy 4 5 70)).SubmitOrder 4).1).Commit
        ((restingSells (limitBuy 4 5 70)).SubmitOrder 4).2).map
          (fun r => r.2.2.view .buy)
      = some [(5, [(4, 70)], 70)] ∧
    (((returnedBy ((restingSells (limitBuy 4 5 70)).SubmitOrder 4).1).Rollback
          ((restingSells (limitBuy 4 5 70)).SubmitOrder 4).2).1.Commit
        ((returnedBy ((restingSells (limitBuy 4 5 70)).SubmitOrder 4).1).Rollback
          ((restingSells (limitBuy 4 5 70)).SubmitOrder 4).2).2).map
          (fun r => r.2.2.view .buy)
      = some [] :=
  ⟨rfl, rfl, rfl⟩

/-- C12 as amended: for every transaction and book, `Commit` followed by `Rollback`
leaves the book as `Commit` alone leaves it (and panics when `Commit` alone
does); `Rollback` followed by `Commit` returns no order and leaves the book as it
was before both calls. -/
theorem C12_commit_rollback_order (tr : Transaction) (ob : OrderBook) :
    (tr.Commit ob).map (fun r => (r.2.1.Rollback r.2.2).2) = (tr.Commit ob).map (fun r => r.2.2) ∧
    (tr.Rollback ob).1.Commit (tr.Rollback ob).2 = some ([], (tr.Rollback ob).1, ob) := by
  refine ⟨?_, rfl⟩
  cases tr.Commit ob <;> rfl

/-! ## Market orders -/

/-- How `SubmitOrder` ends for a valid market order on a well-formed book. -/
theorem submit_market (ob : OrderBook) (order : OrderPtr) (hwf : ob.WF)
    (hv : ob.validOrder order) (hk : (ob.orderAt order).Kind = .MarketOrderType) :
    (ob.SubmitOrder order).1 =
      if ob.declined order then .returned (newTransaction [] (fun s => some s))
      else if ob.remaining order > 0 then .panicked
      else .returned (newTransaction ((ob.walk order).1 ++ [order])
        (runFinalizers (ob.walk order).2.2)) := by
  have hob : (ob.container .buy).priceTree.ordered := hwf.1.1
  have hos : (ob.container .sell).priceTree.ordered := hwf.2.1.1
  have hp : ¬ (ob.orderAt order).Price ≤ 0 := not_le.mpr hv.1
  have ha : ¬ (ob.orderAt order).Amount ≤ 0 := not_le.mpr hv.2
  unfold OrderBook.SubmitOrder
  rw [if_neg hp, if_neg ha, if_pos hk]
  simp only
  unfold OrderBook.matchMarketOrder OrderBook.declined OrderBook.remaining OrderBook.walk
  by_cases hd : (ob.orderAt order).Dir = .BuyOrderDirection
  · rw [if_pos hd, matchMinPrice_eq ob .sell order _ hos]
    simp only [hd, opposite, stopOf, OrderBook.bestFirst]
  · rw [if_neg hd, matchMaxPrice_eq ob .buy order _ hob]
    simp only [dir_sell_of_ne hd, opposite, stopOf, OrderBook.bestFirst]

/-- How `SubmitOrder` ends for a valid limit order, in terms of the walk. -/
theorem submit_limit_walk (ob : OrderBook) (order : OrderPtr) (hwf : ob.WF)
    (hv : ob.validOrder order) (hk : (ob.orderAt order).Kind = .LimitOrderType) :
    (ob.SubmitOrder order).1 =
      if ob.remaining order > 0 then
        .returned (newTransaction (ob.walk order).1
          (restFinalizer (runFinalizers (ob.walk order).2.2) order (ob.remaining order)
            (ownSide (ob.orderAt order).Dir)))
      else
        .returned (newTransaction ((ob.walk order).1 ++ [order])
          (runFinalizers (ob.walk order).2.2)) :=
  submit_limit ob order hwf hv hk

/-- C18 (market-order assert): on a well-formed book, a valid market order that the
liquidity guard does not decline and whose walk over the opposite side, up to the
order's price, leaves a remaining quantity above zero makes `SubmitOrder` panic
(no transaction is returned); and whenever a transaction is returned for a market
order with a non-empty list of orders, the last of them is the taker. -/
theorem C18_market_assert (ob : OrderBook) (order : OrderPtr) (hwf : ob.WF)
    (hv : ob.validOrder order) (hk : (ob.orderAt order).Kind = .MarketOrderType) :
    (¬ ob.declined order → 0 < ob.remaining order → (ob.SubmitOrder order).1 = .panicked) ∧
    (∀ tr, (ob.SubmitOrder order).1 = .returned tr → tr.orders ≠ [] →
      tr.orders.getLast? = some order) := by
  have hsub := submit_market ob order hwf hv hk
  refine ⟨?_, ?_⟩
  · intro hnd hpos
    rw [hsub, if_neg hnd, if_pos hpos]
  · intro tr htr hne
    rw [hsub] at htr
    split at htr
    · cases htr; exact absurd rfl hne
    · split at htr
      · cases htr
      · cases htr
        simp [newTransaction]

/-- Witness of C18: a market buy of 400 at 15 against the 350 resting in the book
of the tests is not declined, is left with 50, and panics. -/
theorem C18_market_assert_witness :
    (restingSells (marketBuy 4 15 400)).WF ∧
    ¬ (restingSells (marketBuy 4 15 400)).declined 4 ∧
    0 < (restingSells (marketBuy 4 15 400)).remaining 4 ∧
    ((restingSells (marketBuy 4 15 400)).SubmitOrder 4).1 = .panicked :=
  ⟨by decide, by decide, by decide,
    (C18_market_assert (restingSells (marketBuy 4 15 400)) 4 (by decide) (by decide) rfl).1
      (by decide) (by decide)⟩

/-- C17 at a failing input: a sell of 100 at 10 rests (the side's `Volume()` reads
0), then a market buy of 150 at 10 is submitted.  Its amount exceeds the 100
resting, the guard `order.Amount < ob.sell.Volume()` does not decline it, the walk
leaves 50, and `SubmitOrder` panics instead of returning an empty transaction. -/
theorem C17_oversized_market_order_panics :
    (submitAll NewOrderBook 1 [limitSell 1 10 100]).map
        (fun ob => (ob.view .sell, OrderContainer.Volume ob .sell,
          decide ((ob.setOrder 2 (marketBuy 2 10 150)).declined 2),
          (ob.setOrder 2 (marketBuy 2 10 150)).remaining 2,
          ((ob.setOrder 2 (marketBuy 2 10 150)).SubmitOrder 2).1.panics))
      = some ([(10, [(1, 100)], 100)], 0, false, 50, true) := by
  rfl

/-- C19 at a failing input, and in general: `Add` never changes what `Volume()`
returns, because the sum `oc.volume.Add(order.Amount)` is dropped.  After one
order of amount 100 is added to a new side, its level holds 100 and `Volume()`
returns 0. -/
theorem C19_side_volume_not_updated :
    (∀ (ob : OrderBook) (oc : ContainerPtr) (order : OrderPtr),
      OrderContainer.Volume (OrderContainer.Add ob oc order) oc = OrderContainer.Volume ob oc) ∧
    OrderContainer.Volume
        (OrderContainer.Add (NewOrderBook.setOrder 1 (limitSell 1 10 100)) .sell 1) .sell = 0 ∧
    (OrderContainer.Add (NewOrderBook.setOrder 1 (limitSell 1 10 100)) .sell 1).view .sell
      = [(10, [(1, 100)], 100)] := by
  refine ⟨?_, rfl, rfl⟩
  intro ob oc order
  unfold OrderContainer.Add OrderContainer.Volume
  simp only
  cases (ob.container oc).priceHash.get (keyOf (ob.orderAt order).Price) with
  | some q => simp only [OrderQueue.Add, container_setQueue]
  | none =>
    simp only [OrderQueue.Add, container_setQueue, container_setContainer_same]
    cases oc <;> rfl

/-! ## The shapes of a returned transaction -/

theorem processLoop_left_nonneg (ob : OrderBook) (oq : QueuePtr) (els : List Element)
    (left : Decimal) (h : 0 ≤ left) : 0 ≤ (processLoop ob oq els left).2.1 := by
  induction els generalizing left with
  | nil => simpa [processLoop] using h
  | cons el rest ih =>
    simp only [processLoop]
    split
    · exact le_refl _
    · rename_i hlt
      exact ih _ (by linarith [not_lt.mp hlt])

theorem process_left_nonneg (ob : OrderBook) (oq : QueuePtr) (order : OrderPtr)
    (left : Decimal) (h : 0 ≤ left) : 0 ≤ (OrderQueue.Process ob oq order left).2.1 := by
  unfold OrderQueue.Process
  split
  · exact le_refl _
  · exact processLoop_left_nonneg ob oq _ left h

theorem matchLevels_left_nonneg (ob : OrderBook) (oc : ContainerPtr) (order : OrderPtr)
    (stop : Decimal → Bool) (qs : List QueuePtr) (left : Decimal) (h : 0 ≤ left) :
    0 ≤ (matchLevels ob oc order stop qs left).2.1 := by
  induction qs generalizing left with
  | nil => simpa [matchLevels] using h
  | cons q rest ih =>
    simp only [matchLevels]
    split
    · exact h
    · split
      · rename_i hz; rw [hz]
      · exact ih _ (process_left_nonneg ob q order left h)

theorem remaining_nonneg (ob : OrderBook) (order : OrderPtr) (hv : ob.validOrder order) :
    0 ≤ ob.remaining order :=
  matchLevels_left_nonneg _ _ _ _ _ _ (le_of_lt hv.2)

theorem walk_fills (ob : OrderBook) (order : OrderPtr) :
    (ob.walk order).1 <+: ob.ordersOf (ob.bestFirst (ob.orderAt order).Dir) := by
  rw [ordersOf_eq]
  exact matchLevels_fills _ _ _ _ _ _

/-- `Add` leaves some queue non-empty. -/
theorem add_nonempty (s : OrderBook) (oc : ContainerPtr) (p : OrderPtr) :
    ∃ q, ((OrderContainer.Add s oc p).queueAt q).orders.elems ≠ [] := by
  unfold OrderContainer.Add
  simp only
  cases (s.container oc).priceHash.get (keyOf (s.orderAt p).Price) with
  | some q =>
    exact ⟨q, by simp [OrderQueue.Add, OrderBook.setQueue, GoList.PushBack]⟩
  | none =>
    refine ⟨s.nextQueue, ?_⟩
    simp [OrderQueue.Add, OrderBook.setQueue, GoList.PushBack]

/-- The closure that rests a taker is not the closure that does nothing. -/
theorem restFinalizer_ne_noop (fin : finalizerFn) (order : OrderPtr) (left : Decimal)
    (own : ContainerPtr) : (fun s => some s) ≠ restFinalizer fin order left own := by
  intro h
  have h1 := congrFun h NewOrderBook
  unfold restFinalizer at h1
  cases hf : fin NewOrderBook with
  | none => rw [hf] at h1; cases h1
  | some s1 =>
    rw [hf] at h1
    simp only [Option.some.injEq] at h1
    obtain ⟨q, hq⟩ := add_nonempty
      (s1.setOrder order { s1.orderAt order with Amount := left }) own order
    rw [← h1] at hq
    exact hq rfl

theorem getLast?_append_singleton {α : Type} (l : List α) (a : α) :
    (l ++ [a]).getLast? = some a := by
  simp

theorem getLast?_mem {α : Type} (l : List α) (a : α) (h : l.getLast? = some a) : a ∈ l := by
  exact List.mem_of_getLast?_eq_some h

/-! ## The two indexes of a side stay consistent -/

theorem put_mem (t : Tree) (k : Decimal) (v : QueuePtr) (h : ∀ e ∈ t.inorder, e.1 ≠ k)
    (e : Decimal × QueuePtr) : e ∈ (t.Put k v).inorder ↔ e = (k, v) ∨ e ∈ t.inorder := by
  obtain ⟨l1, l2, e1, e2⟩ := put_inorder t k v h
  rw [e1, e2]
  simp only [List.mem_append, List.mem_cons]
  tauto

theorem put_ordered (t : Tree) (k : Decimal) (v : QueuePtr) (ho : t.ordered)
    (h : ∀ e ∈ t.inorder, e.1 ≠ k) : (t.Put k v).ordered := by
  induction t with
  | nil => simp [Tree.Put, Tree.ordered, Tree.inorder]
  | node l k' v' r ihl ihr =>
    have hk' : k' ≠ k := h (k', v') (by simp [Tree.inorder])
    have hl' : ∀ e ∈ l.inorder, e.1 ≠ k := fun e he => h e (by simp [Tree.inorder, he])
    have hr' : ∀ e ∈ r.inorder, e.1 ≠ k := fun e he => h e (by simp [Tree.inorder, he])
    unfold Tree.ordered at ho ihl ihr ⊢
    simp only [Tree.inorder, List.map_append, List.map_cons, List.pairwise_append,
      List.pairwise_cons] at ho
    obtain ⟨hl, ⟨hkr, hr⟩, hlr⟩ := ho
    simp only [Tree.Put]
    by_cases h1 : k < k'
    · simp only [h1, if_true, Tree.inorder, List.map_append, List.map_cons,
        List.pairwise_append, List.pairwise_cons]
      refine ⟨ihl hl hl', ⟨hkr, hr⟩, ?_⟩
      intro a ha b hb
      obtain ⟨e, he, rfl⟩ := List.mem_map.mp ha
      rcases (put_mem l k v hl' e).mp he with rfl | hel
      · rcases List.mem_cons.mp hb with rfl | hb'
        · exact h1
        · exact lt_trans h1 (hkr b hb')
      · exact hlr e.1 (List.mem_map.mpr ⟨e, hel, rfl⟩) b hb
    · have h2 : k' < k := lt_of_le_of_ne (not_lt.mp h1) hk'
      simp only [h1, h2, if_true, if_false, Tree.inorder, List.map_append, List.map_cons,
        List.pairwise_append, List.pairwise_cons]
      refine ⟨hl, ⟨?_, ihr hr hr'⟩, ?_⟩
      · intro b hb
        obtain ⟨e, he, rfl⟩ := List.mem_map.mp hb
        rcases (put_mem r k v hr' e).mp he with rfl | her
        · exact h2
        · exact hkr e.1 (List.mem_map.mpr ⟨e, her, rfl⟩)
      · intro a ha b hb
        rcases List.mem_cons.mp hb with rfl | hb'
        · exact hlr a ha b (List.mem_cons_self _ _)
        · obtain ⟨e, he, rfl⟩ := List.mem_map.mp hb'
          rcases (put_mem r k v hr' e).mp he with rfl | her
          · exact lt_trans (hlr a ha k' (List.mem_cons_self _ _)) h2
          · exact hlr a ha e.1 (List.mem_cons_of_mem _ (List.mem_map.mpr ⟨e, her, rfl⟩))

theorem mem_delete (m : GoMap) (k : priceKey) (e : priceKey × QueuePtr) :
    e ∈ GoMap.delete m k ↔ e ∈ m ∧ e.1 ≠ k := by
  unfold GoMap.delete
  simp [List.mem_filter]

/-- What `Add` does to the containers when the level exists. -/
theorem add_existing (s : OrderBook) (oc : ContainerPtr) (p : OrderPtr) (q : QueuePtr)
    (hg : (s.container oc).priceHash.get (keyOf (s.orderAt p).Price) = some q) :
    OrderContainer.Add s oc p = OrderQueue.Add s q p := by
  unfold OrderContainer.Add
  simp only [hg]

/-- What `Add` does when no level has the price: a new queue is allocated and filed
in the map and the tree. -/
theorem add_new (s : OrderBook) (oc : ContainerPtr) (p : OrderPtr)
    (hg : (s.container oc).priceHash.get (keyOf (s.orderAt p).Price) = none) :
    (OrderContainer.Add s oc p).orderAt = s.orderAt ∧
    (OrderContainer.Add s oc p).nextQueue = s.nextQueue + 1 ∧
    (∀ oc', oc' ≠ oc → (OrderContainer.Add s oc p).container oc' = s.container oc') ∧
    (OrderContainer.Add s oc p).container oc =
      { priceTree := (s.container oc).priceTree.Put (s.orderAt p).Price s.nextQueue
        priceHash := (s.container oc).priceHash.set (keyOf (s.orderAt p).Price) s.nextQueue
        volume := (s.container oc).volume } ∧
    (OrderContainer.Add s oc p).queueAt s.nextQueue =
      ⟨⟨[⟨0, p⟩], 1⟩, (s.orderAt p).Price, 0 + (s.orderAt p).Amount⟩ ∧
    (∀ q', q' ≠ s.nextQueue → (OrderContainer.Add s oc p).queueAt q' = s.queueAt q') := by
  unfold OrderContainer.Add
  simp only [hg]
  refine ⟨?_, ?_, ?_, ?_, ?_, ?_⟩
  · simp only [OrderQueue.Add, OrderBook.setQueue, orderAt_setContainer]
  · simp only [OrderQueue.Add, OrderBook.setQueue, nextQueue_setContainer]
  · intro oc' hoc'
    simp only [OrderQueue.Add, container_setQueue]
    rw [container_setContainer_other _ _ _ _ hoc']
    cases oc' <;> rfl
  · simp only [OrderQueue.Add, container_setQueue, container_setContainer_same]
    cases oc <;> rfl
  · simp [OrderQueue.Add, OrderBook.setQueue, newOrderQueue, GoList.PushBack, GoList.New]
  · intro q' hq'
    simp [OrderQueue.Add, OrderBook.setQueue, hq']

theorem container_queueAdd (s : OrderBook) (q : QueuePtr) (p : OrderPtr) (oc : ContainerPtr) :
    (OrderQueue.Add s q p).container oc = s.container oc := by
  simp only [OrderQueue.Add, container_setQueue]

theorem consistent_congr (s s' : OrderBook) (oc : ContainerPtr)
    (h : s'.container oc = s.container oc) (hc : s.consistent oc) : s'.consistent oc := by
  unfold OrderBook.consistent OrderBook.levels at hc ⊢
  rw [h]; exact hc

theorem consistent_add (s : OrderBook) (oc : ContainerPtr) (p : OrderPtr)
    (hc : s.consistent oc) : (OrderContainer.Add s oc p).consistent oc := by
  cases hg : (s.container oc).priceHash.get (keyOf (s.orderAt p).Price) with
  | some q =>
    rw [add_existing s oc p q hg]
    exact consistent_congr s _ oc (container_queueAdd s q p oc) hc
  | none =>
    obtain ⟨_, _, _, hcont, _, _⟩ := add_new s oc p hg
    have hnokey : ∀ e ∈ (s.container oc).priceTree.inorder, e.1 ≠ (s.orderAt p).Price := by
      intro e he heq
      have := hc.2.1 e he
      rw [heq, hg] at this
      cases this
    unfold OrderBook.consistent OrderBook.levels
    rw [hcont]
    refine ⟨put_ordered _ _ _ hc.1 hnokey, ?_, ?_⟩
    · intro e he
      rw [get_set]
      rcases (put_mem _ _ _ hnokey e).mp he with rfl | hold
      · simp [keyOf]
      · have hne : e.1 ≠ (s.orderAt p).Price := hnokey e hold
        simp only [keyOf, hne, if_false]
        exact hc.2.1 e hold
    · intro e he
      simp only [GoMap.set] at he
      rcases List.mem_cons.mp he with rfl | hold
      · exact (put_mem _ _ _ hnokey _).mpr (Or.inl rfl)
      · exact (put_mem _ _ _ hnokey _).mpr (Or.inr (hc.2.2 e ((mem_delete _ _ _).mp hold).1))

/-- What `Remove` does to the containers. -/
theorem remove_spec (s : OrderBook) (oc : ContainerPtr) (price : Decimal) :
    (OrderContainer.Remove s oc price).orderAt = s.orderAt ∧
    (OrderContainer.Remove s oc price).queueAt = s.queueAt ∧
    (OrderContainer.Remove s oc price).nextQueue = s.nextQueue ∧
    (∀ oc', oc' ≠ oc → (OrderContainer.Remove s oc price).container oc' = s.container oc') ∧
    ((OrderContainer.Remove s oc price).container oc = s.container oc ∨
      ((OrderContainer.Remove s oc price).container oc).priceTree
          = (s.container oc).priceTree.Remove price ∧
        ((OrderContainer.Remove s oc price).container oc).priceHash
          = GoMap.delete (s.container oc).priceHash (keyOf price)) := by
  unfold OrderContainer.Remove
  simp only
  cases (s.container oc).priceHash.get (keyOf price) with
  | none => exact ⟨rfl, rfl, rfl, fun _ _ => rfl, Or.inl rfl⟩
  | some q =>
    refine ⟨by simp, by simp, by simp,
      fun oc' h => container_setContainer_other _ _ _ _ h, Or.inr ?_⟩
    simp

theorem consistent_remove (s : OrderBook) (oc : ContainerPtr) (price : Decimal)
    (hc : s.consistent oc) : (OrderContainer.Remove s oc price).consistent oc := by
  obtain ⟨_, _, _, _, h | ⟨ht, hh⟩⟩ := remove_spec s oc price
  · exact consistent_congr s _ oc h hc
  · unfold OrderBook.consistent OrderBook.levels
    rw [ht, hh]
    have hlev := remove_inorder (s.container oc).priceTree price hc.1
    refine ⟨remove_ordered _ _ hc.1, ?_, ?_⟩
    · intro e he
      rw [hlev] at he
      have hm := List.mem_filter.mp he
      have hne : e.1 ≠ price := by simpa using hm.2
      rw [get_delete]
      simp only [keyOf, hne, if_false]
      exact hc.2.1 e hm.1
    · intro e he
      have hm := (mem_delete _ _ _).mp he
      rw [hlev]
      exact List.mem_filter.mpr ⟨hc.2.2 e hm.1, by simpa [keyOf] using hm.2⟩

theorem consistent_applyCalls (oc : ContainerPtr) (calls : List ContainerCall) (s : OrderBook)
    (hc : s.consistent oc) : (applyCalls oc s calls).consistent oc := by
  induction calls generalizing s with
  | nil => exact hc
  | cons c rest ih =>
    cases c with
    | Add order => exact ih _ (consistent_add s oc order hc)
    | Remove price => exact ih _ (consistent_remove s oc price hc)

theorem consistent_iff (s : OrderBook) (oc : ContainerPtr) (hc : s.consistent oc)
    (price : Decimal) (q : QueuePtr) :
    (s.container oc).priceHash.get (keyOf price) = some q ↔ (price, q) ∈ s.levels oc := by
  constructor
  · intro h; exact hc.2.2 _ (mem_of_get _ _ _ h)
  · intro h; exact hc.2.1 _ h

/-- C16 (index consistency): for a side that starts as a new container and
undergoes any sequence of `Add(order)` and `Remove(price)` calls, the keys of the
tree are strictly ascending (no two levels for equal prices), and the map returns
a level for a price's key exactly when the tree holds that price with that same
level. -/
theorem C16_index_consistency (ob : OrderBook) (oc : ContainerPtr)
    (calls : List ContainerCall) (hnew : ob.container oc = newOrderContainer) :
    (((applyCalls oc ob calls).levels oc).map Prod.fst).Pairwise (fun a b => a < b) ∧
    ∀ price q, ((applyCalls oc ob calls).container oc).priceHash.get (keyOf price) = some q ↔
      (price, q) ∈ (applyCalls oc ob calls).levels oc := by
  have h0 : ob.consistent oc := by
    unfold OrderBook.consistent OrderBook.levels
    rw [hnew]
    simp [newOrderContainer, Tree.ordered, Tree.inorder]
  have h := consistent_applyCalls oc calls ob h0
  exact ⟨h.1, consistent_iff _ oc h⟩

/-- Witness of C16: on the sell side of a new book holding orders at the addresses
1, 2, 3 with prices 10, 15, 10, the calls `Add`, `Add`, `Remove(10)`, `Add` leave
the levels 10 and 15, in the tree and in the map alike. -/
theorem C16_index_consistency_witness :
    ((NewOrderBook.setOrder 1 (limitSell 1 10 100)).setOrder 2 (limitSell 2 15 100)).container
        .sell = newOrderContainer ∧
    (((applyCalls .sell
          ((NewOrderBook.setOrder 1 (limitSell 1 10 100)).setOrder 2 (limitSell 2 15 100))
          [.Add 1, .Add 2, .Remove 10, .Add 1]).levels .sell).map Prod.fst).Pairwise
        (fun a b => a < b) ∧
    ∀ price q,
      ((applyCalls .sell
          ((NewOrderBook.setOrder 1 (limitSell 1 10 100)).setOrder 2 (limitSell 2 15 100))
          [.Add 1, .Add 2, .Remove 10, .Add 1]).container .sell).priceHash.get (keyOf price)
        = some q ↔
      (price, q) ∈ (applyCalls .sell
          ((NewOrderBook.setOrder 1 (limitSell 1 10 100)).setOrder 2 (limitSell 2 15 100))
          [.Add 1, .Add 2, .Remove 10, .Add 1]).levels .sell :=
  ⟨rfl,
    C16_index_consistency
      ((NewOrderBook.setOrder 1 (limitSell 1 10 100)).setOrder 2 (limitSell 2 15 100)) .sell
      [.Add 1, .Add 2, .Remove 10, .Add 1] rfl⟩

/-! ## What a commit of the staged walk does -/

theorem remove_some (s : OrderBook) (oq : QueuePtr) (e : Element) :
    OrderQueue.Remove s oq (some e) = some (removeElem s oq e) := rfl

/-- The closures staged by the loop of `Process`: if the loop ran to the end
(`el == nil`) every order was consumed and the closures panic; if it stopped at
an element, the closures remove that element once per consumed order and shrink
its order. -/
theorem processLoop_shape (ob : OrderBook) (oq : QueuePtr) (els : List Element)
    (left : Decimal) :
    ((processLoop ob oq els left).2.2.2 = none →
      (els ≠ [] → ∀ s, runFinalizers
        ((processLoop ob oq els left).2.2.1.map (fun fn => fn none)) s = none)) ∧
    (∀ e, (processLoop ob oq els left).2.2.2 = some e →
      (processLoop ob oq els left).2.1 = 0 ∧
      ∃ pre post amt, els = pre ++ e :: post ∧
        (processLoop ob oq els left).1 = pre.map (fun x => x.Value) ∧ 0 < amt ∧
        ∀ s, runFinalizers
          ((processLoop ob oq els left).2.2.1.map (fun fn => fn (some e))) s
            = some (partialEffect s oq e pre.length amt)) := by
  induction els generalizing left with
  | nil =>
    constructor
    · intro _ h; exact absurd rfl h
    · intro e h; simp [processLoop] at h
  | cons el rest ih =>
    by_cases hlt : left < (ob.orderAt el.Value).Amount
    · simp only [processLoop, if_pos hlt]
      refine ⟨fun h => (by cases h), fun e h => ?_⟩
      simp only [Option.some.injEq] at h
      subst h
      refine ⟨trivial, [], rest, (ob.orderAt el.Value).Amount - left, rfl, rfl, by linarith, ?_⟩
      intro s
      simp [runFinalizers, partialEffect, removeTimes]
    · simp only [processLoop, if_neg hlt]
      have h := ih (left - (ob.orderAt el.Value).Amount)
      refine ⟨fun hn _ s => ?_, fun e he => ?_⟩
      · simp [runFinalizers, OrderQueue.Remove]
      · obtain ⟨hz, pre, post, amt, h1, h2, h3, h4⟩ := h.2 e he
        refine ⟨hz, el :: pre, post, amt, by rw [h1]; rfl, by rw [h2]; rfl, h3, ?_⟩
        intro s
        simp only [List.map_cons, runFinalizers, remove_some, List.length_cons]
        rw [h4]
        rfl

/-- The closure staged by `Process` for a level: it does nothing (empty queue), or
it panics (every order consumed), or the loop stopped at an element with nothing
left over and the closure has the partial effect. -/
theorem process_shape (ob : OrderBook) (oq : QueuePtr) (order : OrderPtr) (left : Decimal) :
    ((OrderQueue.Process ob oq order left).2.1 = 0 ∧
        (OrderQueue.Process ob oq order left).1 = [] ∧
        ∀ s, (OrderQueue.Process ob oq order left).2.2 s = some s) ∨
    (∀ s, (OrderQueue.Process ob oq order left).2.2 s = none) ∨
    ((OrderQueue.Process ob oq order left).2.1 = 0 ∧
      ∃ e pre post amt, (ob.queueAt oq).orders.elems = pre ++ e :: post ∧
        (OrderQueue.Process ob oq order left).1 = pre.map (fun x => x.Value) ∧ 0 < amt ∧
        ∀ s, (OrderQueue.Process ob oq order left).2.2 s
          = some (partialEffect s oq e pre.length amt)) := by
  unfold OrderQueue.Process
  by_cases hlen : (ob.queueAt oq).orders.Len = 0
  · rw [if_pos hlen]
    exact Or.inl ⟨rfl, rfl, fun _ => rfl⟩
  · rw [if_neg hlen]
    have hne : (ob.queueAt oq).orders.elems ≠ [] := by
      intro h; exact hlen (by simp [GoList.Len, h])
    have h := processLoop_shape ob oq (ob.queueAt oq).orders.elems left
    cases hf : (processLoop ob oq (ob.queueAt oq).orders.elems left).2.2.2 with
    | none =>
      refine Or.inr (Or.inl ?_)
      intro s
      simp only [hf]
      exact h.1 hf hne s
    | some e =>
      obtain ⟨hz, pre, post, amt, h1, h2, h3, h4⟩ := h.2 e hf
      refine Or.inr (Or.inr ⟨hz, e, pre, post, amt, h1, h2, h3, ?_⟩)
      intro s
      simp only [hf]
      exact h4 s

theorem removeLevel_frame (oc : ContainerPtr) (q : QueuePtr) (s : OrderBook) :
    ∃ s1, removeLevel oc q s = some s1 ∧ s1.orderAt = s.orderAt ∧ s1.queueAt = s.queueAt ∧
      s1.nextQueue = s.nextQueue := by
  obtain ⟨h1, h2, h3, _⟩ := remove_spec s oc (OrderQueue.Price s q)
  exact ⟨_, rfl, h1, h2, h3⟩

theorem removeLevels_frame (oc : ContainerPtr) (rem : List QueuePtr) (s s1 : OrderBook)
    (h : runFinalizers (rem.map (removeLevel oc)) s = some s1) :
    s1.orderAt = s.orderAt ∧ s1.queueAt = s.queueAt ∧ s1.nextQueue = s.nextQueue := by
  induction rem generalizing s with
  | nil =>
    simp only [List.map_nil, runFinalizers, Option.some.injEq] at h
    subst h; exact ⟨rfl, rfl, rfl⟩
  | cons q rest ih =>
    obtain ⟨sa, ha, hoa, hqa, hna⟩ := removeLevel_frame oc q s
    simp only [List.map_cons] at h
    rw [runFinalizers_cons_some _ _ s sa ha] at h
    obtain ⟨h1, h2, h3⟩ := ih sa h
    exact ⟨h1.trans hoa, h2.trans hqa, h3.trans hna⟩

/-- A commit of the closures staged by the walk that completes: some levels `rem`
were removed whole; and then either that is all, or the walk ended in a level `q`
whose closure had the partial effect at an element `e`, the taker being used up. -/
theorem walk_commit (ob : OrderBook) (oc : ContainerPtr) (order : OrderPtr)
    (stop : Decimal → Bool) (qs : List QueuePtr) (left : Decimal) (s s' : OrderBook)
    (h : runFinalizers (matchLevels ob oc order stop qs left).2.2 s = some s') :
    ∃ rem s1, runFinalizers (rem.map (removeLevel oc)) s = some s1 ∧
      ((s' = s1 ∧ rem <+: qs) ∨
        ∃ q e pre post amt after, qs = rem ++ q :: after ∧
          (ob.queueAt q).orders.elems = pre ++ e :: post ∧ 0 < amt ∧
          (matchLevels ob oc order stop qs left).2.1 = 0 ∧
          (matchLevels ob oc order stop qs left).1
            = rem.flatMap (fun q => ob.fifo q) ++ pre.map (fun x => x.Value) ∧
          s' = partialEffect s1 q e pre.length amt) := by
  induction qs generalizing left s with
  | nil =>
    simp only [matchLevels, runFinalizers, Option.some.injEq] at h
    exact ⟨[], s, rfl, Or.inl ⟨h.symm, List.prefix_refl _⟩⟩
  | cons q rest ih =>
    simp only [matchLevels] at h ⊢
    by_cases hs : stop (OrderQueue.Price ob q) = true
    · simp only [hs, if_true, runFinalizers, Option.some.injEq] at h
      exact ⟨[], s, rfl, Or.inl ⟨h.symm, List.nil_prefix⟩⟩
    · simp only [hs, Bool.false_eq_true, if_false] at h ⊢
      have hshape := process_shape ob q order left
      by_cases hz : (OrderQueue.Process ob q order left).2.1 = 0
      · simp only [hz, if_true] at h ⊢
        unfold levelFinalizer at h
        by_cases hdr : (ob.orderAt order).Amount ≥ OrderQueue.Volume ob q
        · rw [if_pos hdr] at h
          simp only [runFinalizers] at h
          obtain ⟨sa, ha, _⟩ := removeLevel_frame oc q s
          rw [ha] at h
          simp only [Option.some.injEq] at h
          refine ⟨[q], sa, by simp [runFinalizers, ha], Or.inl ⟨h.symm, ?_⟩⟩
          exact ⟨rest, rfl⟩
        · rw [if_neg hdr] at h
          simp only [runFinalizers] at h
          rcases hshape with ⟨_, _, hno⟩ | hpan | ⟨_, e, pre, post, amt, h1, h2, h3, h4⟩
          · rw [hno] at h
            simp only [Option.some.injEq] at h
            exact ⟨[], s, rfl, Or.inl ⟨h.symm, List.nil_prefix⟩⟩
          · rw [hpan] at h; cases h
          · rw [h4] at h
            simp only [Option.some.injEq] at h
            refine ⟨[], s, rfl, Or.inr ⟨q, e, pre, post, amt, rest, rfl, h1, h3, trivial, ?_, h.symm⟩⟩
            simp [h2]
      · simp only [hz, if_false] at h ⊢
        have hfull := (process_fills ob q order left).2 hz
        unfold levelFinalizer at h
        by_cases hdr : (ob.orderAt order).Amount ≥ OrderQueue.Volume ob q
        · rw [if_pos hdr] at h
          obtain ⟨sa, ha, _⟩ := removeLevel_frame oc q s
          rw [runFinalizers_cons_some _ _ s sa ha] at h
          obtain ⟨rem, s1, hr, hcase⟩ := ih _ sa h
          refine ⟨q :: rem, s1, ?_, ?_⟩
          · simp only [List.map_cons]
            rw [runFinalizers_cons_some _ _ s sa ha]
            exact hr
          · rcases hcase with ⟨he, hp⟩ | ⟨q', e, pre, post, amt, after, h1, h2, h3, h4, h5, h6⟩
            · exact Or.inl ⟨he, (List.prefix_cons_inj q).mpr hp⟩
            · refine Or.inr ⟨q', e, pre, post, amt, after, by rw [h1]; rfl, h2, h3, h4, ?_, h6⟩
              rw [h5, hfull]
              simp [List.flatMap_cons]
        · rw [if_neg hdr] at h
          rcases hshape with ⟨h0, _, _⟩ | hpan | ⟨h0, _⟩
          · exact absurd h0 hz
          · simp only [runFinalizers, hpan] at h
            cases h
          · exact absurd h0 hz

/-! ## The amounts a commit changes -/

theorem removeTimes_orderAt (q : QueuePtr) (e : Element) (k : Nat) (s : OrderBook) :
    (removeTimes q e k s).orderAt = s.orderAt := by
  induction k generalizing s with
  | zero => rfl
  | succ k ih =>
    simp only [removeTimes]
    rw [ih]
    rfl

theorem partialEffect_orderAt (s : OrderBook) (q : QueuePtr) (e : Element) (k : Nat)
    (amt : Decimal) :
    (partialEffect s q e k amt).orderAt =
      fun p => if p = e.Value then { s.orderAt p with Amount := amt } else s.orderAt p := by
  unfold partialEffect OrderQueue.update
  simp only [OrderBook.setQueue, OrderBook.setOrder, removeTimes_orderAt]
  funext p
  split
  · rename_i h; rw [h]
  · rfl

theorem add_orderAt (s : OrderBook) (oc : ContainerPtr) (p : OrderPtr) :
    (OrderContainer.Add s oc p).orderAt = s.orderAt := by
  cases hg : (s.container oc).priceHash.get (keyOf (s.orderAt p).Price) with
  | some q => rw [add_existing s oc p q hg]; rfl
  | none => exact (add_new s oc p hg).1

/-- What a completed commit of the walk's closures does to the orders: nothing, or
the taker is used up and one resting order of the opposite side, not among the
walk's consumed orders and not the taker, gets a new amount. -/
theorem walk_commit_orders (ob : OrderBook) (order : OrderPtr) (s' : OrderBook)
    (hnd : (order :: ob.ordersOf (ob.bestFirst (ob.orderAt order).Dir)).Nodup)
    (h : runFinalizers (ob.walk order).2.2 ob = some s') :
    s'.orderAt = ob.orderAt ∨
    (ob.remaining order = 0 ∧ ∃ c amt,
      c ∈ ob.ordersOf (ob.bestFirst (ob.orderAt order).Dir) ∧ c ∉ (ob.walk order).1 ∧
      c ≠ order ∧
      s'.orderAt = fun p => if p = c then { ob.orderAt p with Amount := amt } else ob.orderAt p) := by
  obtain ⟨rem, s1, hr, hcase⟩ := walk_commit ob _ order _ _ _ ob s' h
  obtain ⟨ho1, _, _⟩ := removeLevels_frame _ rem ob s1 hr
  rcases hcase with ⟨he, _⟩ | ⟨q, e, pre, post, amt, after, h1, h2, _, h4, h5, h6⟩
  · left; rw [he, ho1]
  · right
    rw [List.nodup_cons, ordersOf_eq, h1] at hnd
    have hfifo : ob.fifo q = pre.map (fun x => x.Value) ++ e.Value :: post.map (fun x => x.Value) := by
      simp [OrderBook.fifo, h2]
    simp only [List.flatMap_append, List.flatMap_cons, hfifo] at hnd
    obtain ⟨hfresh, hnodup⟩ := hnd
    refine ⟨h4, e.Value, amt, ?_, ?_, ?_, ?_⟩
    · rw [ordersOf_eq, h1]
      simp only [List.flatMap_append, List.flatMap_cons, hfifo]
      simp
    · show e.Value ∉ (matchLevels _ _ _ _ _ _).1
      rw [h5]
      rw [List.nodup_append] at hnodup
      obtain ⟨_, hn2, hdisj⟩ := hnodup
      rw [List.append_assoc, List.nodup_append] at hn2
      obtain ⟨_, _, hd2⟩ := hn2
      intro hmem
      rcases List.mem_append.mp hmem with hm | hm
      · exact hdisj hm (by simp)
      · exact hd2 hm (by simp)
    · intro heq
      apply hfresh
      rw [← heq]
      simp
    · rw [h6, partialEffect_orderAt, ho1]


theorem update_amount_eq (o : Order) (a : Decimal) :
    { ({ o with Amount := a } : Order) with Amount := o.Amount } = o := rfl

/-- C20 (amounts of returned orders): on a well-formed book whose resting orders on
the opposite side are distinct and do not include the taker, for a valid order
whose transaction is returned and committed, every returned order has after the
commit the record it had before the submission; a commit changes nothing but
amounts, and it changes the amount of at most one order, which is not among the
returned ones: a resting order of the opposite side (the taker then being used
up) or the taker of a limit order that rests with a positive remainder. -/
theorem C20_amounts_of_returned_orders (ob : OrderBook) (order : OrderPtr)
    (tr tr' : Transaction) (fills : List OrderPtr) (ob' : OrderBook)
    (hwf : ob.WF) (hv : ob.validOrder order)
    (hnd : (order :: ob.ordersOf (ob.bestFirst (ob.orderAt order).Dir)).Nodup)
    (hs : (ob.SubmitOrder order).1 = .returned tr)
    (hc : tr.Commit (ob.SubmitOrder order).2 = some (fills, tr', ob')) :
    (∀ p ∈ fills, ob'.orderAt p = ob.orderAt p) ∧
    (∀ p, { ob'.orderAt p with Amount := (ob.orderAt p).Amount } = ob.orderAt p) ∧
    ∃ changed : Option OrderPtr,
      (∀ p, ob'.orderAt p ≠ ob.orderAt p → changed = some p) ∧
      (∀ c, changed = some c → c ∉ fills ∧
        ((c ∈ ob.ordersOf (ob.bestFirst (ob.orderAt order).Dir) ∧ ob.remaining order = 0) ∨
          (c = order ∧ 0 < ob.remaining order ∧
            (ob.orderAt order).Kind = .LimitOrderType))) := by
  rw [submit_book] at hc
  have hfreshw : order ∉ (ob.walk order).1 := fun hm =>
    (List.nodup_cons.mp hnd).1 ((walk_fills ob order).subset hm)
  -- a transaction whose closure is the walk's
  have hwalk : ∀ fl, tr = newTransaction fl (runFinalizers (ob.walk order).2.2) →
      fl = (ob.walk order).1 ++ [order] →
      (∀ p ∈ fills, ob'.orderAt p = ob.orderAt p) ∧
      (∀ p, { ob'.orderAt p with Amount := (ob.orderAt p).Amount } = ob.orderAt p) ∧
      ∃ changed : Option OrderPtr,
        (∀ p, ob'.orderAt p ≠ ob.orderAt p → changed = some p) ∧
        (∀ c, changed = some c → c ∉ fills ∧
          ((c ∈ ob.ordersOf (ob.bestFirst (ob.orderAt order).Dir) ∧ ob.remaining order = 0) ∨
            (c = order ∧ 0 < ob.remaining order ∧
              (ob.orderAt order).Kind = .LimitOrderType))) := by
    intro fl htr hfl
    subst htr
    simp only [Transaction.Commit, newTransaction] at hc
    cases hrun : runFinalizers (ob.walk order).2.2 ob with
    | none => rw [hrun] at hc; cases hc
    | some s' =>
      rw [hrun] at hc
      simp only [Option.some.injEq, Prod.mk.injEq] at hc
      obtain ⟨hf, _, hob⟩ := hc
      subst hob
      rcases walk_commit_orders ob order s' hnd hrun with hsame | ⟨hz, c, amt, hc1, hc2, hc3, hc4⟩
      · rw [hsame]
        exact ⟨fun _ _ => rfl, fun _ => rfl, none, fun p hp => absurd rfl hp,
          fun c hc => by cases hc⟩
      · have hcf : c ∉ fills := by
          rw [← hf, hfl]
          intro hm
          rcases List.mem_append.mp hm with hm | hm
          · exact hc2 hm
          · exact hc3 (by simpa using hm)
        rw [hc4]
        refine ⟨fun p hp => ?_, fun p => ?_, some c, fun p hp => ?_, fun c' hc' => ?_⟩
        · have : p ≠ c := fun h => hcf (h ▸ hp)
          simp [this]
        · by_cases hpc : p = c
          · simp [hpc]
          · simp [hpc]
        · by_cases hpc : p = c
          · rw [hpc]
          · exact absurd (by simp [hpc]) hp
        · simp only [Option.some.injEq] at hc'
          subst hc'
          exact ⟨hcf, Or.inl ⟨hc1, hz⟩⟩
  have hkind : (ob.orderAt order).Kind = .MarketOrderType ∨
      (ob.orderAt order).Kind = .LimitOrderType := by
    cases (ob.orderAt order).Kind
    · exact Or.inl rfl
    · exact Or.inr rfl
  rcases hkind with hk | hk
  · rw [submit_market ob order hwf hv hk] at hs
    split at hs
    · cases hs
      simp only [Transaction.Commit, newTransaction, Option.some.injEq, Prod.mk.injEq] at hc
      obtain ⟨_, _, hob⟩ := hc
      subst hob
      exact ⟨fun _ _ => rfl, fun _ => rfl, none, fun p hp => absurd rfl hp,
        fun c hc => by cases hc⟩
    · split at hs
      · cases hs
      · cases hs
        exact hwalk _ rfl rfl
  · rw [submit_limit_walk ob order hwf hv hk] at hs
    split at hs
    · rename_i hpos
      cases hs
      simp only [Transaction.Commit, newTransaction, restFinalizer] at hc
      cases hrun : runFinalizers (ob.walk order).2.2 ob with
      | none => rw [hrun] at hc; cases hc
      | some s1 =>
        rw [hrun] at hc
        simp only [Option.some.injEq, Prod.mk.injEq] at hc
        obtain ⟨hf, _, hob⟩ := hc
        subst hob
        have ho1 : s1.orderAt = ob.orderAt := by
          rcases walk_commit_orders ob order s1 hnd hrun with hsame | ⟨hz, _⟩
          · exact hsame
          · rw [hz] at hpos; exact absurd hpos (lt_irrefl _)
        rw [add_orderAt]
        simp only [OrderBook.setOrder, ho1]
        have hof : order ∉ fills := by rw [← hf]; exact hfreshw
        refine ⟨fun p hp => ?_, fun p => ?_, some order, fun p hp => ?_, fun c' hc' => ?_⟩
        · have : p ≠ order := fun h => hof (h ▸ hp)
          simp [this]
        · by_cases hpc : p = order
          · simp [hpc]
          · simp [hpc]
        · by_cases hpc : p = order
          · rw [hpc]
          · exact absurd (by simp [hpc]) hp
        · simp only [Option.some.injEq] at hc'
          subst hc'
          exact ⟨hof, Or.inr ⟨rfl, hpos, hk⟩⟩
    · cases hs
      exact hwalk _ rfl rfl

/-- Witness of C20: the test "first buy, part of queue"; the returned taker keeps
its 50, and the head order of the level at 10 is the one order whose amount
changes. -/
theorem C20_amounts_of_returned_orders_witness :
    (restingSells (limitBuy 4 15 50)).WF ∧
    (∀ p ∈ [4], (OrderQueue.update (restingSells (limitBuy 4 15 50)) 0 1 50).orderAt p
      = (restingSells (limitBuy 4 15 50)).orderAt p) ∧
    (∀ p, { (OrderQueue.update (restingSells (limitBuy 4 15 50)) 0 1 50).orderAt p with
        Amount := ((restingSells (limitBuy 4 15 50)).orderAt p).Amount }
      = (restingSells (limitBuy 4 15 50)).orderAt p) ∧
    ∃ changed : Option OrderPtr,
      (∀ p, (OrderQueue.update (restingSells (limitBuy 4 15 50)) 0 1 50).orderAt p
          ≠ (restingSells (limitBuy 4 15 50)).orderAt p → changed = some p) ∧
      (∀ c, changed = some c → c ∉ [4] ∧
        ((c ∈ (restingSells (limitBuy 4 15 50)).ordersOf
              ((restingSells (limitBuy 4 15 50)).bestFirst .BuyOrderDirection) ∧
            (restingSells (limitBuy 4 15 50)).remaining 4 = 0) ∨
          (c = 4 ∧ 0 < (restingSells (limitBuy 4 15 50)).remaining 4 ∧
            ((restingSells (limitBuy 4 15 50)).orderAt 4).Kind = .LimitOrderType))) :=
  ⟨by decide,
    C20_amounts_of_returned_orders (restingSells (limitBuy 4 15 50)) 4
      (returnedBy ((restingSells (limitBuy 4 15 50)).SubmitOrder 4).1) ⟨[4], none⟩ [4]
      (OrderQueue.update (restingSells (limitBuy 4 15 50)) 0 1 50)
      (by decide) (by decide) (by decide) rfl rfl⟩

/-! ## Well-formedness is kept by every step of a commit -/

theorem mem_allLevels (s : OrderBook) (e : Decimal × QueuePtr) :
    e ∈ s.allLevels ↔ ∃ oc, e ∈ s.levels oc := by
  unfold OrderBook.allLevels
  rw [List.mem_append]
  constructor
  · rintro (h | h)
    · exact ⟨.buy, h⟩
    · exact ⟨.sell, h⟩
  · rintro ⟨oc, h⟩
    cases oc
    · exact Or.inl h
    · exact Or.inr h

theorem WF_iff (s : OrderBook) :
    s.WF ↔ (∀ oc, s.consistent oc) ∧ (∀ e ∈ s.allLevels, s.levelOK e) ∧
      (s.allLevels.map Prod.snd).Nodup ∧ ∀ e ∈ s.allLevels, e.2 < s.nextQueue := by
  constructor
  · intro h
    refine ⟨fun oc => ?_, fun e he => ?_, h.2.2.1, h.2.2.2⟩
    · have := sideOK_of_WF s h oc
      exact ⟨this.1, this.2.1, this.2.2.1⟩
    · obtain ⟨oc, hoc⟩ := (mem_allLevels s e).mp he
      exact (sideOK_of_WF s h oc).2.2.2 e hoc
  · rintro ⟨hc, hl, hn, hf⟩
    refine ⟨⟨(hc .buy).1, (hc .buy).2.1, (hc .buy).2.2, fun e he => ?_⟩,
      ⟨(hc .sell).1, (hc .sell).2.1, (hc .sell).2.2, fun e he => ?_⟩, hn, hf⟩
    · exact hl e ((mem_allLevels s e).mpr ⟨.buy, he⟩)
    · exact hl e ((mem_allLevels s e).mpr ⟨.sell, he⟩)

theorem levels_congr (s s' : OrderBook) (oc : ContainerPtr)
    (h : s'.container oc = s.container oc) : s'.levels oc = s.levels oc := by
  unfold OrderBook.levels; rw [h]

theorem allLevels_congr (s s' : OrderBook) (h : ∀ oc, s'.container oc = s.container oc) :
    s'.allLevels = s.allLevels := by
  unfold OrderBook.allLevels
  rw [levels_congr s s' .buy (h .buy), levels_congr s s' .sell (h .sell)]

/-- A level stays well formed when its queue keeps its price, stays non-empty, gets
no new element, and its previous orders keep their price and a positive amount. -/
theorem levelOK_transfer (s s' : OrderBook) (e : Decimal × QueuePtr) (h : s.levelOK e)
    (hp : (s'.queueAt e.2).price = (s.queueAt e.2).price)
    (hne : (s'.queueAt e.2).orders.elems ≠ [])
    (hsub : ∀ el ∈ (s'.queueAt e.2).orders.elems, el ∈ (s.queueAt e.2).orders.elems)
    (ho : ∀ el ∈ (s.queueAt e.2).orders.elems,
      (s'.orderAt el.Value).Price = (s.orderAt el.Value).Price ∧
      0 < (s'.orderAt el.Value).Amount) : s'.levelOK e := by
  refine ⟨hp.trans h.1, hne, fun el hel => ?_⟩
  have hold := hsub el hel
  exact ⟨(ho el hold).1.trans (h.2.2 el hold).1, (ho el hold).2⟩

/-- Well-formedness when the containers are untouched and every level stays well
formed. -/
theorem WF_of_same_containers (s s' : OrderBook) (h : s.WF)
    (hc : ∀ oc, s'.container oc = s.container oc) (hn : s'.nextQueue = s.nextQueue)
    (hl : ∀ e ∈ s.allLevels, s'.levelOK e) : s'.WF := by
  rw [WF_iff] at h ⊢
  rw [allLevels_congr s s' hc, hn]
  exact ⟨fun oc => consistent_congr s s' oc (hc oc) (h.1 oc), hl, h.2.2.1, h.2.2.2⟩

theorem mem_resting (s : OrderBook) (p : OrderPtr) :
    p ∈ s.resting ↔ ∃ e ∈ s.allLevels, ∃ el ∈ (s.queueAt e.2).orders.elems, el.Value = p := by
  unfold OrderBook.resting OrderBook.ordersOf OrderBook.fifo
  simp only [List.mem_flatMap, List.mem_map]

theorem allLevels_sublist (s s' : OrderBook)
    (h : ∀ oc, (s'.levels oc).Sublist (s.levels oc)) : s'.allLevels.Sublist s.allLevels :=
  (h .buy).append (h .sell)

/-- `Remove` on a side keeps the book well formed and adds no level. -/
theorem remove_WF (s : OrderBook) (oc : ContainerPtr) (price : Decimal) (h : s.WF) :
    (OrderContainer.Remove s oc price).WF ∧
    (OrderContainer.Remove s oc price).allLevels.Sublist s.allLevels := by
  obtain ⟨ho, hq, hn, hother, hown⟩ := remove_spec s oc price
  have hsub : ∀ oc', ((OrderContainer.Remove s oc price).levels oc').Sublist (s.levels oc') := by
    intro oc'
    by_cases hoc : oc' = oc
    · subst hoc
      rcases hown with h1 | ⟨h1, _⟩
      · rw [levels_congr _ _ _ h1]
      · unfold OrderBook.levels
        rw [h1, remove_inorder _ _ (((WF_iff s).mp h).1 oc').1]
        exact List.filter_sublist _
    · rw [levels_congr _ _ _ (hother oc' hoc)]
  have hall := allLevels_sublist s _ hsub
  refine ⟨?_, hall⟩
  rw [WF_iff] at h ⊢
  refine ⟨fun oc' => ?_, fun e he => ?_, h.2.2.1.sublist (hall.map _), fun e he => ?_⟩
  · by_cases hoc : oc' = oc
    · subst hoc; exact consistent_remove s oc' price (h.1 oc')
    · exact consistent_congr s _ oc' (hother oc' hoc) (h.1 oc')
  · have := h.2.1 e (hall.subset he)
    unfold OrderBook.levelOK at this ⊢
    rw [ho, hq]; exact this
  · rw [hn]; exact h.2.2.2 e (hall.subset he)

theorem remove_resting (s : OrderBook) (oc : ContainerPtr) (price : Decimal) (h : s.WF)
    (p : OrderPtr) (hp : p ∈ (OrderContainer.Remove s oc price).resting) : p ∈ s.resting := by
  obtain ⟨_, hq, _, _, _⟩ := remove_spec s oc price
  obtain ⟨e, he, el, hel, hv⟩ := (mem_resting _ p).mp hp
  rw [hq] at hel
  exact (mem_resting s p).mpr ⟨e, (remove_WF s oc price h).2.subset he, el, hel, hv⟩

theorem removeLevels_WF (oc : ContainerPtr) (rem : List QueuePtr) (s s1 : OrderBook)
    (hwf : s.WF) (h : runFinalizers (rem.map (removeLevel oc)) s = some s1) :
    s1.WF ∧ ∀ p ∈ s1.resting, p ∈ s.resting := by
  induction rem generalizing s with
  | nil =>
    simp only [List.map_nil, runFinalizers, Option.some.injEq] at h
    subst h; exact ⟨hwf, fun _ hp => hp⟩
  | cons q rest ih =>
    simp only [List.map_cons] at h
    rw [runFinalizers_cons_some _ _ s (OrderContainer.Remove s oc (OrderQueue.Price s q)) rfl] at h
    obtain ⟨h1, h2⟩ := ih _ (remove_WF s oc _ hwf).1 h
    exact ⟨h1, fun p hp => remove_resting s oc _ hwf p (h2 p hp)⟩

theorem removeTimes_spec (q : QueuePtr) (e : Element) (k : Nat) (s : OrderBook) :
    (∀ oc, (removeTimes q e k s).container oc = s.container oc) ∧
    (removeTimes q e k s).nextQueue = s.nextQueue ∧
    (∀ q', q' ≠ q → (removeTimes q e k s).queueAt q' = s.queueAt q') ∧
    ((removeTimes q e k s).queueAt q).price = (s.queueAt q).price ∧
    ((removeTimes q e k s).queueAt q).orders.elems.Sublist (s.queueAt q).orders.elems ∧
    (s.queueAt q).orders.elems.length ≤ ((removeTimes q e k s).queueAt q).orders.elems.length + k := by
  induction k generalizing s with
  | zero => exact ⟨fun _ => rfl, rfl, fun _ _ => rfl, rfl, List.Sublist.refl _, le_refl _⟩
  | succ k ih =>
    obtain ⟨h1, h2, h3, h4, h5, h6⟩ := ih (removeElem s q e)
    simp only [removeTimes]
    have hq : ((removeElem s q e).queueAt q).orders.elems = (s.queueAt q).orders.elems.erase e := by
      simp [removeElem, OrderBook.setQueue, GoList.Remove]
    have hpr : ((removeElem s q e).queueAt q).price = (s.queueAt q).price := by
      simp [removeElem, OrderBook.setQueue]
    refine ⟨fun oc => (h1 oc).trans (container_setQueue _ _ _ _), h2, fun q' hq' => ?_,
      h4.trans hpr, ?_, ?_⟩
    · rw [h3 q' hq']
      simp [removeElem, OrderBook.setQueue, hq']
    · rw [hq] at h5
      exact h5.trans (List.erase_sublist _ _)
    · rw [hq] at h6
      have := List.length_erase_le e (s.queueAt q).orders.elems
      have h7 : (s.queueAt q).orders.elems.length ≤
          ((s.queueAt q).orders.elems.erase e).length + 1 := by
        rw [List.length_erase]
        split <;> omega
      omega

theorem partialEffect_spec (s : OrderBook) (q : QueuePtr) (e : Element) (k : Nat)
    (amt : Decimal) :
    (∀ oc, (partialEffect s q e k amt).container oc = s.container oc) ∧
    (partialEffect s q e k amt).nextQueue = s.nextQueue ∧
    (∀ q', q' ≠ q → (partialEffect s q e k amt).queueAt q' = s.queueAt q') ∧
    ((partialEffect s q e k amt).queueAt q).price = (s.queueAt q).price ∧
    ((partialEffect s q e k amt).queueAt q).orders.elems.Sublist (s.queueAt q).orders.elems ∧
    (s.queueAt q).orders.elems.length
      ≤ ((partialEffect s q e k amt).queueAt q).orders.elems.length + k := by
  obtain ⟨h1, h2, h3, h4, h5, h6⟩ := removeTimes_spec q e k s
  unfold partialEffect OrderQueue.update
  refine ⟨fun oc => ?_, ?_, fun q' hq' => ?_, ?_, ?_, ?_⟩
  · rw [container_setQueue, container_setOrder]; exact h1 oc
  · exact h2
  · simp only [OrderBook.setQueue, OrderBook.setOrder, hq', if_false]
    exact h3 q' hq'
  · simpa [OrderBook.setQueue, OrderBook.setOrder] using h4
  · simpa [OrderBook.setQueue, OrderBook.setOrder] using h5
  · simpa [OrderBook.setQueue, OrderBook.setOrder] using h6

/-- The partial effect keeps the book well formed when the queue holds, besides the
`k` orders consumed whole, the element `e` whose order gets the positive amount. -/
theorem partialEffect_WF (s : OrderBook) (q : QueuePtr) (e : Element) (pre post : List Element)
    (amt : Decimal) (hwf : s.WF) (hels : (s.queueAt q).orders.elems = pre ++ e :: post)
    (hamt : 0 < amt) :
    (partialEffect s q e pre.length amt).WF ∧
    ∀ p ∈ (partialEffect s q e pre.length amt).resting, p ∈ s.resting := by
  obtain ⟨h1, h2, h3, h4, h5, h6⟩ := partialEffect_spec s q e pre.length amt
  have hlev := ((WF_iff s).mp hwf).2.1
  have hsubq : ∀ q', ∀ el ∈ ((partialEffect s q e pre.length amt).queueAt q').orders.elems,
      el ∈ (s.queueAt q').orders.elems := by
    intro q' el hel
    by_cases hq : q' = q
    · subst hq; exact h5.subset hel
    · rw [h3 q' hq] at hel; exact hel
  refine ⟨WF_of_same_containers s _ hwf h1 h2 (fun e' he' => ?_), fun p hp => ?_⟩
  · refine levelOK_transfer s _ e' (hlev e' he') ?_ ?_ (hsubq e'.2) ?_
    · by_cases hq : e'.2 = q
      · rw [hq]; exact h4
      · rw [h3 _ hq]
    · by_cases hq : e'.2 = q
      · rw [hq]
        intro h0
        rw [h0, hels] at h6
        simp at h6
      · rw [h3 _ hq]; exact (hlev e' he').2.1
    · intro el hel
      rw [partialEffect_orderAt]
      by_cases hv : el.Value = e.Value
      · simp only [hv, if_true]
        exact ⟨trivial, hamt⟩
      · simp only [hv, if_false]
        exact ⟨trivial, ((hlev e' he').2.2 el hel).2⟩
  · obtain ⟨e', he', el, hel, hv⟩ := (mem_resting _ p).mp hp
    rw [allLevels_congr s _ h1] at he'
    exact (mem_resting s p).mpr ⟨e', he', el, hsubq e'.2 el hel, hv⟩

/-- Writing an order keeps the book well formed when every resting order keeps its
price and a positive amount. -/
theorem setOrder_WF (s : OrderBook) (p : OrderPtr) (o : Order) (hwf : s.WF)
    (h : p ∈ s.resting → o.Price = (s.orderAt p).Price ∧ 0 < o.Amount) :
    (s.setOrder p o).WF ∧ (s.setOrder p o).resting = s.resting := by
  have hlev := ((WF_iff s).mp hwf).2.1
  have hc : ∀ oc, (s.setOrder p o).container oc = s.container oc :=
    fun oc => container_setOrder s p o oc
  refine ⟨WF_of_same_containers s _ hwf hc rfl (fun e he => ?_), ?_⟩
  · refine levelOK_transfer s _ e (hlev e he) rfl (hlev e he).2.1 (fun _ h => h) ?_
    intro el hel
    by_cases hv : el.Value = p
    · have hr : p ∈ s.resting := (mem_resting s p).mpr ⟨e, he, el, hel, hv⟩
      simp only [OrderBook.setOrder, hv, if_true]
      exact h hr
    · simp only [OrderBook.setOrder, hv, if_false]
      exact ⟨trivial, ((hlev e he).2.2 el hel).2⟩
  · unfold OrderBook.resting OrderBook.ordersOf OrderBook.fifo
    rw [allLevels_congr s _ hc]
    rfl

theorem allLevels_perm_insert (s s' : OrderBook) (oc : ContainerPtr)
    (x : Decimal × QueuePtr) (l1 l2 : List (Decimal × QueuePtr))
    (h : s.levels oc = l1 ++ l2) (h' : s'.levels oc = l1 ++ x :: l2)
    (hother : ∀ oc', oc' ≠ oc → s'.levels oc' = s.levels oc') :
    s'.allLevels.Perm (x :: s.allLevels) := by
  unfold OrderBook.allLevels
  cases oc with
  | buy =>
    rw [h, h', hother .sell (by decide)]
    have : (l1 ++ x :: l2).Perm (x :: (l1 ++ l2)) := List.perm_middle
    exact (this.append_right _)
  | sell =>
    rw [h, h', hother .buy (by decide)]
    have : (l1 ++ x :: l2).Perm (x :: (l1 ++ l2)) := List.perm_middle
    exact ((this.append_left _).trans List.perm_middle)

/-- `Add` keeps the book well formed when the order has a positive amount. -/
theorem add_WF (s : OrderBook) (oc : ContainerPtr) (p : OrderPtr) (hwf : s.WF)
    (hpos : 0 < (s.orderAt p).Amount) :
    (OrderContainer.Add s oc p).WF ∧
    ∀ x ∈ (OrderContainer.Add s oc p).resting, x = p ∨ x ∈ s.resting := by
  have hW := (WF_iff s).mp hwf
  have hlev := hW.2.1
  cases hg : (s.container oc).priceHash.get (keyOf (s.orderAt p).Price) with
  | some q =>
    rw [add_existing s oc p q hg]
    have hmem : ((s.orderAt p).Price, q) ∈ s.allLevels :=
      (mem_allLevels s _).mpr ⟨oc, (hW.1 oc).2.2 _ (mem_of_get _ _ _ hg)⟩
    have hq : ((OrderQueue.Add s q p).queueAt q).orders.elems
        = (s.queueAt q).orders.elems ++ [⟨(s.queueAt q).orders.fresh, p⟩] := by
      simp [OrderQueue.Add, OrderBook.setQueue, GoList.PushBack]
    have hqp : ((OrderQueue.Add s q p).queueAt q).price = (s.queueAt q).price := by
      simp [OrderQueue.Add, OrderBook.setQueue]
    have hq' : ∀ q', q' ≠ q → (OrderQueue.Add s q p).queueAt q' = s.queueAt q' := by
      intro q' h; simp [OrderQueue.Add, OrderBook.setQueue, h]
    have hc : ∀ oc', (OrderQueue.Add s q p).container oc' = s.container oc' :=
      fun oc' => container_queueAdd s q p oc'
    refine ⟨?_, fun x hx => ?_⟩
    · rw [WF_iff]
      rw [allLevels_congr s _ hc]
      refine ⟨fun oc' => consistent_congr s _ oc' (hc oc') (hW.1 oc'), fun e he => ?_,
        hW.2.2.1, hW.2.2.2⟩
      have hold := hlev e he
      by_cases heq : e.2 = q
      · have hkey : e.1 = (s.orderAt p).Price := by
          rw [← hold.1, heq, (hlev _ hmem).1]
        refine ⟨?_, ?_, fun el hel => ?_⟩
        · rw [heq, hqp, ← heq]; exact hold.1
        · rw [heq, hq]; simp
        · rw [heq, hq] at hel
          rcases List.mem_append.mp hel with h | h
          · rw [← heq] at h; exact hold.2.2 el h
          · simp only [List.mem_singleton] at h
            subst h
            exact ⟨hkey.symm, hpos⟩
      · unfold OrderBook.levelOK at hold ⊢
        rw [hq' _ heq]
        exact hold
    · obtain ⟨e, he, el, hel, hv⟩ := (mem_resting _ x).mp hx
      rw [allLevels_congr s _ hc] at he
      by_cases heq : e.2 = q
      · rw [heq, hq] at hel
        rcases List.mem_append.mp hel with h | h
        · exact Or.inr ((mem_resting s x).mpr ⟨e, he, el, by rw [heq]; exact h, hv⟩)
        · simp only [List.mem_singleton] at h
          subst h
          exact Or.inl hv.symm
      · rw [hq' _ heq] at hel
        exact Or.inr ((mem_resting s x).mpr ⟨e, he, el, hel, hv⟩)
  | none =>
    obtain ⟨ho, hn, hother, hcont, hqn, hq'⟩ := add_new s oc p hg
    have hnokey : ∀ e ∈ (s.container oc).priceTree.inorder, e.1 ≠ (s.orderAt p).Price := by
      intro e he heq
      have := (hW.1 oc).2.1 e he
      rw [heq, hg] at this
      cases this
    obtain ⟨l1, l2, e1, e2⟩ := put_inorder (s.container oc).priceTree (s.orderAt p).Price
      s.nextQueue hnokey
    have hperm := allLevels_perm_insert s (OrderContainer.Add s oc p) oc
      ((s.orderAt p).Price, s.nextQueue) l1 l2 e1
      (by unfold OrderBook.levels; rw [hcont]; exact e2)
      (fun oc' h => levels_congr _ _ _ (hother oc' h))
    have hfreshq : ∀ e ∈ s.allLevels, e.2 ≠ s.nextQueue :=
      fun e he => ne_of_lt (hW.2.2.2 e he)
    have hmem : ∀ e, e ∈ (OrderContainer.Add s oc p).allLevels ↔
        e = ((s.orderAt p).Price, s.nextQueue) ∨ e ∈ s.allLevels := by
      intro e; rw [hperm.mem_iff, List.mem_cons]
    refine ⟨?_, fun x hx => ?_⟩
    · rw [WF_iff]
      refine ⟨fun oc' => ?_, fun e he => ?_, ?_, fun e he => ?_⟩
      · by_cases hoc : oc' = oc
        · subst hoc; exact consistent_add s oc' p (hW.1 oc')
        · exact consistent_congr s _ oc' (hother oc' hoc) (hW.1 oc')
      · rcases (hmem e).mp he with rfl | hold
        · refine ⟨?_, ?_, fun el hel => ?_⟩
          · simp only [hqn]
          · simp only [hqn]; simp
          · simp only [hqn, List.mem_singleton] at hel
            subst hel
            rw [ho]
            exact ⟨rfl, hpos⟩
        · have := hlev e hold
          unfold OrderBook.levelOK at this ⊢
          rw [hq' _ (hfreshq e hold), ho]
          exact this
      · rw [(hperm.map Prod.snd).nodup_iff]
        simp only [List.map_cons, List.nodup_cons]
        refine ⟨fun hin => ?_, hW.2.2.1⟩
        obtain ⟨e, he, heq⟩ := List.mem_map.mp hin
        exact hfreshq e he heq
      · rw [hn]
        rcases (hmem e).mp he with rfl | hold
        · exact Nat.lt_succ_self _
        · exact Nat.lt_succ_of_lt (hW.2.2.2 e hold)
    · obtain ⟨e, he, el, hel, hv⟩ := (mem_resting _ x).mp hx
      rcases (hmem e).mp he with rfl | hold
      · simp only [hqn, List.mem_singleton] at hel
        subst hel
        exact Or.inl hv.symm
      · rw [hq' _ (hfreshq e hold)] at hel
        exact Or.inr ((mem_resting s x).mpr ⟨e, hold, el, hel, hv⟩)

/-! ## Every book reached by committed submissions is well formed -/

theorem valid_of_returned (ob : OrderBook) (order : OrderPtr) (tr : Transaction)
    (h : (ob.SubmitOrder order).1 = .returned tr) : ob.validOrder order := by
  unfold OrderBook.SubmitOrder at h
  by_cases hp : (ob.orderAt order).Price ≤ 0
  · rw [if_pos hp] at h; cases h
  · rw [if_neg hp] at h
    by_cases ha : (ob.orderAt order).Amount ≤ 0
    · rw [if_pos ha] at h; cases h
    · exact ⟨not_le.mp hp, not_le.mp ha⟩

/-- A completed commit of the walk's closures keeps the book well formed and rests
no new order. -/
theorem walk_commit_WF (ob : OrderBook) (order : OrderPtr) (s' : OrderBook) (hwf : ob.WF)
    (h : runFinalizers (ob.walk order).2.2 ob = some s') :
    s'.WF ∧ ∀ p ∈ s'.resting, p ∈ ob.resting := by
  obtain ⟨rem, s1, hr, hcase⟩ := walk_commit ob _ order _ _ _ ob s' h
  obtain ⟨_, hq1, _⟩ := removeLevels_frame _ rem ob s1 hr
  obtain ⟨hwf1, hres1⟩ := removeLevels_WF _ rem ob s1 hwf hr
  rcases hcase with ⟨he, _⟩ | ⟨q, e, pre, post, amt, after, _, h2, h3, _, _, h6⟩
  · rw [he]; exact ⟨hwf1, hres1⟩
  · rw [h6]
    obtain ⟨hw, hr'⟩ := partialEffect_WF s1 q e pre post amt hwf1 (by rw [hq1]; exact h2) h3
    exact ⟨hw, fun p hp => hres1 p (hr' p hp)⟩

/-- A submission followed by its commit keeps the book well formed; the only order
that may come to rest is the taker. -/
theorem commit_WF (ob : OrderBook) (order : OrderPtr) (tr tr' : Transaction)
    (fills : List OrderPtr) (ob' : OrderBook) (hwf : ob.WF)
    (hs : (ob.SubmitOrder order).1 = .returned tr)
    (hc : tr.Commit (ob.SubmitOrder order).2 = some (fills, tr', ob')) :
    ob'.WF ∧ ∀ x ∈ ob'.resting, x = order ∨ x ∈ ob.resting := by
  have hv := valid_of_returned ob order tr hs
  rw [submit_book] at hc
  have hwalk : ∀ fl, tr = newTransaction fl (runFinalizers (ob.walk order).2.2) →
      ob'.WF ∧ ∀ x ∈ ob'.resting, x = order ∨ x ∈ ob.resting := by
    intro fl htr
    subst htr
    simp only [Transaction.Commit, newTransaction] at hc
    cases hrun : runFinalizers (ob.walk order).2.2 ob with
    | none => rw [hrun] at hc; cases hc
    | some s' =>
      rw [hrun] at hc
      simp only [Option.some.injEq, Prod.mk.injEq] at hc
      obtain ⟨_, _, hob⟩ := hc
      subst hob
      obtain ⟨hw, hr⟩ := walk_commit_WF ob order _ hwf hrun
      exact ⟨hw, fun x hx => Or.inr (hr x hx)⟩
  have hkind : (ob.orderAt order).Kind = .MarketOrderType ∨
      (ob.orderAt order).Kind = .LimitOrderType := by
    cases (ob.orderAt order).Kind
    · exact Or.inl rfl
    · exact Or.inr rfl
  rcases hkind with hk | hk
  · rw [submit_market ob order hwf hv hk] at hs
    split at hs
    · cases hs
      simp only [Transaction.Commit, newTransaction, Option.some.injEq, Prod.mk.injEq] at hc
      obtain ⟨_, _, hob⟩ := hc
      subst hob
      exact ⟨hwf, fun x hx => Or.inr hx⟩
    · split at hs
      · cases hs
      · cases hs
        exact hwalk _ rfl
  · rw [submit_limit_walk ob order hwf hv hk] at hs
    split at hs
    · rename_i hpos
      cases hs
      simp only [Transaction.Commit, newTransaction, restFinalizer] at hc
      cases hrun : runFinalizers (ob.walk order).2.2 ob with
      | none => rw [hrun] at hc; cases hc
      | some s1 =>
        rw [hrun] at hc
        simp only [Option.some.injEq, Prod.mk.injEq] at hc
        obtain ⟨_, _, hob⟩ := hc
        subst hob
        obtain ⟨hw1, hr1⟩ := walk_commit_WF ob order s1 hwf hrun
        obtain ⟨hw2, hr2⟩ := setOrder_WF s1 order
          { s1.orderAt order with Amount := ob.remaining order } hw1
          (fun _ => ⟨rfl, hpos⟩)
        obtain ⟨hw3, hr3⟩ := add_WF _ (ownSide (ob.orderAt order).Dir) order hw2
          (by simpa [OrderBook.setOrder] using hpos)
        refine ⟨hw3, fun x hx => ?_⟩
        rcases hr3 x hx with h | h
        · exact Or.inl h
        · rw [hr2] at h
          exact Or.inr (hr1 x h)
    · cases hs
      exact hwalk _ rfl

/-- One call of the test helper keeps the invariant of reached books. -/
theorem submitOrder_reached (ob : OrderBook) (n p : OrderPtr) (o : Order)
    (res : List OrderPtr × OrderBook) (hr : ob.reached n) (hnp : n ≤ p)
    (h : submitOrder ob p o = some res) : res.2.reached (p + 1) := by
  have hfresh : p ∉ ob.resting := fun hp =>
    Nat.lt_irrefl p (Nat.lt_of_lt_of_le (hr.2 p hp) hnp)
  obtain ⟨hw0, hr0⟩ := setOrder_WF ob p o hr.1 (fun hp => absurd hp hfresh)
  unfold submitOrder at h
  have hbook := submit_book (ob.setOrder p o) p
  cases hsub : (ob.setOrder p o).SubmitOrder p with
  | mk out ob1 =>
    rw [hsub] at h hbook
    simp only at hbook
    subst hbook
    cases out with
    | returned tr =>
      simp only at h
      cases hcm : tr.Commit (ob.setOrder p o) with
      | none => rw [hcm] at h; cases h
      | some r =>
        rw [hcm] at h
        simp only [Option.some.injEq] at h
        subst h
        obtain ⟨hw, hres⟩ := commit_WF (ob.setOrder p o) p tr r.2.1 r.1 r.2.2 hw0
          (by rw [hsub]) (by rw [submit_book]; exact hcm)
        refine ⟨hw, fun x hx => ?_⟩
        rcases hres x hx with h | h
        · rw [h]; exact Nat.lt_succ_self p
        · rw [hr0] at h
          exact Nat.lt_succ_of_lt (Nat.lt_of_lt_of_le (hr.2 x h) hnp)
    | failed err => cases h
    | panicked => cases h
    | running => cases h

theorem submitAll_reached (orders : List Order) (ob ob' : OrderBook) (n p : OrderPtr)
    (hr : ob.reached n) (hnp : n ≤ p) (h : submitAll ob p orders = some ob') :
    ∃ n', ob'.reached n' := by
  induction orders generalizing ob n p with
  | nil =>
    simp only [submitAll, Option.some.injEq] at h
    subst h; exact ⟨n, hr⟩
  | cons o rest ih =>
    simp only [submitAll] at h
    cases hso : submitOrder ob p o with
    | none => rw [hso] at h; cases h
    | some res =>
      rw [hso] at h
      exact ih res.2 (p + 1) (p + 1) (submitOrder_reached ob n p o res hr hnp hso) (le_refl _) h

theorem newOrderBook_reached (n : OrderPtr) : NewOrderBook.reached n :=
  ⟨by decide, fun p hp => by simp [OrderBook.resting, OrderBook.ordersOf, OrderBook.allLevels,
    OrderBook.levels, OrderBook.container, NewOrderBook, newOrderContainer, Tree.inorder] at hp⟩

/-- C14 (no empty level): after any sequence of submissions, each returned without
error and committed, starting from the empty book, every level filed in the tree
of either side, and every level filed in its map, holds at least one order. -/
theorem C14_no_empty_level (orders : List Order) (p : OrderPtr) (ob' : OrderBook)
    (h : submitAll NewOrderBook p orders = some ob') :
    ∀ oc, (∀ e ∈ ob'.levels oc, (ob'.queueAt e.2).orders.elems ≠ []) ∧
      (∀ e ∈ (ob'.container oc).priceHash, (ob'.queueAt e.2).orders.elems ≠ []) := by
  obtain ⟨n, hr⟩ := submitAll_reached orders NewOrderBook ob' p p (newOrderBook_reached p)
    (le_refl _) h
  intro oc
  have hside := sideOK_of_WF ob' hr.1 oc
  exact ⟨fun e he => (hside.2.2.2 e he).2.1,
    fun e he => (hside.2.2.2 e (hside.2.2.1 e he)).2.1⟩

/-- Witness of C14: two sells of 100 and 150 at 10, then a buy of 150 at 10. -/
theorem C14_no_empty_level_witness :
    submitAll NewOrderBook 1 [limitSell 1 10 100, limitSell 2 10 150, limitBuy 3 10 150]
      = some (bookAfter [limitSell 1 10 100, limitSell 2 10 150, limitBuy 3 10 150]) ∧
    ∀ oc,
      (∀ e ∈ (bookAfter [limitSell 1 10 100, limitSell 2 10 150, limitBuy 3 10 150]).levels oc,
        ((bookAfter [limitSell 1 10 100, limitSell 2 10 150, limitBuy 3 10 150]).queueAt
          e.2).orders.elems ≠ []) ∧
      (∀ e ∈ ((bookAfter [limitSell 1 10 100, limitSell 2 10 150,
            limitBuy 3 10 150]).container oc).priceHash,
        ((bookAfter [limitSell 1 10 100, limitSell 2 10 150, limitBuy 3 10 150]).queueAt
          e.2).orders.elems ≠ []) :=
  ⟨rfl,
    C14_no_empty_level [limitSell 1 10 100, limitSell 2 10 150, limitBuy 3 10 150] 1
      (bookAfter [limitSell 1 10 100, limitSell 2 10 150, limitBuy 3 10 150]) rfl⟩

/-- C15 (resting orders are well formed): after any sequence of submissions, each
returned without error and committed, starting from the empty book, every order
resting in a level of either side carries the price of its level (the price of
the queue, which is the key it is filed under) and a strictly positive amount. -/
theorem C15_resting_orders_well_formed (orders : List Order) (p : OrderPtr) (ob' : OrderBook)
    (h : submitAll NewOrderBook p orders = some ob') :
    ∀ oc, ∀ e ∈ ob'.levels oc, ∀ el ∈ (ob'.queueAt e.2).orders.elems,
      (ob'.orderAt el.Value).Price = (ob'.queueAt e.2).price ∧
      (ob'.queueAt e.2).price = e.1 ∧ 0 < (ob'.orderAt el.Value).Amount := by
  obtain ⟨n, hr⟩ := submitAll_reached orders NewOrderBook ob' p p (newOrderBook_reached p)
    (le_refl _) h
  intro oc e he el hel
  have hl := (sideOK_of_WF ob' hr.1 oc).2.2.2 e he
  exact ⟨(hl.2.2 el hel).1.trans hl.1.symm, hl.1, (hl.2.2 el hel).2⟩

/-- Witness of C15: a sell of 100 at 10, then a buy of 30 at 10 that leaves the
sell resting with 70. -/
theorem C15_resting_orders_well_formed_witness :
    submitAll NewOrderBook 1 [limitSell 1 10 100, limitBuy 2 10 30]
      = some (bookAfter [limitSell 1 10 100, limitBuy 2 10 30]) ∧
    ∀ oc, ∀ e ∈ (bookAfter [limitSell 1 10 100, limitBuy 2 10 30]).levels oc,
      ∀ el ∈ ((bookAfter [limitSell 1 10 100, limitBuy 2 10 30]).queueAt e.2).orders.elems,
        ((bookAfter [limitSell 1 10 100, limitBuy 2 10 30]).orderAt el.Value).Price
          = ((bookAfter [limitSell 1 10 100, limitBuy 2 10 30]).queueAt e.2).price ∧
        ((bookAfter [limitSell 1 10 100, limitBuy 2 10 30]).queueAt e.2).price = e.1 ∧
        0 < ((bookAfter [limitSell 1 10 100, limitBuy 2 10 30]).orderAt el.Value).Amount :=
  ⟨rfl,
    C15_resting_orders_well_formed [limitSell 1 10 100, limitBuy 2 10 30] 1
      (bookAfter [limitSell 1 10 100, limitBuy 2 10 30]) rfl⟩

/-! ## What one level gives to a taker -/

theorem amounts_nil (ob : OrderBook) : ob.amounts [] = 0 := rfl

theorem amounts_cons (ob : OrderBook) (p : OrderPtr) (ps : List OrderPtr) :
    ob.amounts (p :: ps) = (ob.orderAt p).Amount + ob.amounts ps := by
  simp [OrderBook.amounts]

theorem amounts_append (ob : OrderBook) (ps qs : List OrderPtr) :
    ob.amounts (ps ++ qs) = ob.amounts ps + ob.amounts qs := by
  simp [OrderBook.amounts]

theorem amounts_nonneg (ob : OrderBook) (ps : List OrderPtr)
    (h : ∀ p ∈ ps, 0 < (ob.orderAt p).Amount) : 0 ≤ ob.amounts ps := by
  induction ps with
  | nil => exact le_refl _
  | cons p ps ih =>
    rw [amounts_cons]
    have h1 := h p (List.mem_cons_self _ _)
    have h2 := ih (fun q hq => h q (List.mem_cons_of_mem _ hq))
    linarith

/-- The loop of `Process` takes orders while their amounts fit: either it takes them
all and what is left is the quantity minus their sum, or it stops at an order
that does not fit any more and nothing is left. -/
theorem processLoop_amounts (ob : OrderBook) (oq : QueuePtr) (els : List Element)
    (left : Decimal) (h0 : 0 ≤ left) :
    ob.amounts (processLoop ob oq els left).1 ≤ left ∧
    (((processLoop ob oq els left).1 = els.map (fun e => e.Value) ∧
        (processLoop ob oq els left).2.1 = left - ob.amounts (els.map (fun e => e.Value))) ∨
      ((processLoop ob oq els left).2.1 = 0 ∧
        ∃ e post, els.map (fun e => e.Value) = (processLoop ob oq els left).1 ++ e :: post ∧
          left < ob.amounts (processLoop ob oq els left).1 + (ob.orderAt e).Amount)) := by
  induction els generalizing left with
  | nil =>
    simp only [processLoop, List.map_nil, amounts_nil]
    exact ⟨h0, Or.inl ⟨trivial, by simp⟩⟩
  | cons el rest ih =>
    by_cases hlt : left < (ob.orderAt el.Value).Amount
    · simp only [processLoop, if_pos hlt, amounts_nil, List.map_cons, List.nil_append]
      refine ⟨h0, Or.inr ⟨trivial, el.Value, rest.map (fun e => e.Value), rfl, ?_⟩⟩
      linarith
    · simp only [processLoop, if_neg hlt, amounts_cons, List.map_cons]
      have hge := not_lt.mp hlt
      obtain ⟨h1, h2⟩ := ih (left - (ob.orderAt el.Value).Amount) (by linarith)
      refine ⟨by linarith, ?_⟩
      rcases h2 with ⟨ha, hb⟩ | ⟨ha, e, post, hb, hc⟩
      · refine Or.inl ⟨by rw [ha], ?_⟩
        rw [hb]; ring
      · refine Or.inr ⟨ha, e, post, ?_, by linarith⟩
        rw [hb]; rfl

/-- Among the front parts of a list of orders with positive amounts, one that
either is the whole list, or uses the quantity up, or is followed by an order
that no longer fits, is the longest whose amounts sum to at most the quantity. -/
theorem prefix_longest (ob : OrderBook) (M fills l : List OrderPtr) (A : Decimal)
    (hpos : ∀ p ∈ M, 0 < (ob.orderAt p).Amount)
    (hf : fills <+: M) (hl : l <+: M) (hla : ob.amounts l ≤ A)
    (hcase : fills = M ∨ ob.amounts fills = A ∨
      ∃ e post, M = fills ++ e :: post ∧ A < ob.amounts fills + (ob.orderAt e).Amount) :
    l.length ≤ fills.length := by
  by_contra hlen
  have hlt : fills.length < l.length := not_le.mp hlen
  obtain ⟨t, ht⟩ := List.prefix_of_prefix_length_le hf hl (le_of_lt hlt)
  obtain ⟨u, hu⟩ := hl
  cases t with
  | nil =>
    rw [List.append_nil] at ht
    rw [ht] at hlt
    exact Nat.lt_irrefl _ hlt
  | cons x r =>
    have hM : M = fills ++ x :: (r ++ u) := by
      rw [← hu, ← ht]; simp
    have hx : 0 < (ob.orderAt x).Amount := hpos x (by rw [hM]; simp)
    have hr : 0 ≤ ob.amounts r :=
      amounts_nonneg ob r (fun p hp => hpos p (by rw [hM]; simp [hp]))
    have hsum : ob.amounts l = ob.amounts fills + ((ob.orderAt x).Amount + ob.amounts r) := by
      rw [← ht, amounts_append, amounts_cons]
    rcases hcase with h | h | ⟨e, post, h1, h2⟩
    · have := congrArg List.length hM
      rw [← h] at this
      simp at this
    · linarith
    · rw [hM] at h1
      have h3 := List.append_cancel_left h1
      simp only [List.cons.injEq] at h3
      rw [← h3.1] at h2
      linarith

/-- C24 (commit can abort): a sell of 100 at 10, then a buy of 80 at 10, both
committed, leave one level holding one order of 20 and the volume 80.  A buy of 20
at 10 is then returned with the sell and the taker as its orders; the loop of
`Process` left `el == nil`, the level-drain test `20 >= 80` fails, so the commit
runs the staged `oq.Remove(el)` on the nil element and panics. -/
theorem C24_commit_panics_on_nil_element :
    (bookAfter [limitSell 1 10 100, limitBuy 2 10 80]).view .sell = [(10, [(1, 20)], 80)] ∧
    (returnedBy (((bookAfter [limitSell 1 10 100, limitBuy 2 10 80]).setOrder 3
      (limitBuy 3 10 20)).SubmitOrder 3).1).orders = [1, 3] ∧
    (processLoop ((bookAfter [limitSell 1 10 100, limitBuy 2 10 80]).setOrder 3
      (limitBuy 3 10 20)) 0 [⟨0, 1⟩] 20).2.2.2 = none ∧
    OrderQueue.Remove ((bookAfter [limitSell 1 10 100, limitBuy 2 10 80]).setOrder 3
      (limitBuy 3 10 20)) 0 none = none ∧
    ((returnedBy (((bookAfter [limitSell 1 10 100, limitBuy 2 10 80]).setOrder 3
      (limitBuy 3 10 20)).SubmitOrder 3).1).Commit
        ((bookAfter [limitSell 1 10 100, limitBuy 2 10 80]).setOrder 3 (limitBuy 3 10 20))).isNone
      = true ∧
    submitAll NewOrderBook 1 [limitSell 1 10 100, limitBuy 2 10 80, limitBuy 3 10 20] = none :=
  ⟨rfl, rfl, rfl, rfl, rfl, rfl⟩

/-- C22 as stated fails on the empty level: the whole (empty) FIFO is in `filled`,
yet with 5 to fill `Process` returns 0 as remaining, not 5 minus the sum of the
filled amounts. -/
theorem C22_empty_level_returns_zero :
    (OrderQueue.Process NewOrderBook 0 0 5).1 = NewOrderBook.fifo 0 ∧
    (OrderQueue.Process NewOrderBook 0 0 5).2.1 = 0 ∧
    (OrderQueue.Process NewOrderBook 0 0 5).2.1
      ≠ 5 - NewOrderBook.amounts (OrderQueue.Process NewOrderBook 0 0 5).1 := by
  refine ⟨rfl, rfl, ?_⟩
  decide

/-- C22 (level match result, amended): for a level whose orders have positive
amounts and a quantity `amountLeft >= 0`, `Process` returns as `filled` the longest
front part of the FIFO whose amounts sum to at most `amountLeft`; the remaining
quantity is 0 for the empty FIFO, `amountLeft` minus the sum of the filled amounts
when the FIFO is not empty and all of it is in `filled`, and 0 when an order is
left partially consumed; and the call itself leaves the book (so the level's FIFO,
its orders' amounts and its volume) as it was. -/
theorem C22_level_match (ob : OrderBook) (oq : QueuePtr) (order : OrderPtr)
    (amountLeft : Decimal)
    (hpos : ∀ p ∈ ob.fifo oq, 0 < (ob.orderAt p).Amount) (h0 : 0 ≤ amountLeft) :
    (OrderQueue.Process ob oq order amountLeft).1 <+: ob.fifo oq ∧
    ob.amounts (OrderQueue.Process ob oq order amountLeft).1 ≤ amountLeft ∧
    (∀ l, l <+: ob.fifo oq → ob.amounts l ≤ amountLeft →
      l.length ≤ (OrderQueue.Process ob oq order amountLeft).1.length) ∧
    (OrderQueue.Process ob oq order amountLeft).2.1 =
      (if ob.fifo oq = [] then 0
        else if (OrderQueue.Process ob oq order amountLeft).1 = ob.fifo oq then
          amountLeft - ob.amounts (ob.fifo oq)
        else 0) ∧
    (OrderQueue.ProcessCall ob oq order amountLeft).2 = ob := by
  have hpre := (process_fills ob oq order amountLeft).1
  by_cases hlen : (ob.queueAt oq).orders.Len = 0
  · have hnil : ob.fifo oq = [] := by
      unfold OrderBook.fifo
      rw [List.length_eq_zero.mp hlen]; rfl
    have hP : OrderQueue.Process ob oq order amountLeft = ([], 0, fun s => some s) := by
      unfold OrderQueue.Process; rw [if_pos hlen]
    rw [hP, hnil]
    refine ⟨List.prefix_refl _, h0, fun l hl _ => ?_, by simp, rfl⟩
    rw [List.prefix_nil.mp hl]
  · have hne : ob.fifo oq ≠ [] := by
      unfold OrderBook.fifo
      intro h
      exact hlen (by simpa [GoList.Len] using congrArg List.length h)
    have hP1 : (OrderQueue.Process ob oq order amountLeft).1
        = (processLoop ob oq (ob.queueAt oq).orders.elems amountLeft).1 := by
      unfold OrderQueue.Process; rw [if_neg hlen]
    have hP2 : (OrderQueue.Process ob oq order amountLeft).2.1
        = (processLoop ob oq (ob.queueAt oq).orders.elems amountLeft).2.1 := by
      unfold OrderQueue.Process; rw [if_neg hlen]
    obtain ⟨h1, h2⟩ := processLoop_amounts ob oq (ob.queueAt oq).orders.elems amountLeft h0
    rw [← hP1, ← hP2] at h2
    rw [← hP1] at h1
    change _ ∨ (_ ∧ ∃ e post, ob.fifo oq = _ ∧ _) at h2
    change (_ = ob.fifo oq ∧ _ = amountLeft - ob.amounts (ob.fifo oq)) ∨ _ at h2
    refine ⟨hpre, h1, fun l hl hla => ?_, ?_, rfl⟩
    · refine prefix_longest ob (ob.fifo oq) _ l amountLeft hpos hpre hl hla ?_
      rcases h2 with ⟨ha, _⟩ | ⟨_, e, post, hb, hc⟩
      · exact Or.inl ha
      · exact Or.inr (Or.inr ⟨e, post, hb, hc⟩)
    · rw [if_neg hne]
      rcases h2 with ⟨ha, hb⟩ | ⟨ha, e, post, hb, _⟩
      · rw [if_pos ha]; exact hb
      · rw [if_neg]
        · exact ha
        · intro heq
          have := congrArg List.length hb
          rw [← heq] at this
          simp at this

/-- Witness of C22: the level at 10 of the test book (orders of 100 and 150) asked
for 120 gives the first order and leaves nothing. -/
theorem C22_level_match_witness :
    (∀ p ∈ (restingSells (limitBuy 4 10 120)).fifo 0,
      0 < ((restingSells (limitBuy 4 10 120)).orderAt p).Amount) ∧
    (OrderQueue.Process (restingSells (limitBuy 4 10 120)) 0 4 120).1 = [1] ∧
    (OrderQueue.Process (restingSells (limitBuy 4 10 120)) 0 4 120).2.1 = 0 ∧
    (OrderQueue.Process (restingSells (limitBuy 4 10 120)) 0 4 120).1
      <+: (restingSells (limitBuy 4 10 120)).fifo 0 ∧
    (∀ l, l <+: (restingSells (limitBuy 4 10 120)).fifo 0 →
      (restingSells (limitBuy 4 10 120)).amounts l ≤ 120 →
      l.length ≤ (OrderQueue.Process (restingSells (limitBuy 4 10 120)) 0 4 120).1.length) :=
  ⟨by decide, rfl, rfl,
    (C22_level_match (restingSells (limitBuy 4 10 120)) 0 4 120 (by decide) (by decide)).1,
    (C22_level_match (restingSells (limitBuy 4 10 120)) 0 4 120 (by decide) (by decide)).2.2.1⟩

/-! ## The cut-off of the walk -/

theorem process_amounts (ob : OrderBook) (oq : QueuePtr) (order : OrderPtr) (left : Decimal)
    (hne : (ob.queueAt oq).orders.elems ≠ []) (h0 : 0 ≤ left) :
    ob.amounts (OrderQueue.Process ob oq order left).1 ≤ left ∧
    (((OrderQueue.Process ob oq order left).1 = ob.fifo oq ∧
        (OrderQueue.Process ob oq order left).2.1 = left - ob.amounts (ob.fifo oq)) ∨
      ((OrderQueue.Process ob oq order left).2.1 = 0 ∧
        ∃ e post, ob.fifo oq = (OrderQueue.Process ob oq order left).1 ++ e :: post ∧
          left < ob.amounts (OrderQueue.Process ob oq order left).1 + (ob.orderAt e).Amount)) := by
  have hlen : ¬ (ob.queueAt oq).orders.Len = 0 := by
    intro h; exact hne (List.length_eq_zero.mp h)
  have hP : OrderQueue.Process ob oq order left
      = ((processLoop ob oq (ob.queueAt oq).orders.elems left).1,
          (processLoop ob oq (ob.queueAt oq).orders.elems left).2.1,
          runFinalizers ((processLoop ob oq (ob.queueAt oq).orders.elems left).2.2.1.map
            (fun fn => fn (processLoop ob oq (ob.queueAt oq).orders.elems left).2.2.2))) := by
    unfold OrderQueue.Process; rw [if_neg hlen]
  rw [hP]
  exact processLoop_amounts ob oq _ left h0

/-- The walk over non-empty levels `ms` that are not beyond the stop price, followed
by levels `rest` that start beyond it: the orders taken are a front part of the
orders of `ms` whose amounts fit into the quantity; either they are all of them
and the difference is left, or nothing is left and the quantity is used up
exactly or the next order does not fit. -/
theorem matchLevels_amounts (ob : OrderBook) (oc : ContainerPtr) (order : OrderPtr)
    (stop : Decimal → Bool) (ms rest : List QueuePtr) (left : Decimal) (h0 : 0 ≤ left)
    (hms : ∀ q ∈ ms, stop (OrderQueue.Price ob q) = false ∧ (ob.queueAt q).orders.elems ≠ [])
    (hrest : ∀ q, rest.head? = some q → stop (OrderQueue.Price ob q) = true) :
    (matchLevels ob oc order stop (ms ++ rest) left).1 <+: ms.flatMap (fun q => ob.fifo q) ∧
    ob.amounts (matchLevels ob oc order stop (ms ++ rest) left).1 ≤ left ∧
    (((matchLevels ob oc order stop (ms ++ rest) left).1 = ms.flatMap (fun q => ob.fifo q) ∧
        (matchLevels ob oc order stop (ms ++ rest) left).2.1
          = left - ob.amounts (matchLevels ob oc order stop (ms ++ rest) left).1) ∨
      ((matchLevels ob oc order stop (ms ++ rest) left).2.1 = 0 ∧
        (ob.amounts (matchLevels ob oc order stop (ms ++ rest) left).1 = left ∨
          ∃ e post, ms.flatMap (fun q => ob.fifo q)
              = (matchLevels ob oc order stop (ms ++ rest) left).1 ++ e :: post ∧
            left < ob.amounts (matchLevels ob oc order stop (ms ++ rest) left).1
              + (ob.orderAt e).Amount))) := by
  induction ms generalizing left with
  | nil =>
    have hnil : matchLevels ob oc order stop ([] ++ rest) left = ([], left, []) := by
      cases rest with
      | nil => rfl
      | cons q rest =>
        have := hrest q rfl
        simp [matchLevels, this]
    rw [hnil]
    simp only [List.flatMap_nil, amounts_nil]
    exact ⟨List.prefix_refl _, h0, Or.inl ⟨trivial, by simp⟩⟩
  | cons q ms ih =>
    obtain ⟨hstop, hne⟩ := hms q (List.mem_cons_self _ _)
    obtain ⟨hp1, hp2⟩ := process_amounts ob q order left hne h0
    have hpre := (process_fills ob q order left).1
    simp only [List.cons_append, matchLevels, hstop, Bool.false_eq_true, if_false,
      List.flatMap_cons, List.append_eq]
    by_cases hz : (OrderQueue.Process ob q order left).2.1 = 0
    · simp only [hz, if_true]
      refine ⟨hpre.trans (List.prefix_append _ _), hp1, Or.inr ⟨trivial, ?_⟩⟩
      rcases hp2 with ⟨ha, hb⟩ | ⟨_, e, post, hb, hc⟩
      · left
        rw [ha]
        rw [hz] at hb
        linarith
      · right
        refine ⟨e, post ++ ms.flatMap (fun q => ob.fifo q), ?_, hc⟩
        rw [hb]; simp
    · simp only [hz, if_false]
      rcases hp2 with ⟨ha, hb⟩ | ⟨hzero, _⟩
      · have hl0 : 0 ≤ (OrderQueue.Process ob q order left).2.1 :=
          process_left_nonneg ob q order left h0
        obtain ⟨i1, i2, i3⟩ := ih (OrderQueue.Process ob q order left).2.1 hl0
          (fun q' hq' => hms q' (List.mem_cons_of_mem _ hq'))
        rw [ha]
        refine ⟨(List.prefix_append_right_inj _).mpr i1, ?_, ?_⟩
        · rw [amounts_append]; linarith
        · rcases i3 with ⟨j1, j2⟩ | ⟨j1, j2⟩
          · refine Or.inl ⟨by rw [j1], ?_⟩
            rw [amounts_append]; linarith
          · refine Or.inr ⟨j1, ?_⟩
            rcases j2 with j2 | ⟨e, post, j3, j4⟩
            · left
              rw [amounts_append]; linarith
            · right
              refine ⟨e, post, ?_, ?_⟩
              · rw [j3]; simp
              · rw [amounts_append]; linarith
      · exact absurd hzero hz

theorem bestFirst_monotone (ob : OrderBook) (hwf : ob.WF) (dir : OrderDirection)
    (price : Decimal) (pre post : List (Decimal × QueuePtr)) (e : Decimal × QueuePtr)
    (h : ob.bestFirst dir = pre ++ e :: post) (hm : marketable dir price e.1 = false) :
    ∀ e' ∈ e :: post, marketable dir price e'.1 = false := by
  intro e' he'
  rcases List.mem_cons.mp he' with h1 | h1
  · rw [h1]; exact hm
  · cases dir with
    | BuyOrderDirection =>
      have hs : (ob.bestFirst .BuyOrderDirection).Pairwise (fun a b => a.1 < b.1) := by
        have := hwf.2.1.1
        unfold Tree.ordered at this
        exact List.pairwise_map.mp this
      rw [h] at hs
      have hlt := (List.pairwise_cons.mp (List.pairwise_append.mp hs).2.1).1 e' h1
      simp only [marketable, decide_eq_false_iff_not, not_le] at hm ⊢
      exact lt_trans hm hlt
    | SellOrderDirection =>
      have hs : (ob.bestFirst .SellOrderDirection).Pairwise (fun a b => b.1 < a.1) := by
        have := hwf.1.1
        unfold Tree.ordered at this
        simp only [OrderBook.bestFirst]
        rw [List.pairwise_reverse]
        exact List.pairwise_map.mp this
      rw [h] at hs
      have hlt := (List.pairwise_cons.mp (List.pairwise_append.mp hs).2.1).1 e' h1
      simp only [marketable, decide_eq_false_iff_not, not_le] at hm ⊢
      exact lt_trans hlt hm

/-- The walk of a submission in terms of the marketable orders: a front part of
them whose amounts fit into the taker's amount; either all of them, with the
difference remaining, or nothing remains and the amount is used up exactly or the
next order does not fit. -/
theorem walk_amounts (ob : OrderBook) (order : OrderPtr) (hwf : ob.WF)
    (hv : ob.validOrder order) :
    (ob.walk order).1 <+: ob.marketableOrders order ∧
    ob.amounts (ob.walk order).1 ≤ (ob.orderAt order).Amount ∧
    (((ob.walk order).1 = ob.marketableOrders order ∧
        ob.remaining order = (ob.orderAt order).Amount - ob.amounts (ob.walk order).1) ∨
      (ob.remaining order = 0 ∧
        (ob.amounts (ob.walk order).1 = (ob.orderAt order).Amount ∨
          ∃ e post, ob.marketableOrders order = (ob.walk order).1 ++ e :: post ∧
            (ob.orderAt order).Amount < ob.amounts (ob.walk order).1 + (ob.orderAt e).Amount))) := by
  have hbest := bestFirst_split ob hwf (ob.orderAt order).Dir (ob.orderAt order).Price
  have hlev := bestFirst_levelOK ob hwf (ob.orderAt order).Dir
  unfold OrderBook.marketableOrders OrderBook.remaining OrderBook.walk
  generalize hms : (ob.bestFirst (ob.orderAt order).Dir).filter
    (fun e => marketable (ob.orderAt order).Dir (ob.orderAt order).Price e.1) = ms at hbest ⊢
  generalize hrs : (ob.bestFirst (ob.orderAt order).Dir).filter
    (fun e => !marketable (ob.orderAt order).Dir (ob.orderAt order).Price e.1) = rest at hbest
  have hmsmem : ∀ e ∈ ms, e ∈ ob.bestFirst (ob.orderAt order).Dir ∧
      marketable (ob.orderAt order).Dir (ob.orderAt order).Price e.1 = true := by
    intro e he
    rw [← hms] at he
    exact List.mem_filter.mp he
  have hrsmem : ∀ e ∈ rest, e ∈ ob.bestFirst (ob.orderAt order).Dir ∧
      marketable (ob.orderAt order).Dir (ob.orderAt order).Price e.1 = false := by
    intro e he
    rw [← hrs] at he
    have := List.mem_filter.mp he
    exact ⟨this.1, by simpa using this.2⟩
  rw [hbest, List.map_append, ordersOf_eq]
  refine matchLevels_amounts ob _ order _ (ms.map Prod.snd) (rest.map Prod.snd) _
    (le_of_lt hv.2) ?_ ?_
  · intro q hq
    obtain ⟨e, he, rfl⟩ := List.mem_map.mp hq
    obtain ⟨hb, hm⟩ := hmsmem e he
    have hl := hlev e hb
    refine ⟨?_, hl.2.1⟩
    rw [stopOf_eq]
    unfold OrderQueue.Price
    rw [hl.1, hm]; rfl
  · intro q hq
    cases rest with
    | nil => cases hq
    | cons e rest =>
      simp only [List.map_cons, List.head?_cons, Option.some.injEq] at hq
      subst hq
      obtain ⟨hb, hm⟩ := hrsmem e (List.mem_cons_self _ _)
      have hl := hlev e hb
      rw [stopOf_eq]
      unfold OrderQueue.Price
      rw [hl.1, hm]; rfl

theorem marketableOrders_pos (ob : OrderBook) (order : OrderPtr) (hwf : ob.WF) :
    ∀ p ∈ ob.marketableOrders order, 0 < (ob.orderAt p).Amount ∧
      marketable (ob.orderAt order).Dir (ob.orderAt order).Price (ob.orderAt p).Price = true := by
  intro p hp
  unfold OrderBook.marketableOrders OrderBook.ordersOf at hp
  obtain ⟨e, he, hpe⟩ := List.mem_flatMap.mp hp
  obtain ⟨hb, hm⟩ := List.mem_filter.mp he
  have hl := bestFirst_levelOK ob hwf _ e hb
  unfold OrderBook.fifo at hpe
  obtain ⟨el, hel, rfl⟩ := List.mem_map.mp hpe
  exact ⟨(hl.2.2 el hel).2, by rw [(hl.2.2 el hel).1]; exact hm⟩

/-- C21 (marketable cut-off): on a well-formed book (levels not empty, amounts
positive) a limit order that is returned a transaction gets, as the resting orders
of its list, exactly the longest front part of the marketable orders (the orders
of the opposite side's levels priced not above a buy's price, not below a sell's,
equality included, best level first and front to back) whose amounts sum to at
most the taker's amount.  Either the taker follows them in the list, or the taker
is not in the list, all marketable orders were taken and quantity remains.  No
order of a non-marketable level is among them, and nothing is taken at or after
the first non-marketable level. -/
theorem C21_marketable_cutoff (ob : OrderBook) (order : OrderPtr) (tr : Transaction)
    (hwf : ob.WF) (hk : (ob.orderAt order).Kind = .LimitOrderType)
    (hs : (ob.SubmitOrder order).1 = .returned tr) :
    ∃ fills : List OrderPtr,
      (tr.orders = fills ++ [order] ∨
        (tr.orders = fills ∧ fills = ob.marketableOrders order ∧
          ob.amounts fills < (ob.orderAt order).Amount)) ∧
      fills <+: ob.marketableOrders order ∧
      ob.amounts fills ≤ (ob.orderAt order).Amount ∧
      (∀ l, l <+: ob.marketableOrders order → ob.amounts l ≤ (ob.orderAt order).Amount →
        l.length ≤ fills.length) ∧
      (∀ e ∈ ob.bestFirst (ob.orderAt order).Dir,
        marketable (ob.orderAt order).Dir (ob.orderAt order).Price e.1 = false →
        ∀ p ∈ ob.fifo e.2, p ∉ fills) ∧
      (∀ pre e post, ob.bestFirst (ob.orderAt order).Dir = pre ++ e :: post →
        marketable (ob.orderAt order).Dir (ob.orderAt order).Price e.1 = false →
        ∀ e' ∈ e :: post, ∀ p ∈ ob.fifo e'.2, p ∉ fills) := by
  have hv := valid_of_returned ob order tr hs
  obtain ⟨w1, w2, w3⟩ := walk_amounts ob order hwf hv
  have hpos := marketableOrders_pos ob order hwf
  have hout : ∀ e ∈ ob.bestFirst (ob.orderAt order).Dir,
      marketable (ob.orderAt order).Dir (ob.orderAt order).Price e.1 = false →
      ∀ p ∈ ob.fifo e.2, p ∉ (ob.walk order).1 := by
    intro e he hm p hp hin
    have h1 := (hpos p (w1.subset hin)).2
    rw [price_of_mem_fifo ob e p (bestFirst_levelOK ob hwf _ e he) hp, hm] at h1
    cases h1
  rw [submit_limit_walk ob order hwf hv hk] at hs
  refine ⟨(ob.walk order).1, ?_, w1, w2, fun l hl hla => ?_, hout, ?_⟩
  · by_cases hpos' : ob.remaining order > 0
    · rw [if_pos hpos'] at hs
      cases hs
      rcases w3 with ⟨a, b⟩ | ⟨a, _⟩
      · exact Or.inr ⟨rfl, a, by linarith⟩
      · rw [a] at hpos'; exact absurd hpos' (lt_irrefl _)
    · rw [if_neg hpos'] at hs
      cases hs
      exact Or.inl rfl
  · refine prefix_longest ob _ _ l _ (fun p hp => (hpos p hp).1) w1 hl hla ?_
    rcases w3 with ⟨a, _⟩ | ⟨_, a | a⟩
    · exact Or.inl a
    · exact Or.inr (Or.inl a)
    · exact Or.inr (Or.inr a)
  · intro pre e post hsplit hm e' he'
    have hmem : e' ∈ ob.bestFirst (ob.orderAt order).Dir := by
      rw [hsplit]; exact List.mem_append_right _ he'
    exact hout e' hmem (bestFirst_monotone ob hwf _ _ pre post e hsplit hm e' he')

/-- Witness of C21: on the test book a buy of 400 at 10 takes both orders of the
level at 10 and stops before the level at 15 with quantity remaining. -/
theorem C21_marketable_cutoff_witness :
    (restingSells (limitBuy 4 10 400)).WF ∧
    (returnedBy ((restingSells (limitBuy 4 10 400)).SubmitOrder 4).1).orders = [1, 2] ∧
    (restingSells (limitBuy 4 10 400)).marketableOrders 4 = [1, 2] ∧
    ∃ fills : List OrderPtr,
      ((returnedBy ((restingSells (limitBuy 4 10 400)).SubmitOrder 4).1).orders
          = fills ++ [4] ∨
        ((returnedBy ((restingSells (limitBuy 4 10 400)).SubmitOrder 4).1).orders = fills ∧
          fills = (restingSells (limitBuy 4 10 400)).marketableOrders 4 ∧
          (restingSells (limitBuy 4 10 400)).amounts fills
            < ((restingSells (limitBuy 4 10 400)).orderAt 4).Amount)) ∧
      fills <+: (restingSells (limitBuy 4 10 400)).marketableOrders 4 ∧
      (restingSells (limitBuy 4 10 400)).amounts fills
        ≤ ((restingSells (limitBuy 4 10 400)).orderAt 4).Amount ∧
      (∀ l, l <+: (restingSells (limitBuy 4 10 400)).marketableOrders 4 →
        (restingSells (limitBuy 4 10 400)).amounts l
          ≤ ((restingSells (limitBuy 4 10 400)).orderAt 4).Amount →
        l.length ≤ fills.length) ∧
      (∀ e ∈ (restingSells (limitBuy 4 10 400)).bestFirst
          ((restingSells (limitBuy 4 10 400)).orderAt 4).Dir,
        marketable ((restingSells (limitBuy 4 10 400)).orderAt 4).Dir
          ((restingSells (limitBuy 4 10 400)).orderAt 4).Price e.1 = false →
        ∀ p ∈ (restingSells (limitBuy 4 10 400)).fifo e.2, p ∉ fills) ∧
      (∀ pre e post,
        (restingSells (limitBuy 4 10 400)).bestFirst
          ((restingSells (limitBuy 4 10 400)).orderAt 4).Dir = pre ++ e :: post →
        marketable ((restingSells (limitBuy 4 10 400)).orderAt 4).Dir
          ((restingSells (limitBuy 4 10 400)).orderAt 4).Price e.1 = false →
        ∀ e' ∈ e :: post, ∀ p ∈ (restingSells (limitBuy 4 10 400)).fifo e'.2, p ∉ fills) :=
  ⟨by decide, rfl, rfl,
    C21_marketable_cutoff (restingSells (limitBuy 4 10 400)) 4
      (returnedBy ((restingSells (limitBuy 4 10 400)).SubmitOrder 4).1) (by decide) rfl rfl⟩

/-! ## The kind of the taker does not matter to the walk -/

theorem OrderBook.eq_of_fields (s s' : OrderBook) (h1 : s.orderAt = s'.orderAt)
    (h2 : s.queueAt = s'.queueAt) (h3 : s.nextQueue = s'.nextQueue) (h4 : s.buy = s'.buy)
    (h5 : s.sell = s'.sell) : s = s' := by
  cases s; cases s'
  simp only at h1 h2 h3 h4 h5
  subst h1 h2 h3 h4 h5
  rfl

theorem withKind_orderAt (s : OrderBook) (p : OrderPtr) (k : OrderType) (q : OrderPtr) :
    (s.withKind p k).orderAt q = if q = p then { s.orderAt p with Kind := k } else s.orderAt q :=
  rfl

theorem withKind_amount (s : OrderBook) (p : OrderPtr) (k : OrderType) (q : OrderPtr) :
    ((s.withKind p k).orderAt q).Amount = (s.orderAt q).Amount := by
  rw [withKind_orderAt]
  split
  · rename_i h; rw [h]
  · rfl

theorem withKind_price (s : OrderBook) (p : OrderPtr) (k : OrderType) (q : OrderPtr) :
    ((s.withKind p k).orderAt q).Price = (s.orderAt q).Price := by
  rw [withKind_orderAt]
  split
  · rename_i h; rw [h]
  · rfl

theorem withKind_dir (s : OrderBook) (p : OrderPtr) (k : OrderType) (q : OrderPtr) :
    ((s.withKind p k).orderAt q).Dir = (s.orderAt q).Dir := by
  rw [withKind_orderAt]
  split
  · rename_i h; rw [h]
  · rfl

theorem withKind_id (s : OrderBook) (p : OrderPtr) (k : OrderType) (q : OrderPtr) :
    ((s.withKind p k).orderAt q).ID = (s.orderAt q).ID := by
  rw [withKind_orderAt]
  split
  · rename_i h; rw [h]
  · rfl

theorem withKind_kind (s : OrderBook) (p : OrderPtr) (k : OrderType) :
    ((s.withKind p k).orderAt p).Kind = k := by
  rw [withKind_orderAt, if_pos rfl]

theorem withKind_queueAt (s : OrderBook) (p : OrderPtr) (k : OrderType) :
    (s.withKind p k).queueAt = s.queueAt := rfl

theorem withKind_container (s : OrderBook) (p : OrderPtr) (k : OrderType) (oc : ContainerPtr) :
    (s.withKind p k).container oc = s.container oc := container_setOrder _ _ _ _

theorem withKind_withKind (s : OrderBook) (p : OrderPtr) (k k' : OrderType) :
    (s.withKind p k).withKind p k' = s.withKind p k' := by
  apply OrderBook.eq_of_fields <;> try rfl
  funext q
  simp only [withKind_orderAt]
  split <;> simp

theorem processLoop_congr (ob ob' : OrderBook) (oq : QueuePtr) (els : List Element)
    (left : Decimal) (ha : ∀ q, (ob'.orderAt q).Amount = (ob.orderAt q).Amount) :
    processLoop ob' oq els left = processLoop ob oq els left := by
  induction els generalizing left with
  | nil => rfl
  | cons el rest ih =>
    simp only [processLoop, ha, ih]

theorem process_congr (ob ob' : OrderBook) (oq : QueuePtr) (order : OrderPtr) (left : Decimal)
    (ha : ∀ q, (ob'.orderAt q).Amount = (ob.orderAt q).Amount)
    (hq : ob'.queueAt = ob.queueAt) :
    OrderQueue.Process ob' oq order left = OrderQueue.Process ob oq order left := by
  unfold OrderQueue.Process
  rw [hq]
  simp only [processLoop_congr ob ob' oq _ _ ha]

theorem matchLevels_congr (ob ob' : OrderBook) (oc : ContainerPtr) (order : OrderPtr)
    (stop : Decimal → Bool) (qs : List QueuePtr) (left : Decimal)
    (ha : ∀ q, (ob'.orderAt q).Amount = (ob.orderAt q).Amount)
    (hq : ob'.queueAt = ob.queueAt) :
    matchLevels ob' oc order stop qs left = matchLevels ob oc order stop qs left := by
  induction qs generalizing left with
  | nil => rfl
  | cons q rest ih =>
    simp only [matchLevels, process_congr ob ob' _ _ _ ha hq, ih, levelFinalizer,
      OrderQueue.Price, OrderQueue.Volume, hq, ha]

theorem walk_withKind (ob : OrderBook) (p : OrderPtr) (k : OrderType) (order : OrderPtr) :
    (ob.withKind p k).walk order = ob.walk order := by
  unfold OrderBook.walk
  rw [withKind_dir, withKind_price, withKind_amount,
    bestFirst_congr ob (ob.withKind p k) _ (withKind_container ob p k _)]
  exact matchLevels_congr ob _ _ _ _ _ _ (withKind_amount ob p k) rfl

theorem kindBlind_removeLevel (p : OrderPtr) (k : OrderType) (oc : ContainerPtr)
    (q : QueuePtr) : kindBlind p k (removeLevel oc q) := by
  intro s
  simp only [removeLevel, Option.map_some', Option.some.injEq, OrderQueue.Price,
    withKind_queueAt]
  unfold OrderContainer.Remove
  simp only [withKind_container]
  cases (s.container oc).priceHash.get (keyOf (s.queueAt q).price) with
  | none => rfl
  | some queue => cases oc <;> rfl

theorem kindBlind_remove (p : OrderPtr) (k : OrderType) (oq : QueuePtr) (e : Option Element) :
    kindBlind p k (fun s => OrderQueue.Remove s oq e) := by
  intro s
  cases e with
  | none => rfl
  | some e =>
    simp only [OrderQueue.Remove, Option.map_some', Option.some.injEq, withKind_amount,
      withKind_queueAt]
    rfl

theorem kindBlind_update (p : OrderPtr) (k : OrderType) (oq : QueuePtr) (ord : OrderPtr)
    (amt : Decimal) : kindBlind p k (fun s => some (OrderQueue.update s oq ord amt)) := by
  intro s
  simp only [Option.map_some', Option.some.injEq]
  apply OrderBook.eq_of_fields <;> try rfl
  funext q
  simp only [OrderQueue.update, OrderBook.setQueue, OrderBook.setOrder, OrderBook.withKind]
  by_cases h1 : q = p <;> by_cases h2 : q = ord <;> by_cases h3 : ord = p <;>
    simp_all

theorem kindBlind_runFinalizers (p : OrderPtr) (k : OrderType) (fns : List finalizerFn)
    (h : ∀ fn ∈ fns, kindBlind p k fn) : kindBlind p k (runFinalizers fns) := by
  induction fns with
  | nil => intro s; rfl
  | cons fn rest ih =>
    intro s
    simp only [runFinalizers]
    rw [h fn (List.mem_cons_self _ _) s]
    cases fn s with
    | none => rfl
    | some s1 =>
      simp only [Option.map_some']
      exact ih (fun f hf => h f (List.mem_cons_of_mem _ hf)) s1

theorem kindBlind_processLoop (p : OrderPtr) (k : OrderType) (ob : OrderBook) (oq : QueuePtr)
    (els : List Element) (left : Decimal) (x : Option Element) :
    ∀ fn ∈ (processLoop ob oq els left).2.2.1.map (fun fn => fn x), kindBlind p k fn := by
  induction els generalizing left with
  | nil => intro fn h; simp [processLoop] at h
  | cons el rest ih =>
    intro fn h
    simp only [processLoop] at h
    split at h
    · simp only [List.map_cons, List.map_nil, List.mem_singleton] at h
      rw [h]; exact kindBlind_update p k oq _ _
    · simp only [List.map_cons, List.mem_cons] at h
      rcases h with h | h
      · rw [h]; exact kindBlind_remove p k oq x
      · exact ih _ fn h

theorem kindBlind_process (p : OrderPtr) (k : OrderType) (ob : OrderBook) (oq : QueuePtr)
    (order : OrderPtr) (left : Decimal) :
    kindBlind p k (OrderQueue.Process ob oq order left).2.2 := by
  unfold OrderQueue.Process
  split
  · intro s; rfl
  · exact kindBlind_runFinalizers p k _ (kindBlind_processLoop p k ob oq _ left _)

theorem kindBlind_matchLevels (p : OrderPtr) (k : OrderType) (ob : OrderBook)
    (oc : ContainerPtr) (order : OrderPtr) (stop : Decimal → Bool) (qs : List QueuePtr)
    (left : Decimal) :
    ∀ fn ∈ (matchLevels ob oc order stop qs left).2.2, kindBlind p k fn := by
  have hlev : ∀ q l, kindBlind p k
      (levelFinalizer ob oc order q (OrderQueue.Process ob q order l).2.2) := by
    intro q l
    unfold levelFinalizer
    split
    · exact kindBlind_removeLevel p k oc q
    · exact kindBlind_process p k ob q order l
  induction qs generalizing left with
  | nil => intro fn h; simp [matchLevels] at h
  | cons q rest ih =>
    intro fn h
    simp only [matchLevels] at h
    split at h
    · simp at h
    · split at h
      · simp only [List.mem_singleton] at h
        rw [h]; exact hlev q left
      · simp only [List.mem_cons] at h
        rcases h with h | h
        · rw [h]; exact hlev q left
        · exact ih _ fn h

/-- The closure staged by the walk is blind to the kind of any order. -/
theorem kindBlind_walk (p : OrderPtr) (k : OrderType) (ob : OrderBook) (order : OrderPtr) :
    kindBlind p k (runFinalizers (ob.walk order).2.2) :=
  kindBlind_runFinalizers p k _ (kindBlind_matchLevels p k ob _ order _ _ _)

theorem view_withKind (s : OrderBook) (p : OrderPtr) (k : OrderType) (oc : ContainerPtr) :
    (s.withKind p k).view oc = s.view oc := by
  unfold OrderBook.view OrderBook.levels OrderBook.fifo
  simp only [withKind_container, withKind_queueAt, withKind_id, withKind_amount]

theorem WF_withKind (s : OrderBook) (p : OrderPtr) (k : OrderType) (hwf : s.WF)
    (hv : s.validOrder p) : (s.withKind p k).WF :=
  (setOrder_WF s p { s.orderAt p with Kind := k } hwf (fun _ => ⟨rfl, hv.2⟩)).1

/-- C23 (market order as marketable limit): take a well-formed book and a valid
order record (price, amount, direction, id) at an address.  If, as a limit order,
it would be filled whole (nothing remains after the walk) and, as a market order,
it is not declined by the liquidity guard, then both submissions return the same
list of orders (the same addresses, the taker last) with the same staged closure;
the commit of one panics exactly if the commit of the other does, they return the
same orders, and the books afterwards agree in both sides, every queue and every
order record, the field `Type` of the taker's own record being the only
difference. -/
theorem C23_market_as_marketable_limit (ob : OrderBook) (order : OrderPtr)
    (hwf : ob.WF) (hv : ob.validOrder order)
    (hfull : (ob.withKind order .LimitOrderType).remaining order = 0)
    (hnd : ¬ (ob.withKind order .MarketOrderType).declined order) :
    ∃ fills fin,
      ((ob.withKind order .LimitOrderType).SubmitOrder order).1
        = .returned (newTransaction fills fin) ∧
      ((ob.withKind order .MarketOrderType).SubmitOrder order).1
        = .returned (newTransaction fills fin) ∧
      ((newTransaction fills fin).Commit (ob.withKind order .LimitOrderType) = none →
        (newTransaction fills fin).Commit (ob.withKind order .MarketOrderType) = none) ∧
      ∀ os tr' sL,
        (newTransaction fills fin).Commit (ob.withKind order .LimitOrderType)
          = some (os, tr', sL) →
        ∃ sM, (newTransaction fills fin).Commit (ob.withKind order .MarketOrderType)
            = some (os, tr', sM) ∧
          sM.buy = sL.buy ∧ sM.sell = sL.sell ∧ sM.queueAt = sL.queueAt ∧
          sM.nextQueue = sL.nextQueue ∧
          (∀ p, p ≠ order → sM.orderAt p = sL.orderAt p) ∧
          sM.orderAt order = { sL.orderAt order with Kind := .MarketOrderType } ∧
          ∀ oc, sM.view oc = sL.view oc := by
  have hvL : (ob.withKind order .LimitOrderType).validOrder order := by
    unfold OrderBook.validOrder
    rw [withKind_price, withKind_amount]; exact hv
  have hvM : (ob.withKind order .MarketOrderType).validOrder order := by
    unfold OrderBook.validOrder
    rw [withKind_price, withKind_amount]; exact hv
  have hL := submit_limit_walk _ order (WF_withKind ob order .LimitOrderType hwf hv) hvL
    (withKind_kind ob order _)
  have hM := submit_market _ order (WF_withKind ob order .MarketOrderType hwf hv) hvM
    (withKind_kind ob order _)
  have hremM : (ob.withKind order .MarketOrderType).remaining order = 0 := by
    unfold OrderBook.remaining at hfull ⊢
    rw [walk_withKind] at hfull ⊢
    exact hfull
  rw [hfull, if_neg (lt_irrefl _), walk_withKind] at hL
  rw [if_neg hnd, hremM, if_neg (lt_irrefl _), walk_withKind] at hM
  have hblind := kindBlind_walk order .MarketOrderType ob order
    (ob.withKind order .LimitOrderType)
  rw [withKind_withKind] at hblind
  refine ⟨_, _, hL, hM, ?_, ?_⟩
  · intro h
    simp only [Transaction.Commit, newTransaction] at h ⊢
    rw [hblind]
    cases hrun : runFinalizers (ob.walk order).2.2 (ob.withKind order .LimitOrderType) with
    | none => rfl
    | some s1 => rw [hrun] at h; cases h
  · intro os tr' sL h
    simp only [Transaction.Commit, newTransaction] at h ⊢
    rw [hblind]
    cases hrun : runFinalizers (ob.walk order).2.2 (ob.withKind order .LimitOrderType) with
    | none => rw [hrun] at h; cases h
    | some s1 =>
      rw [hrun] at h
      simp only [Option.some.injEq, Prod.mk.injEq] at h
      obtain ⟨h1, h2, h3⟩ := h
      subst h1 h2 h3
      refine ⟨s1.withKind order .MarketOrderType, rfl, rfl, rfl, rfl, rfl, ?_, ?_,
        fun oc => view_withKind s1 order _ oc⟩
      · intro p hp
        rw [withKind_orderAt, if_neg hp]
      · rw [withKind_orderAt, if_pos rfl]

/-- Witness of C23: the test book and the order (id 4, buy, price 15, amount 250),
the input of the tests "first buy, full queue" for limit and market orders. -/
theorem C23_market_as_marketable_limit_witness :
    (restingSells (limitBuy 4 15 250)).WF ∧
    (returnedBy (((restingSells (limitBuy 4 15 250)).withKind 4
      .LimitOrderType).SubmitOrder 4).1).orders = [1, 2, 4] ∧
    (returnedBy (((restingSells (limitBuy 4 15 250)).withKind 4
      .MarketOrderType).SubmitOrder 4).1).orders = [1, 2, 4] ∧
    ∃ fills fin,
      (((restingSells (limitBuy 4 15 250)).withKind 4 .LimitOrderType).SubmitOrder 4).1
        = .returned (newTransaction fills fin) ∧
      (((restingSells (limitBuy 4 15 250)).withKind 4 .MarketOrderType).SubmitOrder 4).1
        = .returned (newTransaction fills fin) ∧
      ((newTransaction fills fin).Commit
          ((restingSells (limitBuy 4 15 250)).withKind 4 .LimitOrderType) = none →
        (newTransaction fills fin).Commit
          ((restingSells (limitBuy 4 15 250)).withKind 4 .MarketOrderType) = none) ∧
      ∀ os tr' sL,
        (newTransaction fills fin).Commit
            ((restingSells (limitBuy 4 15 250)).withKind 4 .LimitOrderType)
          = some (os, tr', sL) →
        ∃ sM, (newTransaction fills fin).Commit
              ((restingSells (limitBuy 4 15 250)).withKind 4 .MarketOrderType)
            = some (os, tr', sM) ∧
          sM.buy = sL.buy ∧ sM.sell = sL.sell ∧ sM.queueAt = sL.queueAt ∧
          sM.nextQueue = sL.nextQueue ∧
          (∀ p, p ≠ 4 → sM.orderAt p = sL.orderAt p) ∧
          sM.orderAt 4 = { sL.orderAt 4 with Kind := .MarketOrderType } ∧
          ∀ oc, sM.view oc = sL.view oc :=
  ⟨by decide, rfl, rfl,
    C23_market_as_marketable_limit (restingSells (limitBuy 4 15 250)) 4 (by decide)
      (by decide) rfl (by decide)⟩

/-! ## The taker's own side -/

theorem removeLevels_other (oc : ContainerPtr) (rem : List QueuePtr) (s s1 : OrderBook)
    (h : runFinalizers (rem.map (removeLevel oc)) s = some s1) :
    ∀ oc', oc' ≠ oc → s1.container oc' = s.container oc' := by
  induction rem generalizing s with
  | nil =>
    simp only [List.map_nil, runFinalizers, Option.some.injEq] at h
    subst h; exact fun _ _ => rfl
  | cons q rest ih =>
    simp only [List.map_cons] at h
    rw [runFinalizers_cons_some _ _ s (OrderContainer.Remove s oc (OrderQueue.Price s q)) rfl] at h
    intro oc' hoc
    rw [ih _ h oc' hoc]
    exact (remove_spec s oc (OrderQueue.Price s q)).2.2.2.1 oc' hoc

theorem sameSide_refl (ob : OrderBook) (oc : ContainerPtr) : ob.sameSide ob oc :=
  ⟨rfl, fun _ _ => rfl, fun _ _ => rfl⟩

theorem mem_ordersOf (ob : OrderBook) (ls : List (Decimal × QueuePtr)) (p : OrderPtr) :
    p ∈ ob.ordersOf ls ↔ ∃ e ∈ ls, p ∈ ob.fifo e.2 := by
  unfold OrderBook.ordersOf
  exact List.mem_flatMap

/-- A queue filed on one side of a well-formed book is not filed on the other. -/
theorem queue_not_on_both (ob : OrderBook) (hwf : ob.WF) (dir : OrderDirection)
    (e e' : Decimal × QueuePtr) (he : e ∈ ob.levels (ownSide dir))
    (he' : e' ∈ ob.levels (opposite dir)) : e.2 ≠ e'.2 := by
  have hnd := hwf.2.2.1
  rw [List.map_append, List.nodup_append] at hnd
  intro heq
  cases dir with
  | BuyOrderDirection =>
    exact hnd.2.2 (List.mem_map.mpr ⟨e, he, rfl⟩) (List.mem_map.mpr ⟨e', he', heq.symm⟩)
  | SellOrderDirection =>
    exact hnd.2.2 (List.mem_map.mpr ⟨e', he', rfl⟩) (List.mem_map.mpr ⟨e, he, heq⟩)

/-- A completed commit of the closures staged by the walk leaves the taker's own
side as it was, when no order rests on both sides. -/
theorem walk_commit_own (ob : OrderBook) (order : OrderPtr) (s' : OrderBook) (hwf : ob.WF)
    (hdisj : ∀ p ∈ ob.ordersOf (ob.levels (ownSide (ob.orderAt order).Dir)),
      p ∉ ob.ordersOf (ob.levels (opposite (ob.orderAt order).Dir)))
    (h : runFinalizers (ob.walk order).2.2 ob = some s') :
    ob.sameSide s' (ownSide (ob.orderAt order).Dir) := by
  obtain ⟨rem, s1, hr, hcase⟩ := walk_commit ob _ order _ _ _ ob s' h
  obtain ⟨ho1, hq1, _⟩ := removeLevels_frame _ rem ob s1 hr
  have hc1 := removeLevels_other _ rem ob s1 hr _ (own_ne_opposite (ob.orderAt order).Dir)
  rcases hcase with ⟨he, _⟩ | ⟨q, e, pre, post, amt, after, h1, h2, _, _, _, h6⟩
  · rw [he]
    exact ⟨hc1, fun _ _ => by rw [hq1], fun _ _ => by rw [ho1]⟩
  · obtain ⟨p1, _, p3, _, _, _⟩ := partialEffect_spec s1 q e pre.length amt
    have hqmem : q ∈ (ob.bestFirst (ob.orderAt order).Dir).map Prod.snd := by
      rw [h1]; simp
    obtain ⟨e0, he0, hq0⟩ := List.mem_map.mp hqmem
    have he0' := mem_levels_of_bestFirst ob _ e0 he0
    have hval : e.Value ∈ ob.ordersOf (ob.levels (opposite (ob.orderAt order).Dir)) := by
      refine (mem_ordersOf ob _ _).mpr ⟨e0, he0', ?_⟩
      unfold OrderBook.fifo
      rw [hq0, h2]
      simp
    rw [h6]
    refine ⟨(p1 _).trans hc1, fun e1 he1 => ?_, fun p hp => ?_⟩
    · have hne : e1.2 ≠ q := by
        rw [← hq0]; exact queue_not_on_both ob hwf _ e1 e0 he1 he0'
      rw [p3 _ hne, hq1]
    · have hne : p ≠ e.Value := by
        intro heq
        exact hdisj p hp (heq ▸ hval)
      rw [partialEffect_orderAt]
      simp only [hne, if_false]
      rw [ho1]

/-- C26 (market orders never rest): on a well-formed book on which no order rests
on both sides, take a taker that is not resting and is returned a transaction,
being either a market order or a limit order that is filled whole.  When the
commit completes, the taker's own side (the buy side for a buy, the sell side for
a sell) is as before: the same tree, map and volume, the same queue behind each
of its levels, the same record behind each of its orders; and the taker rests
nowhere in the book. -/
theorem C26_taker_side_unchanged (ob : OrderBook) (order : OrderPtr)
    (tr tr' : Transaction) (os : List OrderPtr) (s' : OrderBook)
    (hwf : ob.WF) (hfresh : order ∉ ob.resting)
    (hdisj : ∀ p ∈ ob.ordersOf (ob.levels (ownSide (ob.orderAt order).Dir)),
      p ∉ ob.ordersOf (ob.levels (opposite (ob.orderAt order).Dir)))
    (hs : (ob.SubmitOrder order).1 = .returned tr)
    (hcase : (ob.orderAt order).Kind = .MarketOrderType ∨
      ((ob.orderAt order).Kind = .LimitOrderType ∧ ob.remaining order = 0))
    (hc : tr.Commit (ob.SubmitOrder order).2 = some (os, tr', s')) :
    ob.sameSide s' (ownSide (ob.orderAt order).Dir) ∧ order ∉ s'.resting := by
  have hv := valid_of_returned ob order tr hs
  rw [submit_book] at hc
  have hwalk : ∀ fl, tr = newTransaction fl (runFinalizers (ob.walk order).2.2) →
      ob.sameSide s' (ownSide (ob.orderAt order).Dir) ∧ order ∉ s'.resting := by
    intro fl htr
    subst htr
    simp only [Transaction.Commit, newTransaction] at hc
    cases hrun : runFinalizers (ob.walk order).2.2 ob with
    | none => rw [hrun] at hc; cases hc
    | some s1 =>
      rw [hrun] at hc
      simp only [Option.some.injEq, Prod.mk.injEq] at hc
      obtain ⟨_, _, hob⟩ := hc
      subst hob
      exact ⟨walk_commit_own ob order _ hwf hdisj hrun,
        fun hin => hfresh ((walk_commit_WF ob order _ hwf hrun).2 order hin)⟩
  rcases hcase with hk | ⟨hk, hfull⟩
  · rw [submit_market ob order hwf hv hk] at hs
    split at hs
    · cases hs
      simp only [Transaction.Commit, newTransaction, Option.some.injEq, Prod.mk.injEq] at hc
      obtain ⟨_, _, hob⟩ := hc
      subst hob
      exact ⟨sameSide_refl _ _, hfresh⟩
    · split at hs
      · cases hs
      · cases hs
        exact hwalk _ rfl
  · rw [submit_limit_walk ob order hwf hv hk, hfull, if_neg (lt_irrefl _)] at hs
    cases hs
    exact hwalk _ rfl

/-- Witness of C26: a sell of 100 at 10 and a buy of 70 at 5 rest; a market buy of
40 at 10 takes 40 from the sell and leaves the buy side as it was. -/
theorem C26_taker_side_unchanged_witness :
    ((bookAfter [limitSell 1 10 100, limitBuy 2 5 70]).setOrder 3 (marketBuy 3 10 40)).WF ∧
    ((bookAfter [limitSell 1 10 100, limitBuy 2 5 70]).setOrder 3 (marketBuy 3 10 40)).view .buy
      = [(5, [(2, 70)], 70)] ∧
    (returnedBy (((bookAfter [limitSell 1 10 100, limitBuy 2 5 70]).setOrder 3
      (marketBuy 3 10 40)).SubmitOrder 3).1).orders = [3] ∧
    (OrderQueue.update ((bookAfter [limitSell 1 10 100, limitBuy 2 5 70]).setOrder 3
      (marketBuy 3 10 40)) 0 1 60).view .sell = [(10, [(1, 60)], 40)] ∧
    ((bookAfter [limitSell 1 10 100, limitBuy 2 5 70]).setOrder 3 (marketBuy 3 10 40)).sameSide
      (OrderQueue.update ((bookAfter [limitSell 1 10 100, limitBuy 2 5 70]).setOrder 3
        (marketBuy 3 10 40)) 0 1 60) .buy ∧
    3 ∉ (OrderQueue.update ((bookAfter [limitSell 1 10 100, limitBuy 2 5 70]).setOrder 3
      (marketBuy 3 10 40)) 0 1 60).resting :=
  ⟨by decide, rfl, rfl, rfl,
    C26_taker_side_unchanged
      ((bookAfter [limitSell 1 10 100, limitBuy 2 5 70]).setOrder 3 (marketBuy 3 10 40)) 3
      (returnedBy (((bookAfter [limitSell 1 10 100, limitBuy 2 5 70]).setOrder 3
        (marketBuy 3 10 40)).SubmitOrder 3).1) ⟨[3], none⟩ [3]
      (OrderQueue.update ((bookAfter [limitSell 1 10 100, limitBuy 2 5 70]).setOrder 3
        (marketBuy 3 10 40)) 0 1 60)
      (by decide) (by decide) (by decide) rfl (Or.inl rfl) rfl⟩

/-! ## The sides never cross -/

theorem remove_levels_sublist (s : OrderBook) (oc : ContainerPtr) (price : Decimal)
    (h : s.WF) (oc' : ContainerPtr) :
    ((OrderContainer.Remove s oc price).levels oc').Sublist (s.levels oc') := by
  obtain ⟨_, _, _, hother, hown⟩ := remove_spec s oc price
  by_cases hoc : oc' = oc
  · subst hoc
    rcases hown with h1 | ⟨h1, _⟩
    · rw [levels_congr _ _ _ h1]
    · unfold OrderBook.levels
      rw [h1, remove_inorder _ _ (((WF_iff s).mp h).1 oc').1]
      exact List.filter_sublist _
  · rw [levels_congr _ _ _ (hother oc' hoc)]

theorem removeLevels_levels_sublist (oc : ContainerPtr) (rem : List QueuePtr)
    (s s1 : OrderBook) (hwf : s.WF)
    (h : runFinalizers (rem.map (removeLevel oc)) s = some s1) (oc' : ContainerPtr) :
    (s1.levels oc').Sublist (s.levels oc') := by
  induction rem generalizing s with
  | nil =>
    simp only [List.map_nil, runFinalizers, Option.some.injEq] at h
    subst h; exact List.Sublist.refl _
  | cons q rest ih =>
    simp only [List.map_cons] at h
    rw [runFinalizers_cons_some _ _ s (OrderContainer.Remove s oc (OrderQueue.Price s q)) rfl] at h
    exact (ih _ (remove_WF s oc _ hwf).1 h).trans (remove_levels_sublist s oc _ hwf oc')

/-- A completed commit of the walk's closures adds no level to either side. -/
theorem walk_commit_levels (ob : OrderBook) (order : OrderPtr) (s' : OrderBook) (hwf : ob.WF)
    (h : runFinalizers (ob.walk order).2.2 ob = some s') (oc : ContainerPtr) :
    (s'.levels oc).Sublist (ob.levels oc) := by
  obtain ⟨rem, s1, hr, hcase⟩ := walk_commit ob _ order _ _ _ ob s' h
  have hsub := removeLevels_levels_sublist _ rem ob s1 hwf hr oc
  rcases hcase with ⟨he, _⟩ | ⟨q, e, pre, post, amt, after, _, _, _, _, _, h6⟩
  · rw [he]; exact hsub
  · rw [h6, levels_congr s1 _ oc ((partialEffect_spec s1 q e pre.length amt).1 oc)]
    exact hsub

theorem uncrossed_of_subset (s s' : OrderBook) (hu : s.uncrossed)
    (h : ∀ oc, ∀ e ∈ s'.levels oc, e ∈ s.levels oc) : s'.uncrossed :=
  fun b hb a ha => hu b (h .buy b hb) a (h .sell a ha)

/-- When the walk leaves quantity and the commit of its closures completes, every
level up to the first one beyond the stop price was taken whole and its staged
closure removed it. -/
theorem matchLevels_rest_commit (ob : OrderBook) (oc : ContainerPtr) (order : OrderPtr)
    (stop : Decimal → Bool) (ms rest : List QueuePtr) (left : Decimal) (s s' : OrderBook)
    (hms : ∀ q ∈ ms, stop (OrderQueue.Price ob q) = false)
    (hrest : ∀ q, rest.head? = some q → stop (OrderQueue.Price ob q) = true)
    (hne : (matchLevels ob oc order stop (ms ++ rest) left).2.1 ≠ 0)
    (h : runFinalizers (matchLevels ob oc order stop (ms ++ rest) left).2.2 s = some s') :
    runFinalizers (ms.map (removeLevel oc)) s = some s' := by
  induction ms generalizing left s with
  | nil =>
    have hnil : matchLevels ob oc order stop ([] ++ rest) left = ([], left, []) := by
      cases rest with
      | nil => rfl
      | cons q rest =>
        have := hrest q rfl
        simp [matchLevels, this]
    rw [hnil] at h
    exact h
  | cons q ms ih =>
    have hstop := hms q (List.mem_cons_self _ _)
    simp only [List.cons_append, matchLevels, hstop, Bool.false_eq_true, if_false,
      List.append_eq] at h hne
    by_cases hz : (OrderQueue.Process ob q order left).2.1 = 0
    · simp only [hz, if_true] at hne
      exact absurd rfl hne
    · simp only [hz, if_false] at h hne
      unfold levelFinalizer at h
      by_cases hdr : (ob.orderAt order).Amount ≥ OrderQueue.Volume ob q
      · rw [if_pos hdr] at h
        obtain ⟨sa, ha, _⟩ := removeLevel_frame oc q s
        rw [runFinalizers_cons_some _ _ s sa ha] at h
        simp only [List.map_cons]
        rw [runFinalizers_cons_some _ _ s sa ha]
        exact ih _ sa (fun q' hq' => hms q' (List.mem_cons_of_mem _ hq')) hne h
      · rw [if_neg hdr] at h
        rcases process_shape ob q order left with ⟨h0, _, _⟩ | hpan | ⟨h0, _⟩
        · exact absurd h0 hz
        · simp only [runFinalizers, hpan] at h
          cases h
        · exact absurd h0 hz

theorem mem_bestFirst_iff (ob : OrderBook) (dir : OrderDirection) (e : Decimal × QueuePtr) :
    e ∈ ob.bestFirst dir ↔ e ∈ ob.levels (opposite dir) := by
  cases dir with
  | BuyOrderDirection => exact Iff.rfl
  | SellOrderDirection => exact List.mem_reverse

/-- When the walk of a submission leaves quantity and the commit of its closures
completes, every marketable level is gone from the opposite side, and the orders
and the taker's own side are as before. -/
theorem walk_rest_commit (ob : OrderBook) (order : OrderPtr) (s1 : OrderBook) (hwf : ob.WF)
    (hrem : ob.remaining order ≠ 0)
    (h : runFinalizers (ob.walk order).2.2 ob = some s1) :
    s1.orderAt = ob.orderAt ∧
    s1.container (ownSide (ob.orderAt order).Dir) = ob.container (ownSide (ob.orderAt order).Dir) ∧
    s1.bestFirst (ob.orderAt order).Dir = (ob.bestFirst (ob.orderAt order).Dir).filter
      (fun e => !marketable (ob.orderAt order).Dir (ob.orderAt order).Price e.1) := by
  have hbest := bestFirst_split ob hwf (ob.orderAt order).Dir (ob.orderAt order).Price
  have hlev := bestFirst_levelOK ob hwf (ob.orderAt order).Dir
  unfold OrderBook.remaining at hrem
  unfold OrderBook.walk at hrem h
  generalize hms : (ob.bestFirst (ob.orderAt order).Dir).filter
    (fun e => marketable (ob.orderAt order).Dir (ob.orderAt order).Price e.1) = ms at hbest
  generalize hrs : (ob.bestFirst (ob.orderAt order).Dir).filter
    (fun e => !marketable (ob.orderAt order).Dir (ob.orderAt order).Price e.1) = rest
    at hbest ⊢
  have hmsmem : ∀ e ∈ ms, e ∈ ob.bestFirst (ob.orderAt order).Dir ∧
      marketable (ob.orderAt order).Dir (ob.orderAt order).Price e.1 = true := by
    intro e he
    rw [← hms] at he
    exact List.mem_filter.mp he
  have hrsmem : ∀ e ∈ rest, e ∈ ob.bestFirst (ob.orderAt order).Dir ∧
      marketable (ob.orderAt order).Dir (ob.orderAt order).Price e.1 = false := by
    intro e he
    rw [← hrs] at he
    have := List.mem_filter.mp he
    exact ⟨this.1, by simpa using this.2⟩
  obtain ⟨s', h', ho, _, _, hc, hb⟩ := removeBest_spec ob (ob.orderAt order).Dir ms rest hwf hbest
  rw [hbest, List.map_append] at hrem h
  have hrun := matchLevels_rest_commit ob _ order _ (ms.map Prod.snd) (rest.map Prod.snd) _ ob s1
    (by
      intro q hq
      obtain ⟨e, he, rfl⟩ := List.mem_map.mp hq
      obtain ⟨hb', hm⟩ := hmsmem e he
      rw [stopOf_eq]
      unfold OrderQueue.Price
      rw [(hlev e hb').1, hm]; rfl)
    (by
      intro q hq
      cases rest with
      | nil => cases hq
      | cons e rest =>
        simp only [List.map_cons, List.head?_cons, Option.some.injEq] at hq
        subst hq
        obtain ⟨hb', hm⟩ := hrsmem e (List.mem_cons_self _ _)
        rw [stopOf_eq]
        unfold OrderQueue.Price
        rw [(hlev e hb').1, hm]; rfl)
    hrem h
  rw [List.map_map] at hrun
  have heq : s' = s1 := by
    have : some s' = some s1 := h'.symm.trans hrun
    exact Option.some.inj this
  subst heq
  exact ⟨ho, hc, hb⟩

/-- A submission followed by its commit keeps the sides from crossing. -/
theorem commit_uncrossed (ob : OrderBook) (order : OrderPtr) (tr tr' : Transaction)
    (fills : List OrderPtr) (ob' : OrderBook) (hwf : ob.WF) (hu : ob.uncrossed)
    (hs : (ob.SubmitOrder order).1 = .returned tr)
    (hc : tr.Commit (ob.SubmitOrder order).2 = some (fills, tr', ob')) :
    ob'.uncrossed := by
  have hv := valid_of_returned ob order tr hs
  rw [submit_book] at hc
  have hwalk : ∀ fl, tr = newTransaction fl (runFinalizers (ob.walk order).2.2) →
      ob'.uncrossed := by
    intro fl htr
    subst htr
    simp only [Transaction.Commit, newTransaction] at hc
    cases hrun : runFinalizers (ob.walk order).2.2 ob with
    | none => rw [hrun] at hc; cases hc
    | some s' =>
      rw [hrun] at hc
      simp only [Option.some.injEq, Prod.mk.injEq] at hc
      obtain ⟨_, _, hob⟩ := hc
      subst hob
      exact uncrossed_of_subset ob _ hu
        (fun oc e he => (walk_commit_levels ob order _ hwf hrun oc).subset he)
  have hkind : (ob.orderAt order).Kind = .MarketOrderType ∨
      (ob.orderAt order).Kind = .LimitOrderType := by
    cases (ob.orderAt order).Kind
    · exact Or.inl rfl
    · exact Or.inr rfl
  rcases hkind with hk | hk
  · rw [submit_market ob order hwf hv hk] at hs
    split at hs
    · cases hs
      simp only [Transaction.Commit, newTransaction, Option.some.injEq, Prod.mk.injEq] at hc
      obtain ⟨_, _, hob⟩ := hc
      subst hob
      exact hu
    · split at hs
      · cases hs
      · cases hs
        exact hwalk _ rfl
  · rw [submit_limit_walk ob order hwf hv hk] at hs
    split at hs
    · rename_i hpos
      cases hs
      simp only [Transaction.Commit, newTransaction, restFinalizer] at hc
      cases hrun : runFinalizers (ob.walk order).2.2 ob with
      | none => rw [hrun] at hc; cases hc
      | some s1 =>
        rw [hrun] at hc
        simp only [Option.some.injEq, Prod.mk.injEq] at hc
        obtain ⟨_, _, hob⟩ := hc
        subst hob
        obtain ⟨hw1, _⟩ := walk_commit_WF ob order s1 hwf hrun
        obtain ⟨ho1, hc1, hb1⟩ := walk_rest_commit ob order s1 hwf (ne_of_gt hpos) hrun
        have hside := sideOK_of_WF s1 hw1 (ownSide (ob.orderAt order).Dir)
        obtain ⟨q, _, hother, _, _, hlv⟩ := rest_spec s1 (ownSide (ob.orderAt order).Dir) order
          (ob.remaining order) (indexed_of_WF s1 hw1 _) hside.2.2.1
          (fun e he => (hside.2.2.2 e he).1)
        have hP : (s1.orderAt order).Price = (ob.orderAt order).Price := by rw [ho1]
        have hopp : ∀ e ∈ (OrderContainer.Add
            (s1.setOrder order { s1.orderAt order with Amount := ob.remaining order })
            (ownSide (ob.orderAt order).Dir) order).levels (opposite (ob.orderAt order).Dir),
            e ∈ ob.levels (opposite (ob.orderAt order).Dir) ∧
            marketable (ob.orderAt order).Dir (ob.orderAt order).Price e.1 = false := by
          intro e he
          rw [levels_congr s1 _ _ (hother _ (own_ne_opposite _).symm),
            ← mem_bestFirst_iff, hb1] at he
          obtain ⟨h1, h2⟩ := List.mem_filter.mp he
          exact ⟨(mem_bestFirst_iff ob _ e).mp h1, by simpa using h2⟩
        have hown : ∀ e ∈ (OrderContainer.Add
            (s1.setOrder order { s1.orderAt order with Amount := ob.remaining order })
            (ownSide (ob.orderAt order).Dir) order).levels (ownSide (ob.orderAt order).Dir),
            e ∈ ob.levels (ownSide (ob.orderAt order).Dir) ∨
            e.1 = (ob.orderAt order).Price := by
          intro e he
          have hlo : s1.levels (ownSide (ob.orderAt order).Dir)
              = ob.levels (ownSide (ob.orderAt order).Dir) := levels_congr ob s1 _ hc1
          rcases hlv with ⟨_, hsame, _⟩ | ⟨_, _, ⟨l1, l2, hl, hl'⟩, _⟩
          · rw [hsame, hlo] at he
            exact Or.inl he
          · rw [hl'] at he
            rw [← hlo, hl]
            rcases List.mem_append.mp he with h1 | h1
            · exact Or.inl (List.mem_append_left _ h1)
            · rcases List.mem_cons.mp h1 with h2 | h2
              · exact Or.inr (by rw [h2]; exact hP)
              · exact Or.inl (List.mem_append_right _ h2)
        have hdir : (ob.orderAt order).Dir = .BuyOrderDirection ∨
            (ob.orderAt order).Dir = .SellOrderDirection := by
          cases (ob.orderAt order).Dir
          · exact Or.inl rfl
          · exact Or.inr rfl
        rcases hdir with hd | hd
        · rw [hd] at hopp hown
          simp only [opposite, ownSide, marketable, decide_eq_false_iff_not, not_le] at hopp hown
          intro b hb a ha
          rw [hd] at hb ha
          obtain ⟨ha1, ha2⟩ := hopp a ha
          rcases hown b hb with h1 | h1
          · exact hu b h1 a ha1
          · rw [h1]; exact ha2
        · rw [hd] at hopp hown
          simp only [opposite, ownSide, marketable, decide_eq_false_iff_not, not_le] at hopp hown
          intro b hb a ha
          rw [hd] at hb ha
          obtain ⟨hb1, hb2⟩ := hopp b hb
          rcases hown a ha with h1 | h1
          · exact hu b hb1 a h1
          · rw [h1]; exact hb2
    · cases hs
      exact hwalk _ rfl

/-- One call of the test helper keeps the sides from crossing. -/
theorem submitOrder_uncrossed (ob : OrderBook) (n p : OrderPtr) (o : Order)
    (res : List OrderPtr × OrderBook) (hr : ob.reached n) (hu : ob.uncrossed) (hnp : n ≤ p)
    (h : submitOrder ob p o = some res) : res.2.uncrossed := by
  have hfresh : p ∉ ob.resting := fun hp =>
    Nat.lt_irrefl p (Nat.lt_of_lt_of_le (hr.2 p hp) hnp)
  obtain ⟨hw0, _⟩ := setOrder_WF ob p o hr.1 (fun hp => absurd hp hfresh)
  have hu0 : (ob.setOrder p o).uncrossed :=
    uncrossed_of_subset ob _ hu (fun oc e he => by
      rw [levels_congr ob _ oc (container_setOrder ob p o oc)] at he; exact he)
  unfold submitOrder at h
  have hbook := submit_book (ob.setOrder p o) p
  cases hsub : (ob.setOrder p o).SubmitOrder p with
  | mk out ob1 =>
    rw [hsub] at h hbook
    simp only at hbook
    subst hbook
    cases out with
    | returned tr =>
      simp only at h
      cases hcm : tr.Commit (ob.setOrder p o) with
      | none => rw [hcm] at h; cases h
      | some r =>
        rw [hcm] at h
        simp only [Option.some.injEq] at h
        subst h
        exact commit_uncrossed (ob.setOrder p o) p tr r.2.1 r.1 r.2.2 hw0 hu0
          (by rw [hsub]) (by rw [submit_book]; exact hcm)
    | failed err => cases h
    | panicked => cases h
    | running => cases h

theorem submitAll_uncrossed (orders : List Order) (ob ob' : OrderBook) (n p : OrderPtr)
    (hr : ob.reached n) (hu : ob.uncrossed) (hnp : n ≤ p)
    (h : submitAll ob p orders = some ob') : ob'.uncrossed := by
  induction orders generalizing ob n p with
  | nil =>
    simp only [submitAll, Option.some.injEq] at h
    subst h; exact hu
  | cons o rest ih =>
    simp only [submitAll] at h
    cases hso : submitOrder ob p o with
    | none => rw [hso] at h; cases h
    | some res =>
      rw [hso] at h
      exact ih res.2 (p + 1) (p + 1) (submitOrder_reached ob n p o res hr hnp hso)
        (submitOrder_uncrossed ob n p o res hr hu hnp hso) (le_refl _) h

theorem tree_Left_spec (t : Tree) (n : Node) (h : t.Left = some n) :
    ∃ rest, t.inorder = (n.Key, n.Value) :: rest := by
  cases t with
  | nil => cases h
  | node l k v r =>
    simp only [Tree.Left, Option.some.injEq] at h
    subst h
    refine ⟨(descendLeft l k v r []).after, ?_⟩
    rw [(descendLeft_spec l k v r []).2]
    simp [Tree.inorder, upAfter]

theorem tree_Right_spec (t : Tree) (n : Node) (h : t.Right = some n) :
    ∃ front, t.inorder = front ++ [(n.Key, n.Value)] := by
  cases t with
  | nil => cases h
  | node l k v r =>
    simp only [Tree.Right, Option.some.injEq] at h
    subst h
    refine ⟨(descendRight l k v r []).before, ?_⟩
    rw [(descendRight_spec l k v r []).2]
    simp [Tree.inorder, upBefore]

/-- C25 (the book is never crossed): after any sequence of submissions, each
returned a transaction and committed, starting from the empty book, if the buy
side has a best level (`priceTree.Right()`, its highest price) and the sell side
has a best level (`priceTree.Left()`, its lowest price), then the best buy price is
strictly below the best sell price; and every resting buy order is priced
strictly below every resting sell order. -/
theorem C25_book_never_crossed (orders : List Order) (p : OrderPtr) (ob' : OrderBook)
    (h : submitAll NewOrderBook p orders = some ob') :
    (∀ bid ask, ob'.buy.priceTree.Right = some bid → ob'.sell.priceTree.Left = some ask →
      (∀ b ∈ ob'.levels .buy, b.1 ≤ bid.Key) ∧ (∀ a ∈ ob'.levels .sell, ask.Key ≤ a.1) ∧
      bid.Key < ask.Key) ∧
    (∀ x ∈ ob'.ordersOf (ob'.levels .buy), ∀ y ∈ ob'.ordersOf (ob'.levels .sell),
      (ob'.orderAt x).Price < (ob'.orderAt y).Price) := by
  obtain ⟨n, hr⟩ := submitAll_reached orders NewOrderBook ob' p p (newOrderBook_reached p)
    (le_refl _) h
  have hu : ob'.uncrossed := submitAll_uncrossed orders NewOrderBook ob' p p
    (newOrderBook_reached p) (by decide) (le_refl _) h
  refine ⟨fun bid ask hb ha => ?_, fun x hx y hy => ?_⟩
  · obtain ⟨front, hf⟩ := tree_Right_spec _ bid hb
    obtain ⟨rest, hrest⟩ := tree_Left_spec _ ask ha
    have hbo : (ob'.levels .buy).Pairwise (fun a b => a.1 < b.1) := by
      have := hr.1.1.1
      unfold Tree.ordered at this
      exact List.pairwise_map.mp this
    have hso : (ob'.levels .sell).Pairwise (fun a b => a.1 < b.1) := by
      have := hr.1.2.1.1
      unfold Tree.ordered at this
      exact List.pairwise_map.mp this
    have hlb : ob'.levels .buy = front ++ [(bid.Key, bid.Value)] := hf
    have hls : ob'.levels .sell = (ask.Key, ask.Value) :: rest := hrest
    refine ⟨fun b hb' => ?_, fun a ha' => ?_, ?_⟩
    · rw [hlb] at hb' hbo
      rcases List.mem_append.mp hb' with h1 | h1
      · exact le_of_lt ((List.pairwise_append.mp hbo).2.2 b h1 _ (List.mem_singleton_self _))
      · rw [List.mem_singleton.mp h1]
    · rw [hls] at ha' hso
      rcases List.mem_cons.mp ha' with h1 | h1
      · rw [h1]
      · exact le_of_lt ((List.pairwise_cons.mp hso).1 a h1)
    · exact hu (bid.Key, bid.Value) (by rw [hlb]; simp) (ask.Key, ask.Value) (by rw [hls]; simp)
  · unfold OrderBook.ordersOf at hx hy
    obtain ⟨b, hb, hxb⟩ := List.mem_flatMap.mp hx
    obtain ⟨a, ha, hya⟩ := List.mem_flatMap.mp hy
    rw [price_of_mem_fifo ob' b x (hr.1.1.2.2.2 b hb) hxb,
      price_of_mem_fifo ob' a y (hr.1.2.1.2.2.2 a ha) hya]
    exact hu b hb a ha

/-- Witness of C25: a sell of 100 at 10, a buy of 70 at 5 and a buy of 40 at 10 leave
a buy level at 5 and a sell level at 10. -/
theorem C25_book_never_crossed_witness :
    submitAll NewOrderBook 1 [limitSell 1 10 100, limitBuy 2 5 70, limitBuy 3 10 40]
      = some (bookAfter [limitSell 1 10 100, limitBuy 2 5 70, limitBuy 3 10 40]) ∧
    (bookAfter [limitSell 1 10 100, limitBuy 2 5 70, limitBuy 3 10 40]).view .buy
      = [(5, [(2, 70)], 70)] ∧
    (bookAfter [limitSell 1 10 100, limitBuy 2 5 70, limitBuy 3 10 40]).view .sell
      = [(10, [(1, 60)], 40)] ∧
    (∀ bid ask,
      (bookAfter [limitSell 1 10 100, limitBuy 2 5 70, limitBuy 3 10 40]).buy.priceTree.Right
        = some bid →
      (bookAfter [limitSell 1 10 100, limitBuy 2 5 70, limitBuy 3 10 40]).sell.priceTree.Left
        = some ask →
      (∀ b ∈ (bookAfter [limitSell 1 10 100, limitBuy 2 5 70, limitBuy 3 10 40]).levels .buy,
        b.1 ≤ bid.Key) ∧
      (∀ a ∈ (bookAfter [limitSell 1 10 100, limitBuy 2 5 70, limitBuy 3 10 40]).levels .sell,
        ask.Key ≤ a.1) ∧
      bid.Key < ask.Key) ∧
    (∀ x ∈ (bookAfter [limitSell 1 10 100, limitBuy 2 5 70, limitBuy 3 10 40]).ordersOf
        ((bookAfter [limitSell 1 10 100, limitBuy 2 5 70, limitBuy 3 10 40]).levels .buy),
      ∀ y ∈ (bookAfter [limitSell 1 10 100, limitBuy 2 5 70, limitBuy 3 10 40]).ordersOf
        ((bookAfter [limitSell 1 10 100, limitBuy 2 5 70, limitBuy 3 10 40]).levels .sell),
      ((bookAfter [limitSell 1 10 100, limitBuy 2 5 70, limitBuy 3 10 40]).orderAt x).Price
        < ((bookAfter [limitSell 1 10 100, limitBuy 2 5 70, limitBuy 3 10 40]).orderAt y).Price) :=
  ⟨rfl, rfl, rfl,
    C25_book_never_crossed [limitSell 1 10 100, limitBuy 2 5 70, limitBuy 3 10 40] 1
      (bookAfter [limitSell 1 10 100, limitBuy 2 5 70, limitBuy 3 10 40]) rfl⟩

/-! ## The shapes of a returned transaction and what its commit does -/

theorem walk_rest_queues (ob : OrderBook) (order : OrderPtr) (s1 : OrderBook)
    (hrem : ob.remaining order ≠ 0)
    (h : runFinalizers (ob.walk order).2.2 ob = some s1) : s1.queueAt = ob.queueAt := by
  obtain ⟨rem, s1', hr, hcase⟩ := walk_commit ob _ order _ _ _ ob s1 h
  obtain ⟨_, hq, _⟩ := removeLevels_frame _ rem ob s1' hr
  rcases hcase with ⟨he, _⟩ | ⟨q, e, pre, post, amt, after, _, _, _, h4, _, _⟩
  · rw [he]; exact hq
  · exact absurd h4 hrem

/-- The closure staged for a limit taker with a rest, when it completes, rests the
taker. -/
theorem rest_commit_rested (ob : OrderBook) (order : OrderPtr) (s1 : OrderBook) (hwf : ob.WF)
    (hpos : ob.remaining order > 0)
    (hrun : runFinalizers (ob.walk order).2.2 ob = some s1) :
    ob.rested (OrderContainer.Add
      (s1.setOrder order { s1.orderAt order with Amount := ob.remaining order })
      (ownSide (ob.orderAt order).Dir) order) order := by
  obtain ⟨hw1, _⟩ := walk_commit_WF ob order s1 hwf hrun
  obtain ⟨ho1, hc1, _⟩ := walk_rest_commit ob order s1 hwf (ne_of_gt hpos) hrun
  have hq1 := walk_rest_queues ob order s1 (ne_of_gt hpos) hrun
  have hside := sideOK_of_WF s1 hw1 (ownSide (ob.orderAt order).Dir)
  obtain ⟨q, hoa, _, _, _, hlv⟩ := rest_spec s1 (ownSide (ob.orderAt order).Dir) order
    (ob.remaining order) (indexed_of_WF s1 hw1 _) hside.2.2.1
    (fun e he => (hside.2.2.2 e he).1)
  have hP : (s1.orderAt order).Price = (ob.orderAt order).Price := by rw [ho1]
  have hlo : s1.levels (ownSide (ob.orderAt order).Dir)
      = ob.levels (ownSide (ob.orderAt order).Dir) := levels_congr ob s1 _ hc1
  have hfq : ∀ q', s1.fifo q' = ob.fifo q' := by
    intro q'; unfold OrderBook.fifo; rw [hq1]
  have hamt : ((OrderContainer.Add
      (s1.setOrder order { s1.orderAt order with Amount := ob.remaining order })
      (ownSide (ob.orderAt order).Dir) order).orderAt order).Amount = ob.remaining order := by
    rw [hoa]; simp [OrderBook.setOrder]
  rw [hP, hlo] at hlv
  refine ⟨q, ?_, hamt, ?_⟩
  · rcases hlv with ⟨hmem, hsame, _⟩ | ⟨_, _, ⟨l1, l2, _, hl'⟩, _⟩
    · rw [hsame]; exact hmem
    · rw [hl']; simp
  · rcases hlv with ⟨hmem, _, hf⟩ | ⟨_, hno, _, hf⟩
    · exact Or.inl ⟨hmem, by rw [hf, hfq]⟩
    · exact Or.inr ⟨hno, hf⟩

/-- A book in which nothing changed has not rested the taker. -/
theorem not_rested_self (ob : OrderBook) (order : OrderPtr) : ¬ ob.rested ob order := by
  rintro ⟨q, hmem, _, ⟨_, hf⟩ | ⟨hno, _⟩⟩
  · have := congrArg List.length hf
    simp at this
  · exact hno _ hmem rfl

/-- C13 as stated fails at three concrete inputs.  (a) A limit buy of 70 at 5 on the
book of the tests meets no marketable sell: the returned list is empty for an
order that is not a market order.  (b) After a sell of 100 at 10 and a buy of 80
at 10 were committed, a limit buy of 50 at 10 is returned the list `[1]`, which
does not end with the taker, and its commit panics, so the commit does not rest
the taker.  (c) After a sell of 100 at 10, buys of 10, 5 and 10 at 10 and a sell
of 30 at 10 were committed, the sell side reads `Volume()` = 75 and holds 30; a
market buy of 20 at 10 is returned the empty list although neither reading of the
volume is below 20.  At each input none of the three shapes as stated holds. -/
theorem C13_shapes_as_stated_fail :
    (((restingSells (limitBuy 4 5 70)).SubmitOrder 4).1
        = .returned (returnedBy ((restingSells (limitBuy 4 5 70)).SubmitOrder 4).1) ∧
      (returnedBy ((restingSells (limitBuy 4 5 70)).SubmitOrder 4).1).orders = [] ∧
      ¬ (shapeFilled (restingSells (limitBuy 4 5 70)) 4
            (returnedBy ((restingSells (limitBuy 4 5 70)).SubmitOrder 4).1) ∨
          shapeRestsStated (restingSells (limitBuy 4 5 70)) 4
            (returnedBy ((restingSells (limitBuy 4 5 70)).SubmitOrder 4).1) ∨
          shapeDeclinedStated (restingSells (limitBuy 4 5 70)) 4
            (returnedBy ((restingSells (limitBuy 4 5 70)).SubmitOrder 4).1))) ∧
    ((((bookAfter [limitSell 1 10 100, limitBuy 2 10 80]).setOrder 3
          (limitBuy 3 10 50)).SubmitOrder 3).1
        = .returned (returnedBy (((bookAfter [limitSell 1 10 100, limitBuy 2 10 80]).setOrder 3
            (limitBuy 3 10 50)).SubmitOrder 3).1) ∧
      (returnedBy (((bookAfter [limitSell 1 10 100, limitBuy 2 10 80]).setOrder 3
        (limitBuy 3 10 50)).SubmitOrder 3).1).orders = [1] ∧
      (returnedBy (((bookAfter [limitSell 1 10 100, limitBuy 2 10 80]).setOrder 3
        (limitBuy 3 10 50)).SubmitOrder 3).1).Commit
          ((bookAfter [limitSell 1 10 100, limitBuy 2 10 80]).setOrder 3 (limitBuy 3 10 50))
        = none ∧
      ¬ (shapeFilled ((bookAfter [limitSell 1 10 100, limitBuy 2 10 80]).setOrder 3
              (limitBuy 3 10 50)) 3
            (returnedBy (((bookAfter [limitSell 1 10 100, limitBuy 2 10 80]).setOrder 3
              (limitBuy 3 10 50)).SubmitOrder 3).1) ∨
          shapeRestsStated ((bookAfter [limitSell 1 10 100, limitBuy 2 10 80]).setOrder 3
              (limitBuy 3 10 50)) 3
            (returnedBy (((bookAfter [limitSell 1 10 100, limitBuy 2 10 80]).setOrder 3
              (limitBuy 3 10 50)).SubmitOrder 3).1) ∨
          shapeDeclinedStated ((bookAfter [limitSell 1 10 100, limitBuy 2 10 80]).setOrder 3
              (limitBuy 3 10 50)) 3
            (returnedBy (((bookAfter [limitSell 1 10 100, limitBuy 2 10 80]).setOrder 3
              (limitBuy 3 10 50)).SubmitOrder 3).1))) ∧
    ((((bookAfter [limitSell 1 10 100, limitBuy 2 10 10, limitBuy 3 10 5, limitBuy 4 10 10,
          limitSell 5 10 30]).setOrder 6 (marketBuy 6 10 20)).SubmitOrder 6).1
        = .returned (returnedBy (((bookAfter [limitSell 1 10 100, limitBuy 2 10 10,
            limitBuy 3 10 5, limitBuy 4 10 10, limitSell 5 10 30]).setOrder 6
              (marketBuy 6 10 20)).SubmitOrder 6).1) ∧
      (returnedBy (((bookAfter [limitSell 1 10 100, limitBuy 2 10 10, limitBuy 3 10 5,
        limitBuy 4 10 10, limitSell 5 10 30]).setOrder 6
          (marketBuy 6 10 20)).SubmitOrder 6).1).orders = [] ∧
      (bookAfter [limitSell 1 10 100, limitBuy 2 10 10, limitBuy 3 10 5, limitBuy 4 10 10,
        limitSell 5 10 30]).view .sell = [(10, [(5, 30)], 30)] ∧
      OrderContainer.Volume (bookAfter [limitSell 1 10 100, limitBuy 2 10 10, limitBuy 3 10 5,
        limitBuy 4 10 10, limitSell 5 10 30]) .sell = 75 ∧
      ¬ (shapeFilled ((bookAfter [limitSell 1 10 100, limitBuy 2 10 10, limitBuy 3 10 5,
              limitBuy 4 10 10, limitSell 5 10 30]).setOrder 6 (marketBuy 6 10 20)) 6
            (returnedBy (((bookAfter [limitSell 1 10 100, limitBuy 2 10 10, limitBuy 3 10 5,
              limitBuy 4 10 10, limitSell 5 10 30]).setOrder 6
                (marketBuy 6 10 20)).SubmitOrder 6).1) ∨
          shapeRestsStated ((bookAfter [limitSell 1 10 100, limitBuy 2 10 10, limitBuy 3 10 5,
              limitBuy 4 10 10, limitSell 5 10 30]).setOrder 6 (marketBuy 6 10 20)) 6
            (returnedBy (((bookAfter [limitSell 1 10 100, limitBuy 2 10 10, limitBuy 3 10 5,
              limitBuy 4 10 10, limitSell 5 10 30]).setOrder 6
                (marketBuy 6 10 20)).SubmitOrder 6).1) ∨
          shapeDeclinedStated ((bookAfter [limitSell 1 10 100, limitBuy 2 10 10,
              limitBuy 3 10 5, limitBuy 4 10 10, limitSell 5 10 30]).setOrder 6
                (marketBuy 6 10 20)) 6
            (returnedBy (((bookAfter [limitSell 1 10 100, limitBuy 2 10 10, limitBuy 3 10 5,
              limitBuy 4 10 10, limitSell 5 10 30]).setOrder 6
                (marketBuy 6 10 20)).SubmitOrder 6).1))) := by
  refine ⟨⟨rfl, rfl, ?_⟩, ⟨rfl, rfl, rfl, ?_⟩, ⟨rfl, rfl, rfl, rfl, ?_⟩⟩
  · rintro (h | h | h)
    · exact h.1 rfl
    · exact h.1 rfl
    · exact absurd h.2.1 (by decide)
  · rintro (h | h | h)
    · exact absurd h.2.1 (by decide)
    · obtain ⟨os, tr', s, hc, _⟩ := h.2.2
      have hnone : (returnedBy (((bookAfter [limitSell 1 10 100, limitBuy 2 10 80]).setOrder 3
          (limitBuy 3 10 50)).SubmitOrder 3).1).Commit
            ((bookAfter [limitSell 1 10 100, limitBuy 2 10 80]).setOrder 3 (limitBuy 3 10 50))
          = none := rfl
      rw [hnone] at hc
      cases hc
    · exact absurd h.1 (by decide)
  · rintro (h | h | h)
    · exact h.1 rfl
    · exact h.1 rfl
    · exact absurd h.2.2 (by decide)

/-- C13 as amended: on a well-formed book, for an order that does not itself rest
on the opposite side and for which `SubmitOrder` returns a transaction, exactly one
of three shapes holds: (i) the list of orders is not empty, ends with the taker,
and the remaining quantity is zero; (ii) the list of orders, empty or not, does not
end with the taker, and a commit that completes rests the taker in the book: the
level of the taker's price on its own side then holds the taker at its tail, with
the remaining quantity as its amount; (iii) the list is empty and the order is a
market order that was declined: its commit completes and leaves the book as it
is. -/
theorem C13_return_shapes (ob : OrderBook) (order : OrderPtr) (tr : Transaction)
    (hwf : ob.WF)
    (hfresh : order ∉ ob.ordersOf (ob.bestFirst (ob.orderAt order).Dir))
    (hs : (ob.SubmitOrder order).1 = .returned tr) :
    (shapeFilled ob order tr ∧ ¬ shapeRests ob order tr ∧ ¬ shapeDeclined ob order tr) ∨
    (¬ shapeFilled ob order tr ∧ shapeRests ob order tr ∧ ¬ shapeDeclined ob order tr) ∨
    (¬ shapeFilled ob order tr ∧ ¬ shapeRests ob order tr ∧ shapeDeclined ob order tr) := by
  have hv := valid_of_returned ob order tr hs
  have hnn := remaining_nonneg ob order hv
  have hfilled : ∀ fin, tr = newTransaction ((ob.walk order).1 ++ [order]) fin →
      ¬ ob.remaining order > 0 →
      (shapeFilled ob order tr ∧ ¬ shapeRests ob order tr ∧ ¬ shapeDeclined ob order tr) := by
    intro fin htr hle
    subst htr
    refine ⟨⟨by simp [newTransaction], by simp [newTransaction], ?_⟩, ?_, ?_⟩
    · exact le_antisymm (not_lt.mp hle) hnn
    · intro h; exact h.1 (by simp [newTransaction])
    · intro h; exact absurd h.1 (by simp [newTransaction])
  cases hk : (ob.orderAt order).Kind with
  | MarketOrderType =>
    rw [submit_market ob order hwf hv hk] at hs
    split at hs
    · cases hs
      refine Or.inr (Or.inr ⟨fun h => h.1 rfl, fun h => ?_, rfl, hk, ⟨_, rfl⟩⟩)
      exact not_rested_self ob order (h.2 _ _ _ rfl)
    · split at hs
      · cases hs
      · rename_i hle
        cases hs
        exact Or.inl (hfilled _ rfl hle)
  | LimitOrderType =>
    rw [submit_limit_walk ob order hwf hv hk] at hs
    split at hs
    · rename_i hpos
      cases hs
      refine Or.inr (Or.inl ⟨fun h => ?_, ⟨fun h => ?_, fun os tr' s hc => ?_⟩, fun h => ?_⟩)
      · have := h.2.2
        linarith
      · exact hfresh ((walk_fills ob order).subset (getLast?_mem _ _ h))
      · simp only [Transaction.Commit, newTransaction, restFinalizer] at hc
        cases hrun : runFinalizers (ob.walk order).2.2 ob with
        | none => rw [hrun] at hc; cases hc
        | some s1 =>
          rw [hrun] at hc
          simp only [Option.some.injEq, Prod.mk.injEq] at hc
          obtain ⟨_, _, hob⟩ := hc
          subst hob
          exact rest_commit_rested ob order s1 hwf hpos hrun
      · have h2 := h.2.1
        rw [hk] at h2
        cases h2
    · rename_i hle
      cases hs
      exact Or.inl (hfilled _ rfl hle)

/-- Witness of C13: the limit buy of 70 at 5 on the book of the tests has shape
(ii) with no order returned; its commit completes and files the taker alone in a
new level at 5 of the buy side. -/
theorem C13_return_shapes_witness :
    (restingSells (limitBuy 4 5 70)).WF ∧
    (∃ os tr' s, (returnedBy ((restingSells (limitBuy 4 5 70)).SubmitOrder 4).1).Commit
        (restingSells (limitBuy 4 5 70)) = some (os, tr', s) ∧
      s.view .buy = [(5, [(4, 70)], 70)]) ∧
    ((shapeFilled (restingSells (limitBuy 4 5 70)) 4
          (returnedBy ((restingSells (limitBuy 4 5 70)).SubmitOrder 4).1) ∧
        ¬ shapeRests (restingSells (limitBuy 4 5 70)) 4
          (returnedBy ((restingSells (limitBuy 4 5 70)).SubmitOrder 4).1) ∧
        ¬ shapeDeclined (restingSells (limitBuy 4 5 70)) 4
          (returnedBy ((restingSells (limitBuy 4 5 70)).SubmitOrder 4).1)) ∨
      (¬ shapeFilled (restingSells (limitBuy 4 5 70)) 4
          (returnedBy ((restingSells (limitBuy 4 5 70)).SubmitOrder 4).1) ∧
        shapeRests (restingSells (limitBuy 4 5 70)) 4
          (returnedBy ((restingSells (limitBuy 4 5 70)).SubmitOrder 4).1) ∧
        ¬ shapeDeclined (restingSells (limitBuy 4 5 70)) 4
          (returnedBy ((restingSells (limitBuy 4 5 70)).SubmitOrder 4).1)) ∨
      (¬ shapeFilled (restingSells (limitBuy 4 5 70)) 4
          (returnedBy ((restingSells (limitBuy 4 5 70)).SubmitOrder 4).1) ∧
        ¬ shapeRests (restingSells (limitBuy 4 5 70)) 4
          (returnedBy ((restingSells (limitBuy 4 5 70)).SubmitOrder 4).1) ∧
        shapeDeclined (restingSells (limitBuy 4 5 70)) 4
          (returnedBy ((restingSells (limitBuy 4 5 70)).SubmitOrder 4).1))) :=
  ⟨by decide, ⟨_, _, _, rfl, rfl⟩,
    C13_return_shapes (restingSells (limitBuy 4 5 70)) 4
      (returnedBy ((restingSells (limitBuy 4 5 70)).SubmitOrder 4).1)
      (by decide) (by decide) rfl⟩

end Matcher
